import Mathlib

/-! Ixe shared log: the primary sequencer (`MetaLogPrimary`).

A shallow embedding of `src/log/log_space.cpp` (class `MetaLogPrimary`) together with the
parts of `src/log/view.h` it reads.  Conventions of the embedding:

* `absl::flat_hash_map` is an association list in which a key is bound at most once
  (`mapFind`, `mapSet`, `mapTouch`); `absl::flat_hash_set` is a list without repetition
  (`setInsert`, `setErase`).  The iteration order of a container is the order of its list.
* `uint16_t`/`uint32_t`/`uint64_t` values are natural numbers; arithmetic that can wrap is
  written with an explicit `% 2 ^ 32`.
* an operation that ends in `HLOG(FATAL)` or in a throwing `.at(...)` returns `none`.
* `DCHECK`s compile to nothing in a release build; they are not part of the functions and
  are stated as theorems instead.
-/

namespace faas
namespace log

/-! ## Containers -/

/-- Lookup in a `flat_hash_map`: `m.find(k)`, `none` when the key is absent. -/
def mapFind {κ ν : Type} [DecidableEq κ] : List (κ × ν) → κ → Option ν
  | [], _ => none
  | (k', v) :: rest, k => if k' = k then some v else mapFind rest k

/-- Membership test `m.contains(k)`. -/
def mapContains {κ ν : Type} [DecidableEq κ] (m : List (κ × ν)) (k : κ) : Bool :=
  (mapFind m k).isSome

/-- Assignment `m[k] = v`: overwrite the binding of `k`, or add one. -/
def mapSet {κ ν : Type} [DecidableEq κ] : List (κ × ν) → κ → ν → List (κ × ν)
  | [], k, v => [(k, v)]
  | (k', v') :: rest, k, v =>
    if k' = k then (k, v) :: rest else (k', v') :: mapSet rest k v

/-- Effect of reading `m[k]` through `operator[]`: an absent key is bound to the default. -/
def mapTouch {κ ν : Type} [DecidableEq κ] (m : List (κ × ν)) (k : κ) (dflt : ν) : List (κ × ν) :=
  if mapContains m k then m else mapSet m k dflt

/-- Insertion `s.insert(x)` into a `flat_hash_set`. -/
def setInsert (s : List Nat) (x : Nat) : List Nat :=
  if x ∈ s then s else s ++ [x]

/-- Removal `s.erase(x)` from a `flat_hash_set`. -/
def setErase (s : List Nat) (x : Nat) : List Nat :=
  s.filter (fun y => decide (y ≠ x))

/-! ## Bit helpers (`utils/bits.h`) -/

/-- Largest `uint32_t`, `std::numeric_limits<uint32_t>::max()`. -/
def UINT32_MAX : Nat := 2 ^ 32 - 1

/-- Modelled from the spec: `bits::JoinTwo16` of `utils/bits.h`, which is not part of the
sources at hand; the spec writes the result as `sequencer_id‖local_shard_id`, the first
argument in the high 16 bits. -/
def JoinTwo16 (high low : Nat) : Nat := (high % 2 ^ 16) * 2 ^ 16 + low % 2 ^ 16

/-- Modelled from the spec: `bits::LowHalf32` of `utils/bits.h` (not part of the sources at
hand): the low 16 bits of a 32-bit value, the `local_shard_id` of a global shard id. -/
def LowHalf32 (x : Nat) : Nat := x % 2 ^ 16

/-- Modelled from the spec: `bits::LowHalf64` of `utils/bits.h` (not part of the sources at
hand): the low 32 bits of a 64-bit value. -/
def LowHalf64 (x : Nat) : Nat := x % 2 ^ 32

/-- Subtraction of two `uint32_t` values. -/
def sub32 (a b : Nat) : Nat := (a + 2 ^ 32 - b % 2 ^ 32) % 2 ^ 32

/-- Addition of two `uint32_t` values. -/
def add32 (a b : Nat) : Nat := (a + b) % 2 ^ 32

/-! ## The view (`src/log/view.h`) -/

/-- The part of `View::StorageShard` read by the sequencer. -/
structure StorageShard where
  shard_id : Nat
  storage_nodes : List Nat
deriving DecidableEq, Repr

/-- The part of `View::Storage` read by the sequencer; `storage_shard_ids` are global ids
`sequencer_id‖local_shard_id`. -/
structure Storage where
  node_id : Nat
  storage_shard_ids : List Nat
deriving DecidableEq, Repr

/-- The part of `View::Sequencer` read by the sequencer.  `view.h` keeps the replicas twice,
as the vector `replica_sequencer_nodes_` and as the set `replica_sequencer_node_set_`; the
constructor that fills both is not part of the sources at hand, the set is taken to hold
the members of the vector. -/
structure Sequencer where
  node_id : Nat
  replica_sequencer_nodes : List Nat
deriving DecidableEq, Repr

/-- An immutable view, restricted to the tables `MetaLogPrimary` consults. -/
structure View where
  id : Nat
  sequencer_storage_shard_ids : List (Nat × List Nat)
  storage_shard_units : List (Nat × StorageShard)
  storage_nodes : List (Nat × Storage)
deriving DecidableEq, Repr

/-- The call `View::GetStorageShardIds(sequencer_node_id)`, a throwing `.at`. -/
def View.GetStorageShardIds (v : View) (sequencer_node_id : Nat) : Option (List Nat) :=
  mapFind v.sequencer_storage_shard_ids sequencer_node_id

/-- The call `View::GetStorageShard(shard_id)`, a throwing `.at`. -/
def View.GetStorageShard (v : View) (shard_id : Nat) : Option StorageShard :=
  mapFind v.storage_shard_units shard_id

/-- The call `View::contains_storage_node(node_id)`. -/
def View.contains_storage_node (v : View) (node_id : Nat) : Bool :=
  mapContains v.storage_nodes node_id

/-- The call `View::GetStorageNode(node_id)`, a throwing `.at`. -/
def View.GetStorageNode (v : View) (node_id : Nat) : Option Storage :=
  mapFind v.storage_nodes node_id

/-- The call `View::Sequencer::IsReplicaSequencerNode`. -/
def Sequencer.IsReplicaSequencerNode (q : Sequencer) (sequencer_node_id : Nat) : Bool :=
  decide (sequencer_node_id ∈ q.replica_sequencer_nodes)

/-! ## Metalog entries -/

/-- Modelled from the spec: the type tag of a metalog entry (`proto/shared_log.proto` is not
part of the sources at hand).  `NEW_LOGS` is the type the spec names; `UNSET` stands for
the value of a message whose type was never set. -/
inductive MetaLogType where
  | UNSET
  | NEW_LOGS
deriving DecidableEq, Repr

/-- The `NEW_LOGS` payload: `start_seqnum` and three parallel repeated fields. -/
structure NewLogsProto where
  start_seqnum : Nat
  shard_ids : List Nat
  shard_starts : List Nat
  shard_deltas : List Nat
deriving DecidableEq, Repr

/-- A metalog entry (`MetaLogProto`). -/
structure MetaLogProto where
  logspace_id : Nat
  metalog_seqnum : Nat
  type : MetaLogType
  new_logs_proto : NewLogsProto
deriving DecidableEq, Repr

/-! ## State of `MetaLogPrimary` -/

/-- The fields of `MetaLogPrimary` and of its base `LogSpaceBase` that the sequencer code
reads or writes.  `seqnum_position` is the 64-bit value returned by the accessor
`seqnum_position()`. -/
structure MetaLogPrimary where
  identifier : Nat
  metalog_position : Nat
  seqnum_position : Nat
  applied_metalogs : List MetaLogProto
  shard_progrsses : List ((Nat × Nat) × Nat)
  last_cut : List (Nat × Nat)
  dirty_shards : List Nat
  unblocked_shards : List Nat
  blocking_change : Bool
  metalog_progresses : List (Nat × Nat)
  replicated_metalog_position : Nat
deriving DecidableEq, Repr

/-- Inner loop of the constructor: `shard_progrsses_[(shard, storage_id)] = 0`. -/
def initShardProgress (shard : Nat) :
    List Nat → List ((Nat × Nat) × Nat) → List ((Nat × Nat) × Nat)
  | [], sp => sp
  | storage_id :: rest, sp => initShardProgress shard rest (mapSet sp (shard, storage_id) 0)

/-- Outer loop of the constructor over `sequencer_node_->GetStorageShardIds()`. -/
def initShards (v : View) (sequencer_id : Nat) :
    List Nat → List ((Nat × Nat) × Nat) × List (Nat × Nat) →
      Option (List ((Nat × Nat) × Nat) × List (Nat × Nat))
  | [], acc => some acc
  | storage_shard_id :: rest, (sp, lc) =>
    match v.GetStorageShard (JoinTwo16 sequencer_id storage_shard_id) with
    | none => none
    | some storage_shard =>
      initShards v sequencer_id rest
        (initShardProgress storage_shard_id storage_shard.storage_nodes sp,
         mapSet lc storage_shard_id 0)

/-- Second loop of the constructor: `metalog_progresses_[sequencer_id] = 0`. -/
def initReplicas : List Nat → List (Nat × Nat) → List (Nat × Nat)
  | [], mp => mp
  | sequencer_id :: rest, mp => initReplicas rest (mapSet mp sequencer_id 0)

/-- The constructor `MetaLogPrimary::MetaLogPrimary(view, sequencer_id)`.  The base-class
constructor is not part of the sources at hand: positions start at zero and the identifier
is `view_id‖sequencer_id` as the spec has it.  `unblocked_shards_` and `dirty_shards_` are
default-constructed, hence empty. -/
def MetaLogPrimary.create (v : View) (q : Sequencer) : Option MetaLogPrimary :=
  match v.GetStorageShardIds q.node_id with
  | none => none
  | some shard_ids =>
    match initShards v q.node_id shard_ids ([], []) with
    | none => none
    | some (sp, lc) =>
      some { identifier := JoinTwo16 v.id q.node_id
             metalog_position := 0
             seqnum_position := (JoinTwo16 v.id q.node_id) * 2 ^ 32
             applied_metalogs := []
             shard_progrsses := sp
             last_cut := lc
             dirty_shards := []
             unblocked_shards := []
             blocking_change := false
             metalog_progresses := initReplicas q.replica_sequencer_nodes []
             replicated_metalog_position := 0 }

/-! ## Operations -/

/-- The method `MetaLogPrimary::BlockShard`: new state, return value, `*last_cut`. -/
def BlockShard (m : MetaLogPrimary) (shard_id : Nat) : MetaLogPrimary × Bool × Nat :=
  match mapFind m.last_cut shard_id with
  | none => (m, false, 0)
  | some cut =>
    if ¬ shard_id ∈ m.unblocked_shards then (m, true, cut)
    else
      let m1 := if shard_id ∈ m.dirty_shards
        then { m with dirty_shards := setErase m.dirty_shards shard_id } else m
      ({ m1 with unblocked_shards := setErase m1.unblocked_shards shard_id
                 blocking_change := true }, true, cut)

/-- The method `MetaLogPrimary::UnblockShard`: new state, return value, `*last_cut`. -/
def UnblockShard (m : MetaLogPrimary) (shard_id : Nat) : MetaLogPrimary × Bool × Nat :=
  match mapFind m.last_cut shard_id with
  | none => (m, false, 0)
  | some cut =>
    if shard_id ∈ m.unblocked_shards then (m, false, 0)
    else
      ({ m with unblocked_shards := setInsert m.unblocked_shards shard_id
                blocking_change := true }, true, cut)

/-- Loop of `GetShardReplicatedPosition` over the storage nodes of the shard. -/
def minProgress (sp : List ((Nat × Nat) × Nat)) (storage_shard_id : Nat) :
    List Nat → Nat → Option Nat
  | [], min_value => some min_value
  | storage_id :: rest, min_value =>
    match mapFind sp (storage_shard_id, storage_id) with
    | none => none
    | some p => minProgress sp storage_shard_id rest (min min_value p)

/-- The method `MetaLogPrimary::GetShardReplicatedPosition`. -/
def GetShardReplicatedPosition (v : View) (q : Sequencer) (m : MetaLogPrimary)
    (storage_shard_id : Nat) : Option Nat :=
  match v.GetStorageShard (JoinTwo16 q.node_id storage_shard_id) with
  | none => none
  | some storage_shard =>
    minProgress m.shard_progrsses storage_shard_id storage_shard.storage_nodes UINT32_MAX

/-- One iteration of the loop of `UpdateStorageProgress`, for `storage_shard_ids[i]` and
`progress[i]`. -/
def storageProgressStep (v : View) (q : Sequencer) (storage_id : Nat) (m : MetaLogPrimary)
    (global_shard_id : Nat) (p : Nat) : Option MetaLogPrimary :=
  let storage_shard_id := LowHalf32 global_shard_id
  if ¬ storage_shard_id ∈ m.unblocked_shards then some m
  else
    let pair := (storage_shard_id, storage_id)
    let m1 := { m with shard_progrsses := mapTouch m.shard_progrsses pair 0 }
    if p > (mapFind m1.shard_progrsses pair).getD 0 then
      let m2 := { m1 with shard_progrsses := mapSet m1.shard_progrsses pair p }
      match GetShardReplicatedPosition v q m2 storage_shard_id,
            mapFind m2.last_cut storage_shard_id with
      | some current_position, some cut =>
        if current_position > cut then
          some { m2 with dirty_shards := setInsert m2.dirty_shards storage_shard_id }
        else some m2
      | _, _ => none
    else some m1

/-- The loop `for (i = 0; i < progress.size(); i++)` of `UpdateStorageProgress`. -/
def storageProgressLoop (v : View) (q : Sequencer) (storage_id : Nat) :
    List Nat → List Nat → MetaLogPrimary → Option MetaLogPrimary
  | g :: gs, p :: ps, m =>
    match storageProgressStep v q storage_id m g p with
    | none => none
    | some m' => storageProgressLoop v q storage_id gs ps m'
  | _, _, m => some m

/-- The method `MetaLogPrimary::UpdateStorageProgress`. -/
def UpdateStorageProgress (v : View) (q : Sequencer) (m : MetaLogPrimary) (storage_id : Nat)
    (progress : List Nat) : Option MetaLogPrimary :=
  if ¬ v.contains_storage_node storage_id then none
  else
    match v.GetStorageNode storage_id with
    | none => none
    | some storage_node =>
      if progress.length ≠ storage_node.storage_shard_ids.length then none
      else storageProgressLoop v q storage_id storage_node.storage_shard_ids progress m

/-- The method `MetaLogPrimary::UpdateMetaLogReplicatedPosition`. -/
def UpdateMetaLogReplicatedPosition (m : MetaLogPrimary) : Option MetaLogPrimary :=
  if m.replicated_metalog_position = m.metalog_position then some m
  else if m.metalog_progresses.isEmpty then some m
  else
    let tmp := (m.metalog_progresses.map Prod.snd).insertionSort (fun a b => a ≤ b)
    match tmp[tmp.length / 2]? with
    | none => none
    | some progress => some { m with replicated_metalog_position := progress }

/-- The method `MetaLogPrimary::UpdateReplicaProgress`. -/
def UpdateReplicaProgress (q : Sequencer) (m : MetaLogPrimary) (sequencer_id : Nat)
    (metalog_position : Nat) : Option MetaLogPrimary :=
  if ¬ q.IsReplicaSequencerNode sequencer_id then none
  else if metalog_position > m.metalog_position then none
  else
    let m1 := { m with metalog_progresses := mapTouch m.metalog_progresses sequencer_id 0 }
    if metalog_position > (mapFind m1.metalog_progresses sequencer_id).getD 0 then
      UpdateMetaLogReplicatedPosition
        { m1 with metalog_progresses := mapSet m1.metalog_progresses sequencer_id metalog_position }
    else some m1

/-- Modelled from the spec: `LogSpaceBase::ProvideMetaLog`, whose source
(`log_space_base.cpp`) is not part of the sources at hand.  The spec has the cut "append the
entry to the local metalog ... and advance `metalog_position`", and `seqnum_position` is
"the sum of all `shard_delta` in metalog entries" applied so far, so that
`sum(shard_delta) = new_seqnum_position − start_seqnum`.  The result flag tells whether the
metalog position advanced. -/
def ProvideMetaLog (m : MetaLogPrimary) (meta_log_proto : MetaLogProto) :
    MetaLogPrimary × Bool :=
  ({ m with applied_metalogs := m.applied_metalogs ++ [meta_log_proto]
            metalog_position := m.metalog_position + 1
            seqnum_position := m.seqnum_position + meta_log_proto.new_logs_proto.shard_deltas.sum },
   true)

/-- The loop `for (uint16_t shard_id : dirty_shards_)` of `MarkNextCut`; the accumulator is
the state, the payload under construction and `total_delta`. -/
def cutLoop (v : View) (q : Sequencer) :
    List Nat → MetaLogPrimary × NewLogsProto × Nat → Option (MetaLogPrimary × NewLogsProto × Nat)
  | [], acc => some acc
  | shard_id :: rest, (m, nl, total_delta) =>
    match mapFind m.last_cut shard_id, GetShardReplicatedPosition v q m shard_id with
    | some cut, some current_position =>
      let delta := sub32 current_position cut
      cutLoop v q rest
        ({ m with last_cut := mapSet m.last_cut shard_id current_position },
         { nl with shard_ids := nl.shard_ids ++ [shard_id]
                   shard_starts := nl.shard_starts ++ [cut]
                   shard_deltas := nl.shard_deltas ++ [delta] },
         add32 total_delta delta)
    | _, _ => none

/-- The method `MetaLogPrimary::MarkNextCut`: the new state and the returned
`std::optional<MetaLogProto>`. -/
def MarkNextCut (v : View) (q : Sequencer) (m : MetaLogPrimary) :
    Option (MetaLogPrimary × Option MetaLogProto) :=
  if m.dirty_shards.isEmpty then some (m, none)
  else
    let new_logs_proto : NewLogsProto :=
      { start_seqnum := LowHalf64 m.seqnum_position
        shard_ids := [], shard_starts := [], shard_deltas := [] }
    match cutLoop v q m.dirty_shards (m, new_logs_proto, 0) with
    | none => none
    | some (m1, nl, _) =>
      let meta_log_proto : MetaLogProto :=
        { logspace_id := m.identifier
          metalog_seqnum := m.metalog_position
          type := MetaLogType.NEW_LOGS
          new_logs_proto := nl }
      let m2 := { m1 with blocking_change := false, dirty_shards := [] }
      match ProvideMetaLog m2 meta_log_proto with
      | (_, false) => none
      | (m3, true) => some (m3, some meta_log_proto)

/-! ## Runs of the sequencer -/

/-- The calls a sequencer node makes on its `MetaLogPrimary`. -/
inductive Op where
  | block (shard_id : Nat)
  | unblock (shard_id : Nat)
  | storageProgress (storage_id : Nat) (progress : List Nat)
  | replicaProgress (sequencer_id : Nat) (metalog_position : Nat)
  | markNextCut
deriving DecidableEq, Repr

/-- Effect of one call: the new state and the metalog entry the call returns, if any;
`none` when the call ends the process. -/
def step (v : View) (q : Sequencer) (m : MetaLogPrimary) :
    Op → Option (MetaLogPrimary × Option MetaLogProto)
  | Op.block shard_id => some ((BlockShard m shard_id).1, none)
  | Op.unblock shard_id => some ((UnblockShard m shard_id).1, none)
  | Op.storageProgress storage_id progress =>
    match UpdateStorageProgress v q m storage_id progress with
    | none => none
    | some m' => some (m', none)
  | Op.replicaProgress sequencer_id metalog_position =>
    match UpdateReplicaProgress q m sequencer_id metalog_position with
    | none => none
    | some m' => some (m', none)
  | Op.markNextCut => MarkNextCut v q m

/-- A sequence of calls: the final state and the metalog entries returned on the way,
oldest first. -/
def run (v : View) (q : Sequencer) : MetaLogPrimary → List Op →
    Option (MetaLogPrimary × List MetaLogProto)
  | m, [] => some (m, [])
  | m, op :: ops =>
    match step v q m op with
    | none => none
    | some (m1, out) =>
      match run v q m1 ops with
      | none => none
      | some (m2, es) => some (m2, out.toList ++ es)

/-- A state that the constructor followed by some sequence of calls produces. -/
def Reachable (v : View) (q : Sequencer) (m : MetaLogPrimary) : Prop :=
  ∃ m0 ops es, MetaLogPrimary.create v q = some m0 ∧ run v q m0 ops = some (m, es)

/-- The `shard_start` that entry `e` lists for shard `s`, if it lists `s`. -/
def entryStart (e : MetaLogProto) (s : Nat) : Option Nat :=
  mapFind (e.new_logs_proto.shard_ids.zip e.new_logs_proto.shard_starts) s

/-- The `shard_delta` that entry `e` lists for shard `s`, if it lists `s`. -/
def entryDelta (e : MetaLogProto) (s : Nat) : Option Nat :=
  mapFind (e.new_logs_proto.shard_ids.zip e.new_logs_proto.shard_deltas) s

/-- The upper median `tmp.at(tmp.size() / 2)` of the sorted values. -/
def upperMedian (l : List Nat) : Option Nat :=
  (l.insertionSort (fun a b => a ≤ b))[l.length / 2]?

/-- A run in which `BlockShard(s)` is only called while `s` is not dirty. -/
def blocksOnlyClean (v : View) (q : Sequencer) (s : Nat) : MetaLogPrimary → List Op → Bool
  | _, [] => true
  | m, op :: ops =>
    (decide (op = Op.block s → s ∉ m.dirty_shards)) &&
      match step v q m op with
      | none => true
      | some (m1, _) => blocksOnlyClean v q s m1 ops

/-- The `shard_starts` a cut of state `m` lists: `last_cut_.at(s)` for each dirty shard. -/
def cutStarts (m : MetaLogPrimary) : List Nat :=
  m.dirty_shards.map (fun s => (mapFind m.last_cut s).getD 0)

/-- The `shard_deltas` a cut of state `m` lists: replicated position minus `last_cut_.at(s)`
in `uint32_t` arithmetic, for each dirty shard. -/
def cutDeltas (v : View) (q : Sequencer) (m : MetaLogPrimary) : List Nat :=
  m.dirty_shards.map (fun s =>
    sub32 ((GetShardReplicatedPosition v q m s).getD 0) ((mapFind m.last_cut s).getD 0))

/-- The payload that `MarkNextCut` starts from, before the loop fills the repeated fields. -/
def emptyNewLogs (m : MetaLogPrimary) : NewLogsProto :=
  { start_seqnum := LowHalf64 m.seqnum_position
    shard_ids := [], shard_starts := [], shard_deltas := [] }

/-- Consistency of a sequencer state with its view: `dirty_shards` is a set, dirty shards
are unblocked, unblocked shards are keys of `last_cut`, the replicated position of every key
of `last_cut` can be read, and a dirty shard is strictly ahead of its last cut. -/
structure Inv (v : View) (q : Sequencer) (m : MetaLogPrimary) : Prop where
  nodup : m.dirty_shards.Nodup
  dirty_unblocked : ∀ s ∈ m.dirty_shards, s ∈ m.unblocked_shards
  unblocked_known : ∀ s ∈ m.unblocked_shards, (mapFind m.last_cut s).isSome
  known_pos : ∀ s, (mapFind m.last_cut s).isSome →
    (GetShardReplicatedPosition v q m s).isSome
  dirty_gt : ∀ s ∈ m.dirty_shards, ∀ cut pos, mapFind m.last_cut s = some cut →
    GetShardReplicatedPosition v q m s = some pos → cut < pos

/-- Consistency of the replication bookkeeping: every replica of the view has a recorded
progress, and the committed position is the upper median of the recorded progresses. -/
structure MedInv (q : Sequencer) (m : MetaLogPrimary) : Prop where
  keys : ∀ r ∈ q.replica_sequencer_nodes, (mapFind m.metalog_progresses r).isSome
  median : m.metalog_progresses ≠ [] →
    upperMedian (m.metalog_progresses.map Prod.snd) = some m.replicated_metalog_position

/-- Shard `s` has nothing left to cut unless it is marked dirty: if it is not in
`dirty_shards`, its replicated position does not exceed `last_cut[s]`. -/
def Settled (v : View) (q : Sequencer) (s : Nat) (m : MetaLogPrimary) : Prop :=
  ∀ cut pos, mapFind m.last_cut s = some cut →
    GetShardReplicatedPosition v q m s = some pos → s ∉ m.dirty_shards → pos ≤ cut

/-! ## A small deployment used in the examples -/

/-- One sequencer (node 1) with local shards 0 and 1, each kept by storage nodes 10 and 11. -/
def exampleView : View :=
  { id := 0
    sequencer_storage_shard_ids := [(1, [0, 1])]
    storage_shard_units :=
      [(JoinTwo16 1 0, { shard_id := JoinTwo16 1 0, storage_nodes := [10, 11] }),
       (JoinTwo16 1 1, { shard_id := JoinTwo16 1 1, storage_nodes := [10, 11] })]
    storage_nodes :=
      [(10, { node_id := 10, storage_shard_ids := [JoinTwo16 1 0, JoinTwo16 1 1] }),
       (11, { node_id := 11, storage_shard_ids := [JoinTwo16 1 0, JoinTwo16 1 1] })] }

/-- The primary sequencer of `exampleView`, with backups 2, 3 and 4. -/
def exampleSequencer : Sequencer := { node_id := 1, replica_sequencer_nodes := [2, 3, 4] }

/-- The freshly constructed state for `exampleView`. -/
def exampleInit : MetaLogPrimary :=
  { identifier := 1
    metalog_position := 0
    seqnum_position := 4294967296
    applied_metalogs := []
    shard_progrsses := [((0, 10), 0), ((0, 11), 0), ((1, 10), 0), ((1, 11), 0)]
    last_cut := [(0, 0), (1, 0)]
    dirty_shards := []
    unblocked_shards := []
    blocking_change := false
    metalog_progresses := [(2, 0), (3, 0), (4, 0)]
    replicated_metalog_position := 0 }

/-- Both shards unblocked, storage 10 at `[3, 4]` and storage 11 at `[2, 5]`: both dirty. -/
def exampleDirty : MetaLogPrimary :=
  { exampleInit with
    shard_progrsses := [((0, 10), 3), ((0, 11), 2), ((1, 10), 4), ((1, 11), 5)]
    dirty_shards := [0, 1]
    unblocked_shards := [0, 1]
    blocking_change := true }

/-- The calls that lead from `exampleInit` to `exampleDirty`. -/
def exampleDirtyOps : List Op :=
  [Op.unblock 0, Op.unblock 1, Op.storageProgress 10 [3, 4], Op.storageProgress 11 [2, 5]]

/-- The calls that lead from `exampleInit` to `exampleCommitted`: the cut of `exampleDirty`,
then the three backups acknowledge metalog position 1; the last acknowledgement finds the
committed position already equal to the metalog position. -/
def exampleCommitOps : List Op :=
  exampleDirtyOps ++ [Op.markNextCut, Op.replicaProgress 2 1, Op.replicaProgress 3 1,
    Op.replicaProgress 4 1]

/-- The state after `exampleCommitOps`. -/
def exampleCommitted : MetaLogPrimary :=
  { exampleInit with
    metalog_position := 1
    seqnum_position := 4294967302
    applied_metalogs :=
      [{ logspace_id := 1, metalog_seqnum := 0, type := MetaLogType.NEW_LOGS
         new_logs_proto :=
           { start_seqnum := 0, shard_ids := [0, 1], shard_starts := [0, 0],
             shard_deltas := [2, 4] } }]
    shard_progrsses := [((0, 10), 3), ((0, 11), 2), ((1, 10), 4), ((1, 11), 5)]
    last_cut := [(0, 2), (1, 4)]
    unblocked_shards := [0, 1]
    metalog_progresses := [(2, 1), (3, 1), (4, 1)]
    replicated_metalog_position := 1 }

/-- The calls that lead from `exampleInit` to `exampleReadmitted`: shard 0 is blocked while
dirty and unblocked again. -/
def exampleReadmitOps : List Op := exampleDirtyOps ++ [Op.block 0, Op.unblock 0]

/-- The state after `exampleReadmitOps`: shard 0 is unblocked and at position 2 with
`last_cut` 0, but not dirty. -/
def exampleReadmitted : MetaLogPrimary :=
  { exampleDirty with dirty_shards := [1], unblocked_shards := [1, 0] }

/-- A run with two cuts: the cut of `exampleDirty`, then both storage nodes report progress
5 for shard 0 (and nothing new for shard 1), then a second cut. -/
def exampleTwoCutsOps : List Op :=
  exampleDirtyOps ++ [Op.markNextCut, Op.storageProgress 10 [5, 4],
    Op.storageProgress 11 [5, 5], Op.markNextCut]

/-- The entry of the first cut of `exampleTwoCutsOps`. -/
def exampleFirstCut : MetaLogProto :=
  { logspace_id := 1, metalog_seqnum := 0, type := MetaLogType.NEW_LOGS
    new_logs_proto :=
      { start_seqnum := 0, shard_ids := [0, 1], shard_starts := [0, 0], shard_deltas := [2, 4] } }

/-- The entry of the second cut of `exampleTwoCutsOps`. -/
def exampleSecondCut : MetaLogProto :=
  { logspace_id := 1, metalog_seqnum := 1, type := MetaLogType.NEW_LOGS
    new_logs_proto :=
      { start_seqnum := 6, shard_ids := [0], shard_starts := [2], shard_deltas := [3] } }

/-! ## More container and bit helpers -/

/-- Removal `m.erase(k)` from a `flat_hash_map`. -/
def mapErase {κ ν : Type} [DecidableEq κ] (m : List (κ × ν)) (k : κ) : List (κ × ν) :=
  m.filter (fun kv => decide (kv.1 ≠ k))

/-- Modelled from the spec: `bits::JoinTwo32` of `utils/bits.h` (not part of the sources at
hand); the spec writes the result as `logspace_id‖(metalog_seqnum+1)`, the first argument
in the high 32 bits of a 64-bit value. -/
def JoinTwo32 (high low : Nat) : Nat := (high % 2 ^ 32) * 2 ^ 32 + low % 2 ^ 32

/-- Modelled from the spec: `bits::HighHalf64` of `utils/bits.h` (not part of the sources at
hand): the high 32 bits of a 64-bit value, the part of a localid the spec calls the
`storage_shard_id` resp. `engine_id`. -/
def HighHalf64 (x : Nat) : Nat := (x / 2 ^ 32) % 2 ^ 32

/-- Addition of two `uint64_t` values. -/
def add64 (a b : Nat) : Nat := (a + b) % 2 ^ 64

/-- Modelled from the spec: the constant `kInvalidLogSeqNum` (declared outside the sources at
hand); the spec calls it `INVALID`.  It is taken to be the largest `uint64_t`. -/
def kInvalidLogSeqNum : Nat := 2 ^ 64 - 1

/-! ## The log producer (`LogProducer`) -/

/-- An `AppendResult`; `caller_data` is the `void*` handed to `LocalAppend`, kept as a number. -/
structure AppendResult where
  seqnum : Nat
  localid : Nat
  metalog_progress : Nat
  caller_data : Nat
deriving DecidableEq, Repr

/-- The fields of `LogProducer` and of its base `LogSpaceBase` that the producer code reads
or writes.  `seqnum_position` is the 64-bit value returned by the accessor
`seqnum_position()`, `identifier` the value of `identifier()`. -/
structure LogProducer where
  identifier : Nat
  metalog_position : Nat
  seqnum_position : Nat
  next_localid : Nat
  pending_appends : List (Nat × Nat)
  pending_append_results : List AppendResult
deriving DecidableEq, Repr

/-- The constructor `LogProducer::LogProducer(storage_shard_id, view, sequencer_id,
metalog_position, next_start_id)`.  The base-class constructor is not part of the sources at
hand: the identifier is `view_id‖sequencer_id` and the seqnum position starts at the
beginning of the phylog, as the spec has it. -/
def LogProducer.create (view_id sequencer_id storage_shard_id metalog_position
    next_start_id : Nat) : LogProducer :=
  { identifier := JoinTwo16 view_id sequencer_id
    metalog_position := metalog_position
    seqnum_position := JoinTwo32 (JoinTwo16 view_id sequencer_id) 0
    next_localid := JoinTwo32 storage_shard_id next_start_id
    pending_appends := []
    pending_append_results := [] }

/-- The method `LogProducer::LocalAppend`: new state, `*localid`, `*next_seqnum`. -/
def LogProducer.LocalAppend (p : LogProducer) (caller_data : Nat) : LogProducer × Nat × Nat :=
  ({ p with pending_appends := mapSet p.pending_appends p.next_localid caller_data
            next_localid := add64 p.next_localid 1 },
   p.next_localid, p.seqnum_position)

/-- The method `LogProducer::PollAppendResults`: new state and `*results`. -/
def LogProducer.PollAppendResults (p : LogProducer) : LogProducer × List AppendResult :=
  ({ p with pending_append_results := [] }, p.pending_append_results)

/-- The loop `for (size_t i = 0; i < delta; i++)` of `LogProducer::OnNewLogs`: `remaining`
iterations are left and the next one has index `i`; a missing localid is fatal. -/
def LogProducer.newLogsLoop (metalog_seqnum start_seqnum start_localid : Nat) :
    Nat → Nat → LogProducer → Option LogProducer
  | 0, _, p => some p
  | remaining + 1, i, p =>
    let seqnum := add64 start_seqnum i
    let localid := add64 start_localid i
    match mapFind p.pending_appends localid with
    | none => none
    | some caller_data =>
      LogProducer.newLogsLoop metalog_seqnum start_seqnum start_localid remaining (i + 1)
        { p with
          pending_append_results := p.pending_append_results ++
            [{ seqnum := seqnum
               localid := localid
               metalog_progress := JoinTwo32 p.identifier (add32 metalog_seqnum 1)
               caller_data := caller_data }]
          pending_appends := mapErase p.pending_appends localid }

/-- The method `LogProducer::OnNewLogs`. -/
def LogProducer.OnNewLogs (p : LogProducer) (metalog_seqnum start_seqnum start_localid
    delta _storage_shard_id : Nat) : Option LogProducer :=
  LogProducer.newLogsLoop metalog_seqnum start_seqnum start_localid delta 0 p

/-- The method `LogProducer::OnFinalized`. -/
def LogProducer.OnFinalized (p : LogProducer) (_metalog_position : Nat) : LogProducer :=
  { p with
    pending_append_results := p.pending_append_results ++
      p.pending_appends.map (fun kv =>
        { seqnum := kInvalidLogSeqNum
          localid := kv.1
          metalog_progress := 0
          caller_data := kv.2 })
    pending_appends := [] }

/-- The calls an engine makes on a `LogProducer`. -/
inductive ProducerOp where
  | localAppend (caller_data : Nat)
  | pollAppendResults
  | onNewLogs (metalog_seqnum start_seqnum start_localid delta storage_shard_id : Nat)
  | onFinalized (metalog_position : Nat)
deriving DecidableEq, Repr

/-- Effect of one call on a producer: the new state and the localid the call hands out, if
it is a `LocalAppend`; `none` when the call ends the process. -/
def producerStep (p : LogProducer) : ProducerOp → Option (LogProducer × Option Nat)
  | ProducerOp.localAppend caller_data =>
    some ((p.LocalAppend caller_data).1, some (p.LocalAppend caller_data).2.1)
  | ProducerOp.pollAppendResults => some (p.PollAppendResults.1, none)
  | ProducerOp.onNewLogs metalog_seqnum start_seqnum start_localid delta storage_shard_id =>
    match p.OnNewLogs metalog_seqnum start_seqnum start_localid delta storage_shard_id with
    | none => none
    | some p' => some (p', none)
  | ProducerOp.onFinalized metalog_position => some (p.OnFinalized metalog_position, none)

/-- A sequence of calls on a producer: the final state and the localids handed out by the
`LocalAppend` calls on the way, oldest first. -/
def producerRun : LogProducer → List ProducerOp → Option (LogProducer × List Nat)
  | p, [] => some (p, [])
  | p, op :: ops =>
    match producerStep p op with
    | none => none
    | some (p1, out) =>
      match producerRun p1 ops with
      | none => none
      | some (p2, ids) => some (p2, out.toList ++ ids)

/-- A producer built for shard 3 of view 0, sequencer 1, starting at local id 7. -/
def exampleProducer : LogProducer := LogProducer.create 0 1 3 0 7

/-- Two appends, the metalog covering the first, a third append. -/
def exampleProducerOps : List ProducerOp :=
  [ProducerOp.localAppend 100, ProducerOp.localAppend 101,
   ProducerOp.onNewLogs 0 (JoinTwo32 1 0) (JoinTwo32 3 7) 1 3, ProducerOp.localAppend 102]

/-- No localid at or above `next_localid` is pending: the condition behind the `DCHECK` at
the head of `LocalAppend`. -/
def ProducerInv (p : LogProducer) : Prop :=
  ∀ k, (mapFind p.pending_appends k).isSome → k < p.next_localid

/-- The state `exampleCommitted` after `BlockShard(0)`: shard 0 is blocked, `last_cut[0] = 2`. -/
def exampleBlocked : MetaLogPrimary :=
  { exampleCommitted with unblocked_shards := [1], blocking_change := true }

/-- The producer `exampleProducer` after two appends with caller data 100 and 101. -/
def examplePending : LogProducer :=
  { exampleProducer with
    next_localid := JoinTwo32 3 9
    pending_appends := [(JoinTwo32 3 7, 100), (JoinTwo32 3 8, 101)] }

/-! ## The log storage (`LogStorage`) -/

/-- The struct `LogMetaData`, with the fields `engine.h` initialises. -/
structure LogMetaData where
  user_logspace : Nat
  seqnum : Nat
  localid : Nat
  num_tags : Nat
  data_size : Nat
deriving DecidableEq, Repr

/-- A `LogEntry` as `Store` builds it: metadata, the user tags and the payload bytes. -/
structure LogEntry where
  metadata : LogMetaData
  user_tags : List Nat
  data : List Nat
deriving DecidableEq, Repr

/-- Modelled from the spec: the wire header `protocol::SharedLogMessage` (declared outside
the sources at hand), with the fields the spec lists.  `ReadAt` reads `logspace_id` and
`seqnum_lowhalf` and copies the whole message into its result. -/
structure SharedLogMessage where
  op_type : Nat
  logspace_id : Nat
  seqnum_lowhalf : Nat
  user_metalog_progress : Nat
  storage_shard_id : Nat
  origin_node_id : Nat
  hop_times : Nat
  client_data : Nat
  payload_size : Nat
deriving DecidableEq, Repr

/-- The status of a `ReadResult`. -/
inductive ReadStatus where
  | kOK
  | kLookupDB
  | kFailed
deriving DecidableEq, Repr

/-- A `LogStorage::ReadResult`; `log_entry` is a shared pointer, `none` for `nullptr`. -/
structure ReadResult where
  status : ReadStatus
  log_entry : Option LogEntry
  original_request : SharedLogMessage
deriving DecidableEq, Repr

/-- The message `IndexDataProto`, with the fields `LogStorage` fills. -/
structure IndexDataProto where
  metalog_position : Nat
  end_seqnum_position : Nat
  num_productive_storage_shards : Nat
  seqnum_halves : List Nat
  engine_ids : List Nat
  user_logspaces : List Nat
  user_tag_sizes : List Nat
  user_tags : List Nat
  my_productive_storage_shards : List Nat
deriving DecidableEq, Repr

/-- A cleared `IndexDataProto`. -/
def IndexDataProto.empty : IndexDataProto :=
  { metalog_position := 0, end_seqnum_position := 0, num_productive_storage_shards := 0
    seqnum_halves := [], engine_ids := [], user_logspaces := [], user_tag_sizes := []
    user_tags := [], my_productive_storage_shards := [] }

/-- The message `IndexDataPackagesProto`. -/
structure IndexDataPackagesProto where
  logspace_id : Nat
  index_data_proto : List IndexDataProto
deriving DecidableEq, Repr

/-- The fields of `LogStorage` and of its base `LogSpaceBase` that the storage code reads or
writes.  `seqnum_position`, `metalog_position` and `local_seqnum_position` are the values
of the base-class accessors of the same names.  `pending_read_requests` is the ordered
multimap from seqnum to request, kept as a list sorted by seqnum. -/
structure LogStorage where
  identifier : Nat
  metalog_position : Nat
  seqnum_position : Nat
  local_seqnum_position : Nat
  shard_progress_dirty : Bool
  persisted_seqnum_position : Nat
  shard_progresses : List (Nat × Nat)
  pending_log_entries : List (Nat × LogEntry)
  live_seqnums : List Nat
  live_log_entries : List (Nat × LogEntry)
  pending_read_requests : List (Nat × SharedLogMessage)
  pending_read_results : List ReadResult
  index_data : IndexDataProto
  index_data_packages : IndexDataPackagesProto
deriving DecidableEq, Repr

/-- Insertion `m.insert(std::make_pair(k, v))` into an ordered multimap: after the entries
whose key is not greater. -/
def multimapInsert {ν : Type} : List (Nat × ν) → Nat → ν → List (Nat × ν)
  | [], k, v => [(k, v)]
  | (k', v') :: rest, k, v =>
    if k' ≤ k then (k', v') :: multimapInsert rest k v else (k, v) :: (k', v') :: rest

/-- The scan `while (pending_log_entries_.contains(JoinTwo32(shard, current))) current++`
of `AdvanceShardProgress`, `current` being a `uint32_t`.  The first argument bounds the
number of probes: after `2 ^ 32` hits every localid of the shard has been found pending and
the loop never ends, which is the result `none`. -/
def advanceScan (pending : List (Nat × LogEntry)) (storage_shard_id : Nat) :
    Nat → Nat → Option Nat
  | 0, _ => none
  | probes + 1, current =>
    if mapContains pending (JoinTwo32 storage_shard_id current) then
      advanceScan pending storage_shard_id probes (add32 current 1)
    else some current

/-- The method `LogStorage::AdvanceShardProgress`. -/
def LogStorage.AdvanceShardProgress (s : LogStorage) (storage_shard_id : Nat) :
    Option LogStorage :=
  let s1 := { s with shard_progresses := mapTouch s.shard_progresses storage_shard_id 0 }
  let start := (mapFind s1.shard_progresses storage_shard_id).getD 0
  match advanceScan s1.pending_log_entries storage_shard_id (2 ^ 32) start with
  | none => none
  | some current =>
    if current > start then
      some { s1 with shard_progress_dirty := true
                     shard_progresses := mapSet s1.shard_progresses storage_shard_id current }
    else some s1

/-- The method `LogStorage::Store`: new state and return value. -/
def LogStorage.Store (s : LogStorage) (log_metadata : LogMetaData) (user_tags : List Nat)
    (log_data : List Nat) : Option (LogStorage × Bool) :=
  let localid := log_metadata.localid
  let storage_shard_id := HighHalf64 localid % 2 ^ 16
  let entry : LogEntry :=
    { metadata := log_metadata, user_tags := user_tags, data := log_data }
  let s1 := { s with pending_log_entries := mapSet s.pending_log_entries localid entry }
  match s1.AdvanceShardProgress storage_shard_id with
  | none => none
  | some s2 => some (s2, true)

/-- The method `LogStorage::ReadAt`. -/
def LogStorage.ReadAt (s : LogStorage) (request : SharedLogMessage) : LogStorage :=
  let seqnum := JoinTwo32 request.logspace_id request.seqnum_lowhalf
  if seqnum ≥ s.seqnum_position then
    { s with pending_read_requests := multimapInsert s.pending_read_requests seqnum request }
  else
    let result : ReadResult :=
      match mapFind s.live_log_entries seqnum with
      | some entry =>
        { status := ReadStatus.kOK, log_entry := some entry, original_request := request }
      | none =>
        if seqnum < s.persisted_seqnum_position then
          { status := ReadStatus.kLookupDB, log_entry := none, original_request := request }
        else
          { status := ReadStatus.kFailed, log_entry := none, original_request := request }
    { s with pending_read_results := s.pending_read_results ++ [result] }

/-- The loop of `ShrinkLiveEntriesIfNeeded` on `live_seqnums_` and `live_log_entries_`. -/
def shrinkLoop (max_size persisted_seqnum_position : Nat) :
    List Nat → List (Nat × LogEntry) → List Nat × List (Nat × LogEntry)
  | [], live => ([], live)
  | front :: rest, live =>
    if (front :: rest).length > max_size ∧ front < persisted_seqnum_position then
      shrinkLoop max_size persisted_seqnum_position rest (mapErase live front)
    else (front :: rest, live)

/-- The method `LogStorage::ShrinkLiveEntriesIfNeeded`; `max_size` is the value of the flag
`slog_storage_max_live_entries`. -/
def LogStorage.ShrinkLiveEntriesIfNeeded (max_size : Nat) (s : LogStorage) : LogStorage :=
  { s with
    live_seqnums :=
      (shrinkLoop max_size s.persisted_seqnum_position s.live_seqnums s.live_log_entries).1
    live_log_entries :=
      (shrinkLoop max_size s.persisted_seqnum_position s.live_seqnums s.live_log_entries).2 }

/-- The method `LogStorage::LogEntriesPersisted`. -/
def LogStorage.LogEntriesPersisted (max_size : Nat) (s : LogStorage) (new_position : Nat) :
    LogStorage :=
  LogStorage.ShrinkLiveEntriesIfNeeded max_size
    { s with persisted_seqnum_position := new_position }

/-- First loop of `LogStorage::OnNewLogs`: queued reads below `start_seqnum` are failed. -/
def failPastReads (start_seqnum : Nat) :
    List (Nat × SharedLogMessage) → List ReadResult →
      List (Nat × SharedLogMessage) × List ReadResult
  | [], results => ([], results)
  | (k, request) :: rest, results =>
    if k < start_seqnum then
      failPastReads start_seqnum rest (results ++
        [{ status := ReadStatus.kFailed, log_entry := none, original_request := request }])
    else ((k, request) :: rest, results)

/-- Inner loop of `LogStorage::OnNewLogs`: queued reads at `seqnum` are answered. -/
def serveReads (seqnum : Nat) (entry : LogEntry) :
    List (Nat × SharedLogMessage) → List ReadResult →
      List (Nat × SharedLogMessage) × List ReadResult
  | [], results => ([], results)
  | (k, request) :: rest, results =>
    if k = seqnum then
      serveReads seqnum entry rest (results ++
        [{ status := ReadStatus.kOK, log_entry := some entry, original_request := request }])
    else ((k, request) :: rest, results)

/-- The loop `for (size_t i = 0; i < delta; i++)` of `LogStorage::OnNewLogs`: `remaining`
iterations are left and the next one has index `i`; a missing localid is fatal. -/
def LogStorage.newLogsLoop (max_size start_seqnum start_localid : Nat) :
    Nat → Nat → LogStorage → Option LogStorage
  | 0, _, s => some s
  | remaining + 1, i, s =>
    let seqnum := add64 start_seqnum i
    let localid := add64 start_localid i
    match mapFind s.pending_log_entries localid with
    | none => none
    | some pending_entry =>
      let log_entry : LogEntry :=
        { pending_entry with metadata := { pending_entry.metadata with seqnum := seqnum } }
      let s1 : LogStorage :=
        { s with
          pending_log_entries := mapErase s.pending_log_entries localid
          index_data :=
            { s.index_data with
              seqnum_halves := s.index_data.seqnum_halves ++ [LowHalf64 seqnum]
              engine_ids := s.index_data.engine_ids ++ [HighHalf64 localid]
              user_logspaces := s.index_data.user_logspaces ++ [log_entry.metadata.user_logspace]
              user_tag_sizes := s.index_data.user_tag_sizes ++ [log_entry.user_tags.length % 2 ^ 32]
              user_tags := s.index_data.user_tags ++ log_entry.user_tags }
          live_seqnums := s.live_seqnums ++ [seqnum]
          live_log_entries := mapSet s.live_log_entries seqnum log_entry }
      let s2 := LogStorage.ShrinkLiveEntriesIfNeeded max_size s1
      let served := serveReads seqnum log_entry s2.pending_read_requests s2.pending_read_results
      LogStorage.newLogsLoop max_size start_seqnum start_localid remaining (i + 1)
        { s2 with pending_read_requests := served.1, pending_read_results := served.2 }

/-- The method `LogStorage::OnNewLogs`. -/
def LogStorage.OnNewLogs (max_size : Nat) (s : LogStorage) (_metalog_seqnum start_seqnum
    start_localid delta storage_shard_id : Nat) : Option LogStorage :=
  let failed := failPastReads start_seqnum s.pending_read_requests s.pending_read_results
  match LogStorage.newLogsLoop max_size start_seqnum start_localid delta 0
      { s with pending_read_requests := failed.1, pending_read_results := failed.2 } with
  | none => none
  | some s' =>
    some { s' with
      index_data :=
        { s'.index_data with
          my_productive_storage_shards :=
            s'.index_data.my_productive_storage_shards ++ [storage_shard_id] } }

/-- The method `LogStorage::OnMetaLogApplied`. -/
def LogStorage.OnMetaLogApplied (s : LogStorage) (meta_log_proto : MetaLogProto) : LogStorage :=
  match meta_log_proto.type with
  | MetaLogType.NEW_LOGS =>
    if 0 < s.index_data.seqnum_halves.length then
      let stamped : IndexDataProto :=
        { s.index_data with
          metalog_position := s.metalog_position
          end_seqnum_position := s.local_seqnum_position
          num_productive_storage_shards :=
            meta_log_proto.new_logs_proto.shard_ids.length % 2 ^ 32 }
      { s with
        index_data_packages :=
          { s.index_data_packages with
            index_data_proto := s.index_data_packages.index_data_proto ++ [stamped] }
        index_data := IndexDataProto.empty }
    else s
  | _ => s

/-- A storage node of phylog `1` with nothing stored yet; shard 3 is at progress 7. -/
def exampleStorage : LogStorage :=
  { identifier := 1
    metalog_position := 4
    seqnum_position := JoinTwo32 1 10
    local_seqnum_position := 0
    shard_progress_dirty := false
    persisted_seqnum_position := JoinTwo32 1 4
    shard_progresses := [(3, 7)]
    pending_log_entries := []
    live_seqnums := []
    live_log_entries := []
    pending_read_requests := []
    pending_read_results := []
    index_data := IndexDataProto.empty
    index_data_packages := { logspace_id := 1, index_data_proto := [] } }

/-- Metadata of an append of user logspace 5 with localid `3‖n`, one tag, two bytes. -/
def exampleMeta (n : Nat) : LogMetaData :=
  { user_logspace := 5, seqnum := kInvalidLogSeqNum, localid := JoinTwo32 3 n
    num_tags := 1, data_size := 2 }

/-- `exampleStorage` with shard 3 at the last `uint32_t` progress, `2 ^ 32 - 1`. -/
def exampleSaturated : LogStorage :=
  { exampleStorage with shard_progresses := [(3, 2 ^ 32 - 1)] }

/-! ### Persistence hand-off -/

/-- The loop `while (iter != live_seqnums_.end())` of `GrabLogEntriesForPersistence`:
`live_log_entries_.at(seqnum)` throws for a seqnum without entry. -/
def grabLoop (live : List (Nat × LogEntry)) : List Nat → List LogEntry → Option (List LogEntry)
  | [], log_entries => some log_entries
  | seqnum :: rest, log_entries =>
    match mapFind live seqnum with
    | none => none
    | some entry => grabLoop live rest (log_entries ++ [entry])

/-- The method `LogStorage::GrabLogEntriesForPersistence`, a `const` method: the result is
the return value with the contents of `*log_entries` and `*new_position` after the call,
given their contents before it.  `absl::c_lower_bound` is taken by its contract: on a range
partitioned by `x < persisted_seqnum_position` it is the first position whose element is not
below that value. -/
def LogStorage.GrabLogEntriesForPersistence (s : LogStorage) (log_entries : List LogEntry)
    (new_position : Nat) : Option (Bool × List LogEntry × Nat) :=
  match s.live_seqnums.getLast? with
  | none => some (false, log_entries, new_position)
  | some back =>
    if back < s.persisted_seqnum_position then some (false, log_entries, new_position)
    else
      match grabLoop s.live_log_entries
          (s.live_seqnums.dropWhile (fun x => decide (x < s.persisted_seqnum_position))) [] with
      | none => none
      | some entries => some (true, entries, add64 back 1)

/-- The entry of `exampleMeta n` once it has been given seqnum `1‖k`. -/
def exampleEntry (n k : Nat) : LogEntry :=
  { metadata := { exampleMeta n with seqnum := JoinTwo32 1 k }
    user_tags := [42], data := [120, 121] }

/-- `exampleStorage` with the seqnums `1‖5`, `1‖6` and `1‖7` live, the first two of them
persisted. -/
def exampleLive : LogStorage :=
  { exampleStorage with
    persisted_seqnum_position := JoinTwo32 1 7
    live_seqnums := [JoinTwo32 1 5, JoinTwo32 1 6, JoinTwo32 1 7]
    live_log_entries :=
      [(JoinTwo32 1 5, exampleEntry 7 5), (JoinTwo32 1 6, exampleEntry 8 6),
       (JoinTwo32 1 7, exampleEntry 9 7)] }

/-! ### Removal of the pending entries of a shard -/

/-- How the loop of `RemovePendingEntries` stands after a number of rounds: it has left the
loop with the given pending entries, or it has erased the entry under `iter` (which
invalidates `iter`, so that the next test `iter != end()` reads an invalid iterator), or it
is still looping. -/
inductive RemoveOutcome where
  | returned (pending : List (Nat × LogEntry))
  | invalidIterator (pending : List (Nat × LogEntry))
  | looping
deriving DecidableEq, Repr

/-- The loop of `LogStorage::RemovePendingEntries`, run for at most the given number of
rounds.  `iter` is `pending_log_entries_.begin()`, the head of the list, and no statement of
the loop assigns to it.  The test `narrow_cast<uint16_t>(HighHalf64(iter->first) ==
storage_shard_id)` casts the result of the comparison, so it holds when the high half of the
localid equals the shard id. -/
def removePendingLoop (storage_shard_id : Nat) (pending : List (Nat × LogEntry)) :
    Nat → RemoveOutcome
  | 0 => RemoveOutcome.looping
  | rounds + 1 =>
    match pending with
    | [] => RemoveOutcome.returned []
    | (localid, _) :: rest =>
      if HighHalf64 localid = storage_shard_id then RemoveOutcome.invalidIterator rest
      else removePendingLoop storage_shard_id pending rounds

/-- The method `LogStorage::RemovePendingEntries`, run for at most `rounds` rounds of its
loop. -/
def LogStorage.RemovePendingEntries (rounds : Nat) (s : LogStorage) (storage_shard_id : Nat) :
    RemoveOutcome :=
  removePendingLoop storage_shard_id s.pending_log_entries rounds

/-- `exampleStorage` after `Store` of the entry with localid `3‖7`. -/
def exampleStored : LogStorage :=
  { exampleStorage with
    shard_progress_dirty := true
    shard_progresses := [(3, 8)]
    pending_log_entries :=
      [(JoinTwo32 3 7, { metadata := exampleMeta 7, user_tags := [42], data := [120, 121] })] }

/-! ### Reads answered by `OnNewLogs` -/

/-- The entry that `OnNewLogs(start_seqnum, start_localid, ..)` finalizes at `seqnum`: the
pending entry of localid `start_localid + (seqnum - start_seqnum)` with its `seqnum` set. -/
def finalizedEntry (pending : List (Nat × LogEntry)) (start_seqnum start_localid seqnum : Nat) :
    Option LogEntry :=
  (mapFind pending (add64 start_localid (seqnum - start_seqnum))).map
    (fun e => { e with metadata := { e.metadata with seqnum := seqnum } })

/-- `exampleStored` with three reads queued: of `1‖3`, of `1‖5` and of `1‖9`. -/
def exampleQueued : LogStorage :=
  { exampleStored with
    pending_read_requests :=
      [(JoinTwo32 1 3,
        { op_type := 0, logspace_id := 1, seqnum_lowhalf := 3, user_metalog_progress := 0
          storage_shard_id := 3, origin_node_id := 0, hop_times := 0, client_data := 30
          payload_size := 0 }),
       (JoinTwo32 1 5,
        { op_type := 0, logspace_id := 1, seqnum_lowhalf := 5, user_metalog_progress := 0
          storage_shard_id := 3, origin_node_id := 0, hop_times := 0, client_data := 50
          payload_size := 0 }),
       (JoinTwo32 1 9,
        { op_type := 0, logspace_id := 1, seqnum_lowhalf := 9, user_metalog_progress := 0
          storage_shard_id := 3, origin_node_id := 0, hop_times := 0, client_data := 90
          payload_size := 0 })] }

/-! ### The live set and runs of the storage -/

/-- The constructor `LogStorage::LogStorage(storage_id, view, sequencer_id)`: every local
shard id of the storage node starts at progress 0.  The base-class constructor is not part
of the sources at hand: positions start at zero and the identifier is `view_id‖sequencer_id`
as the spec has it. -/
def LogStorage.create (v : View) (storage_id sequencer_id : Nat) : Option LogStorage :=
  match v.GetStorageNode storage_id with
  | none => none
  | some storage_node =>
    some { identifier := JoinTwo16 v.id sequencer_id
           metalog_position := 0
           seqnum_position := (JoinTwo16 v.id sequencer_id) * 2 ^ 32
           local_seqnum_position := 0
           shard_progress_dirty := false
           persisted_seqnum_position := 0
           shard_progresses :=
             storage_node.storage_shard_ids.foldl (fun sp g => mapSet sp (LowHalf32 g) 0) []
           pending_log_entries := []
           live_seqnums := []
           live_log_entries := []
           pending_read_requests := []
           pending_read_results := []
           index_data := IndexDataProto.empty
           index_data_packages :=
             { logspace_id := JoinTwo16 v.id sequencer_id, index_data_proto := [] } }

/-- The check `DCHECK_EQ(live_seqnums_.size(), live_log_entries_.size())` of
`ShrinkLiveEntriesIfNeeded`, evaluated after every eviction of the loop. -/
def shrinkDchecks (max_size persisted_seqnum_position : Nat) :
    List Nat → List (Nat × LogEntry) → Bool
  | [], _ => true
  | front :: rest, live =>
    if (front :: rest).length > max_size ∧ front < persisted_seqnum_position then
      decide (rest.length = (mapErase live front).length) &&
        shrinkDchecks max_size persisted_seqnum_position rest (mapErase live front)
    else true

/-- The checks of the loop of `LogStorage::OnNewLogs`, evaluated in every iteration that is
reached: `DCHECK(live_seqnums_.empty() || seqnum > live_seqnums_.back())` before the
insertion, `DCHECK_EQ(live_seqnums_.size(), live_log_entries_.size())` after it, and the
checks of `ShrinkLiveEntriesIfNeeded`.  The state after an iteration is the one the loop
itself computes. -/
def LogStorage.newLogsDchecks (max_size start_seqnum start_localid : Nat) :
    Nat → Nat → LogStorage → Bool
  | 0, _, _ => true
  | remaining + 1, i, s =>
    let seqnum := add64 start_seqnum i
    match mapFind s.pending_log_entries (add64 start_localid i) with
    | none => true
    | some pending_entry =>
      let log_entry : LogEntry :=
        { pending_entry with metadata := { pending_entry.metadata with seqnum := seqnum } }
      (match s.live_seqnums.getLast? with
        | none => true
        | some back => decide (seqnum > back)) &&
      decide ((s.live_seqnums ++ [seqnum]).length =
        (mapSet s.live_log_entries seqnum log_entry).length) &&
      shrinkDchecks max_size s.persisted_seqnum_position (s.live_seqnums ++ [seqnum])
        (mapSet s.live_log_entries seqnum log_entry) &&
      match LogStorage.newLogsLoop max_size start_seqnum start_localid 1 i s with
      | none => true
      | some s1 =>
        LogStorage.newLogsDchecks max_size start_seqnum start_localid remaining (i + 1) s1

/-- The calls made on a `LogStorage` that change its state. -/
inductive StorageOp where
  | store (log_metadata : LogMetaData) (user_tags log_data : List Nat)
  | readAt (request : SharedLogMessage)
  | newLogs (metalog_seqnum start_seqnum start_localid delta storage_shard_id : Nat)
  | metaLogApplied (meta_log_proto : MetaLogProto)
  | entriesPersisted (new_position : Nat)
  | shrink
deriving DecidableEq, Repr

/-- Effect of one call on the storage state; `none` when the call ends the process or does
not end. -/
def storageStep (max_size : Nat) (s : LogStorage) : StorageOp → Option LogStorage
  | StorageOp.store log_metadata user_tags log_data =>
    (s.Store log_metadata user_tags log_data).map Prod.fst
  | StorageOp.readAt request => some (s.ReadAt request)
  | StorageOp.newLogs metalog_seqnum start_seqnum start_localid delta storage_shard_id =>
    LogStorage.OnNewLogs max_size s metalog_seqnum start_seqnum start_localid delta
      storage_shard_id
  | StorageOp.metaLogApplied meta_log_proto => some (s.OnMetaLogApplied meta_log_proto)
  | StorageOp.entriesPersisted new_position =>
    some (LogStorage.LogEntriesPersisted max_size s new_position)
  | StorageOp.shrink => some (LogStorage.ShrinkLiveEntriesIfNeeded max_size s)

/-- A sequence of calls on the storage state. -/
def storageRun (max_size : Nat) : LogStorage → List StorageOp → Option LogStorage
  | s, [] => some s
  | s, op :: ops =>
    match storageStep max_size s op with
    | none => none
    | some s1 => storageRun max_size s1 ops

/-- A run in which every `OnNewLogs` call has a seqnum range that does not wrap and a
`start_seqnum` above every seqnum that is live when it is called (as any seqnum above all
those assigned before is). -/
def ascendingNewLogs (max_size : Nat) : LogStorage → List StorageOp → Bool
  | _, [] => true
  | s, op :: ops =>
    (match op with
      | StorageOp.newLogs _ start_seqnum _ delta _ =>
        decide (start_seqnum + delta ≤ 2 ^ 64 ∧ ∀ x ∈ s.live_seqnums, x < start_seqnum)
      | _ => true) &&
    match storageStep max_size s op with
    | none => true
    | some s1 => ascendingNewLogs max_size s1 ops

/-- The live set is consistent: `live_seqnums` is strictly increasing and holds exactly the
keys of `live_log_entries`, each once. -/
def LiveInv (s : LogStorage) : Prop :=
  s.live_seqnums.Pairwise (fun a b => a < b) ∧
    (s.live_log_entries.map Prod.fst).Perm s.live_seqnums

/-- A storage node 10 of `exampleView` under sequencer 1, as constructed. -/
def exampleStorageInit : LogStorage :=
  { identifier := 1
    metalog_position := 0
    seqnum_position := 4294967296
    local_seqnum_position := 0
    shard_progress_dirty := false
    persisted_seqnum_position := 0
    shard_progresses := [(0, 0), (1, 0)]
    pending_log_entries := []
    live_seqnums := []
    live_log_entries := []
    pending_read_requests := []
    pending_read_results := []
    index_data := IndexDataProto.empty
    index_data_packages := { logspace_id := 1, index_data_proto := [] } }

/-- Two entries of shard 0 are stored, a cut gives them the seqnums `1‖0` and `1‖1`, they
are persisted, and a second cut covers a third entry. -/
def exampleStorageOps : List StorageOp :=
  [StorageOp.store { exampleMeta 0 with localid := JoinTwo32 0 0 } [42] [120, 121],
   StorageOp.store { exampleMeta 0 with localid := JoinTwo32 0 1 } [42] [120, 121],
   StorageOp.newLogs 0 (JoinTwo32 1 0) (JoinTwo32 0 0) 2 0,
   StorageOp.entriesPersisted (JoinTwo32 1 2),
   StorageOp.store { exampleMeta 0 with localid := JoinTwo32 0 2 } [42] [120, 121],
   StorageOp.newLogs 1 (JoinTwo32 1 2) (JoinTwo32 0 2) 1 0]

/-! ### Bounds of the replication bookkeeping -/

/-- No recorded replica progress and no committed position is ahead of the primary's own
`metalog_position`. -/
def ReplicaBound (m : MetaLogPrimary) : Prop :=
  (∀ kv ∈ m.metalog_progresses, kv.2 ≤ m.metalog_position) ∧
    m.replicated_metalog_position ≤ m.metalog_position

/-! ## Function-call contexts of the engine (`src/log/engine_base.cpp`) -/

/-- The struct `EngineBase::FnCallContext`, with the fields the code initialises. -/
structure FnCallContext where
  user_logspace : Nat
  metalog_progress : Nat
  parent_call_id : Nat
deriving DecidableEq, Repr

/-- The part of a `LocalOp` that `FinishLocalOpWithResponse` reads. -/
structure LocalOp where
  func_call_id : Nat
  client_id : Nat
  client_data : Nat
deriving DecidableEq, Repr

/-- The part of `EngineBase` that holds the contexts: the map `fn_call_ctx_` from
`full_call_id` to context. -/
structure EngineBase where
  fn_call_ctx : List (Nat × FnCallContext)
deriving DecidableEq, Repr

/-- The method `EngineBase::OnNewExternalFuncCall`; a call that exists already is fatal.
`kInvalidFuncCallId` is the constant `protocol::kInvalidFuncCallId`, declared outside the
sources at hand. -/
def EngineBase.OnNewExternalFuncCall (kInvalidFuncCallId : Nat) (e : EngineBase)
    (full_call_id log_space : Nat) : Option EngineBase :=
  if mapContains e.fn_call_ctx full_call_id then none
  else
    some { fn_call_ctx := mapSet e.fn_call_ctx full_call_id
             { user_logspace := log_space, metalog_progress := 0
               parent_call_id := kInvalidFuncCallId } }

/-- The method `EngineBase::OnNewInternalFuncCall`; a call that exists already and a
missing parent are fatal. -/
def EngineBase.OnNewInternalFuncCall (e : EngineBase)
    (full_call_id parent_full_call_id : Nat) : Option EngineBase :=
  if mapContains e.fn_call_ctx full_call_id then none
  else if ¬ mapContains e.fn_call_ctx parent_full_call_id then none
  else
    match mapFind e.fn_call_ctx parent_full_call_id with
    | none => none
    | some ctx =>
      some { fn_call_ctx := mapSet e.fn_call_ctx full_call_id
               { ctx with parent_call_id := parent_full_call_id } }

/-- The method `EngineBase::OnFuncCallCompleted`; an unknown call is fatal. -/
def EngineBase.OnFuncCallCompleted (e : EngineBase) (full_call_id : Nat) :
    Option EngineBase :=
  if ¬ mapContains e.fn_call_ctx full_call_id then none
  else some { fn_call_ctx := mapErase e.fn_call_ctx full_call_id }

/-- The effect of `EngineBase::FinishLocalOpWithResponse(op, response, metalog_progress,
success)` on `fn_call_ctx_`; sending the response and returning `op` to its pool do not
touch the contexts. -/
def EngineBase.FinishLocalOpWithResponse (e : EngineBase) (op : LocalOp)
    (metalog_progress : Nat) : EngineBase :=
  if metalog_progress > 0 then
    match mapFind e.fn_call_ctx op.func_call_id with
    | none => e
    | some ctx =>
      if metalog_progress > ctx.metalog_progress then
        { fn_call_ctx := mapSet e.fn_call_ctx op.func_call_id
            { ctx with metalog_progress := metalog_progress } }
      else e
  else e

/-- The calls that read or write `fn_call_ctx_`. -/
inductive EngineOp where
  | newExternal (full_call_id log_space : Nat)
  | newInternal (full_call_id parent_full_call_id : Nat)
  | completed (full_call_id : Nat)
  | finishOp (op : LocalOp) (metalog_progress : Nat)
deriving DecidableEq, Repr

/-- Effect of one call on the contexts; `none` when the call is fatal. -/
def engineStep (kInvalidFuncCallId : Nat) (e : EngineBase) : EngineOp → Option EngineBase
  | EngineOp.newExternal full_call_id log_space =>
    e.OnNewExternalFuncCall kInvalidFuncCallId full_call_id log_space
  | EngineOp.newInternal full_call_id parent_full_call_id =>
    e.OnNewInternalFuncCall full_call_id parent_full_call_id
  | EngineOp.completed full_call_id => e.OnFuncCallCompleted full_call_id
  | EngineOp.finishOp op metalog_progress =>
    some (e.FinishLocalOpWithResponse op metalog_progress)

/-- A sequence of calls on the contexts. -/
def engineRun (kInvalidFuncCallId : Nat) : EngineBase → List EngineOp → Option EngineBase
  | e, [] => some e
  | e, op :: ops =>
    match engineStep kInvalidFuncCallId e op with
    | none => none
    | some e1 => engineRun kInvalidFuncCallId e1 ops

/-- Call 100 of user logspace 5 has seen metalog progress 40. -/
def exampleEngine : EngineBase :=
  { fn_call_ctx := [(100, { user_logspace := 5, metalog_progress := 40, parent_call_id := 0 })] }

/-! ## Picking a storage node (`src/log/view.h`) -/

/-- The part of `View::Index` that `PickStorageNode` reads: the storage nodes of each
storage shard and the per-shard counter `next_shard_storage_node_`. -/
structure Index where
  node_id : Nat
  per_shard_storage_nodes : List (Nat × List Nat)
  next_shard_storage_node : List (Nat × Nat)
deriving DecidableEq, Repr

/-- The method `View::Index::PickStorageNode`, with the state of the index after the call;
`userlog_replicas` is `view_->userlog_replicas_`.  The counter is read with `.at` into the
local variable `next_storage_node_`, the fetch-and-add increments that local variable, and
nothing is stored back.  Both `.at` lookups and the element access throw when out of
range. -/
def Index.PickStorageNode (userlog_replicas : Nat) (ix : Index) (storage_shard_id : Nat) :
    Option (Index × Nat) :=
  match mapFind ix.next_shard_storage_node storage_shard_id with
  | none => none
  | some next_storage_node =>
    let idx := next_storage_node
    let _next_storage_node := (next_storage_node + 1) % 2 ^ 64
    if userlog_replicas = 0 then none
    else
      let storage_node_pos := idx % userlog_replicas
      match mapFind ix.per_shard_storage_nodes storage_shard_id with
      | none => none
      | some storage_nodes =>
        match storage_nodes[storage_node_pos]? with
        | none => none
        | some node => some (ix, node)

/-- The method `View::StorageShard::PickStorageNode`: the fetch-and-add is on the member
`next_storage_node_`, here the second argument; the result is the new counter and the node
picked. -/
def StorageShard.PickStorageNode (shard : StorageShard) (next_storage_node : Nat) :
    Option (Nat × Nat) :=
  let idx := next_storage_node
  if shard.storage_nodes.length = 0 then none
  else
    match shard.storage_nodes[idx % shard.storage_nodes.length]? with
    | none => none
    | some node => some ((next_storage_node + 1) % 2 ^ 64, node)

/-- The given number of successive calls of `View::Index::PickStorageNode` for one shard:
the final state and the nodes returned. -/
def Index.pickTimes (userlog_replicas storage_shard_id : Nat) :
    Nat → Index → Option (Index × List Nat)
  | 0, ix => some (ix, [])
  | k + 1, ix =>
    match Index.PickStorageNode userlog_replicas ix storage_shard_id with
    | none => none
    | some (ix1, node) =>
      match Index.pickTimes userlog_replicas storage_shard_id k ix1 with
      | none => none
      | some (ix2, nodes) => some (ix2, node :: nodes)

/-- The given number of successive calls of `View::StorageShard::PickStorageNode`: the
final counter and the nodes returned. -/
def StorageShard.pickTimes (shard : StorageShard) : Nat → Nat → Option (Nat × List Nat)
  | 0, next_storage_node => some (next_storage_node, [])
  | k + 1, next_storage_node =>
    match shard.PickStorageNode next_storage_node with
    | none => none
    | some (next1, node) =>
      match StorageShard.pickTimes shard k next1 with
      | none => none
      | some (next2, nodes) => some (next2, node :: nodes)

/-- An index node that knows shard `1‖0` with storage nodes 10, 11 and 12, counter at 4. -/
def exampleIndex : Index :=
  { node_id := 20
    per_shard_storage_nodes := [(JoinTwo16 1 0, [10, 11, 12])]
    next_shard_storage_node := [(JoinTwo16 1 0, 4)] }

/-! ## Shards blocked while dirty -/

/-- The call raises a recorded progress of shard `s`: it is an `UpdateStorageProgress` that
returns and leaves `shard_progrsses_[(s, storage_id)]` above its value before the call. -/
def raisesShard (v : View) (q : Sequencer) (s : Nat) (m : MetaLogPrimary) : Op → Bool
  | Op.storageProgress storage_id progress =>
    match UpdateStorageProgress v q m storage_id progress with
    | none => false
    | some m' =>
      decide ((mapFind m.shard_progrsses (s, storage_id)).getD 0 <
        (mapFind m'.shard_progrsses (s, storage_id)).getD 0)
  | _ => false

/-- A run in which no call raises a recorded progress of shard `s`. -/
def noRaise (v : View) (q : Sequencer) (s : Nat) : MetaLogPrimary → List Op → Bool
  | _, [] => true
  | m, op :: ops =>
    (!raisesShard v q s m op) &&
      match step v q m op with
      | none => true
      | some (m1, _) => noRaise v q s m1 ops

/-- Shard `s` is ahead of its last cut without being marked dirty. -/
def Stale (v : View) (q : Sequencer) (s : Nat) (m : MetaLogPrimary) : Prop :=
  s ∉ m.dirty_shards ∧
    ∃ cut pos, mapFind m.last_cut s = some cut ∧
      GetShardReplicatedPosition v q m s = some pos ∧ cut < pos

end log

/-! ## The gateway's node manager (`src/gateway/node_manager.cpp`) -/

namespace gateway

open log

/-- Modelled from the spec: `node::NodeType`, declared outside the sources at hand.  The
code names `kEngineNode` only; `kOtherNode` stands for every other type. -/
inductive NodeType where
  | kEngineNode
  | kOtherNode
deriving DecidableEq, Repr

/-- The two values of `ScaleWatcher::ScaleOp` that `OnNodeScaled` names. -/
inductive ScaleOp where
  | kScaleOut
  | kScaleIn
deriving DecidableEq, Repr

/-- Modelled from the spec: `NodeManager::Node`, declared in `node_manager.h`, which is not
part of the sources at hand: the node id and the counter `inflight_requests` that the code
initialises to 0 and increments; the statistics counter is left out. -/
structure Node where
  node_id : Nat
  inflight_requests : Nat
deriving DecidableEq, Repr

/-- The fields of `protocol::FuncCall` that the node manager reads. -/
structure FuncCall where
  func_id : Nat
  full_call_id : Nat
deriving DecidableEq, Repr

/-- The flags the node manager reads. -/
structure Flags where
  lb_per_fn_round_robin : Bool
  lb_pick_least_load : Bool
  max_running_requests : Nat
deriving DecidableEq, Repr

/-- The state of `NodeManager`.  `connected_nodes_` owns the `Node` objects through
`unique_ptr` and `connected_node_list_` holds raw pointers to them, so the objects are kept
in `heap`, by address: `connected_nodes` maps a node id to the address of the object it
owns, `connected_node_list` is a vector of addresses, and an object that is destroyed
leaves `heap`.  `next_address` is the address the next `make_unique<Node>` returns. -/
structure NodeManager where
  heap : List (Nat × Node)
  next_address : Nat
  connected_nodes : List (Nat × Nat)
  connected_node_list : List Nat
  running_requests : List Nat
  max_running_requests : Nat
  next_dispatch_node_idx : List (Nat × Nat)
deriving DecidableEq, Repr

/-- The constructor `NodeManager::NodeManager`: empty containers, `max_running_requests_`
zero. -/
def NodeManager.create : NodeManager :=
  { heap := [], next_address := 0, connected_nodes := [], connected_node_list := []
    running_requests := [], max_running_requests := 0, next_dispatch_node_idx := [] }

/-- What a call of `PickNodeForNewFuncCall` does: it returns `false`, or it returns `true`
with `*node_id`, or it dereferences a pointer of `connected_node_list_` whose `Node` has
been destroyed (the address is given), after which its behaviour is undefined. -/
inductive PickResult where
  | refused
  | picked (node_id : Nat)
  | destroyedNode (address : Nat)
deriving DecidableEq, Repr

/-- The scan of `absl::c_min_element` over `connected_node_list_` with the comparison
`lhs->inflight_requests < rhs->inflight_requests`: `i` is the index of the next element,
`smallest_idx` and `smallest` the index and pointer of the smallest so far.  Comparing
reads both objects. -/
def minElementLoop (heap : List (Nat × Node)) :
    List Nat → Nat → Nat → Nat → Except Nat Nat
  | [], _, smallest_idx, _ => Except.ok smallest_idx
  | lhs :: rest, i, smallest_idx, smallest =>
    match mapFind heap lhs, mapFind heap smallest with
    | none, _ => Except.error lhs
    | some _, none => Except.error smallest
    | some l, some r =>
      if l.inflight_requests < r.inflight_requests then minElementLoop heap rest (i + 1) i lhs
      else minElementLoop heap rest (i + 1) smallest_idx smallest

/-- The tail of `PickNodeForNewFuncCall` once `idx` is chosen: `connected_node_list_[idx]`
is dereferenced, its `inflight_requests` incremented, the call recorded as running. -/
def dispatchTo (m : NodeManager) (func_call : FuncCall) (idx : Nat) :
    NodeManager × PickResult :=
  let node := m.connected_node_list.getD idx 0
  match mapFind m.heap node with
  | none => (m, PickResult.destroyedNode node)
  | some n =>
    ({ m with
       heap := mapSet m.heap node { n with inflight_requests := n.inflight_requests + 1 }
       running_requests := setInsert m.running_requests func_call.full_call_id },
     PickResult.picked n.node_id)

/-- The method `NodeManager::PickNodeForNewFuncCall`.  `draw` is the value that
`absl::Uniform<size_t>(random_bit_gen_, 0, size)` returns, reduced to that interval. -/
def NodeManager.PickNodeForNewFuncCall (flags : Flags) (m : NodeManager)
    (func_call : FuncCall) (draw : Nat) : NodeManager × PickResult :=
  if m.connected_node_list.isEmpty then (m, PickResult.refused)
  else if m.max_running_requests > 0 ∧ m.running_requests.length > m.max_running_requests then
    (m, PickResult.refused)
  else if flags.lb_per_fn_round_robin then
    let counter := (mapFind m.next_dispatch_node_idx func_call.func_id).getD 0
    dispatchTo
      { m with
        next_dispatch_node_idx :=
          mapSet m.next_dispatch_node_idx func_call.func_id ((counter + 1) % 2 ^ 64) }
      func_call (counter % m.connected_node_list.length)
  else if flags.lb_pick_least_load then
    match minElementLoop m.heap m.connected_node_list.tail 1 0
        (m.connected_node_list.headD 0) with
    | Except.error address => (m, PickResult.destroyedNode address)
    | Except.ok idx => dispatchTo m func_call idx
  else dispatchTo m func_call (draw % m.connected_node_list.length)

/-- The method `NodeManager::OnNodeOnline`, without the notification of the server.  If
the id were already connected, the assignment to `connected_nodes_[node_id]` would destroy
the `Node` owned before. -/
def NodeManager.OnNodeOnline (flags : Flags) (m : NodeManager) (node_type : NodeType)
    (node_id : Nat) : NodeManager :=
  if node_type ≠ NodeType.kEngineNode then m
  else
    let node := m.next_address
    let heap1 :=
      match mapFind m.connected_nodes node_id with
      | some old => mapErase m.heap old
      | none => m.heap
    let connected_nodes := mapSet m.connected_nodes node_id node
    { m with
      heap := mapSet heap1 node { node_id := node_id, inflight_requests := 0 }
      next_address := m.next_address + 1
      connected_node_list := m.connected_node_list ++ [node]
      connected_nodes := connected_nodes
      max_running_requests := (flags.max_running_requests * connected_nodes.length) % 2 ^ 64 }

/-- The method `NodeManager::OnNodeOffline`, without the notification of the server:
`connected_nodes_.erase(node_id)` destroys the `Node` it owned, and `connected_node_list_`
is rebuilt from `connected_nodes_`. -/
def NodeManager.OnNodeOffline (flags : Flags) (m : NodeManager) (node_type : NodeType)
    (node_id : Nat) : NodeManager :=
  if node_type ≠ NodeType.kEngineNode then m
  else
    let heap1 :=
      match mapFind m.connected_nodes node_id with
      | some old => mapErase m.heap old
      | none => m.heap
    let connected_nodes := mapErase m.connected_nodes node_id
    { m with
      heap := heap1
      connected_nodes := connected_nodes
      connected_node_list := connected_nodes.map Prod.snd
      max_running_requests := (flags.max_running_requests * connected_nodes.length) % 2 ^ 64 }

/-- The method `NodeManager::OnNodeScaled`: on `kScaleIn` of an engine node,
`connected_nodes_.erase(node_id)` and nothing else. -/
def NodeManager.OnNodeScaled (m : NodeManager) (scale_op : ScaleOp) (node_type : NodeType)
    (node_id : Nat) : NodeManager :=
  if node_type ≠ NodeType.kEngineNode then m
  else
    match scale_op with
    | ScaleOp.kScaleOut => m
    | ScaleOp.kScaleIn =>
      { m with
        heap :=
          (match mapFind m.connected_nodes node_id with
            | some old => mapErase m.heap old
            | none => m.heap)
        connected_nodes := mapErase m.connected_nodes node_id }

/-- The routing state is consistent: `connected_node_list_` points to exactly the nodes
that `connected_nodes_` owns, and `max_running_requests_` is the flag times their number. -/
def RoutingConsistent (flags : Flags) (m : NodeManager) : Prop :=
  m.connected_node_list.Perm (m.connected_nodes.map Prod.snd) ∧
    m.max_running_requests = (flags.max_running_requests * m.connected_nodes.length) % 2 ^ 64

/-- Flags of a gateway that lets every node run up to four requests and draws nodes at
random. -/
def exampleFlags : Flags :=
  { lb_per_fn_round_robin := false, lb_pick_least_load := false, max_running_requests := 4 }

/-- Engine nodes 7 and 8 came online, then node 7 was scaled in. -/
def exampleScaledIn : NodeManager :=
  NodeManager.OnNodeScaled
    (NodeManager.OnNodeOnline exampleFlags
      (NodeManager.OnNodeOnline exampleFlags NodeManager.create NodeType.kEngineNode 7)
      NodeType.kEngineNode 8)
    ScaleOp.kScaleIn NodeType.kEngineNode 7

end gateway

namespace log

/-! ## Facts about the containers -/

theorem mapFind_mapSet {κ ν : Type} [DecidableEq κ] (m : List (κ × ν)) (k k' : κ) (v : ν) :
    mapFind (mapSet m k v) k' = if k = k' then some v else mapFind m k' := by
  induction m with
  | nil => simp [mapSet, mapFind]
  | cons hd tl ih =>
    obtain ⟨a, b⟩ := hd
    by_cases h : a = k
    · subst h
      by_cases h2 : a = k' <;> simp [mapSet, mapFind, h2]
    · simp only [mapSet, if_neg h, mapFind, ih]
      by_cases h3 : a = k'
      · subst h3
        have h4 : ¬ k = a := fun e => h e.symm
        simp [h4]
      · simp [h3]

theorem mapFind_mapSet_self {κ ν : Type} [DecidableEq κ] (m : List (κ × ν)) (k : κ) (v : ν) :
    mapFind (mapSet m k v) k = some v := by
  simp [mapFind_mapSet]

theorem mapFind_mapSet_ne {κ ν : Type} [DecidableEq κ] (m : List (κ × ν)) {k k' : κ} (v : ν)
    (h : k ≠ k') : mapFind (mapSet m k v) k' = mapFind m k' := by
  simp [mapFind_mapSet, h]

theorem mapFind_mapTouch {κ ν : Type} [DecidableEq κ] (m : List (κ × ν)) (k k' : κ) (d : ν) :
    mapFind (mapTouch m k d) k' =
      if k = k' then some ((mapFind m k).getD d) else mapFind m k' := by
  unfold mapTouch mapContains
  cases h : mapFind m k with
  | none =>
    by_cases h2 : k = k'
    · subst h2; simp [mapFind_mapSet]
    · simp [mapFind_mapSet, h2]
  | some x =>
    by_cases h2 : k = k'
    · subst h2; simp [h]
    · simp [h2]

theorem mapFind_mapTouch_isSome {κ ν : Type} [DecidableEq κ] (m : List (κ × ν)) (k k' : κ)
    (d : ν) (h : (mapFind m k').isSome) : (mapFind (mapTouch m k d) k').isSome := by
  rw [mapFind_mapTouch]
  by_cases h2 : k = k'
  · simp [h2]
  · simpa [h2] using h

theorem mapFind_mapSet_isSome {κ ν : Type} [DecidableEq κ] (m : List (κ × ν)) (k k' : κ)
    (v : ν) (h : (mapFind m k').isSome) : (mapFind (mapSet m k v) k').isSome := by
  rw [mapFind_mapSet]
  by_cases h2 : k = k'
  · simp [h2]
  · simpa [h2] using h

theorem mem_setInsert (s : List Nat) (x y : Nat) : y ∈ setInsert s x ↔ y ∈ s ∨ y = x := by
  unfold setInsert
  by_cases h : x ∈ s
  · simp only [h, if_true]
    constructor
    · intro hy; exact Or.inl hy
    · rintro (hy | rfl)
      · exact hy
      · exact h
  · simp [h]

theorem mem_setErase (s : List Nat) (x y : Nat) : y ∈ setErase s x ↔ y ∈ s ∧ y ≠ x := by
  simp [setErase]

theorem nodup_setInsert (s : List Nat) (x : Nat) (h : s.Nodup) : (setInsert s x).Nodup := by
  unfold setInsert
  by_cases hx : x ∈ s
  · simpa [hx] using h
  · simp only [hx, if_false]
    exact List.Nodup.append h (List.nodup_singleton x) (by simpa using hx)

theorem nodup_setErase (s : List Nat) (x : Nat) (h : s.Nodup) : (setErase s x).Nodup :=
  List.Nodup.filter _ h

/-! ## Replicated position of a shard -/

theorem minProgress_congr (sp sp' : List ((Nat × Nat) × Nat)) (s : Nat) (nodes : List Nat)
    (h : ∀ n ∈ nodes, mapFind sp' (s, n) = mapFind sp (s, n)) (init : Nat) :
    minProgress sp' s nodes init = minProgress sp s nodes init := by
  induction nodes generalizing init with
  | nil => rfl
  | cons n rest ih =>
    have hn := h n (List.mem_cons_self _ _)
    simp only [minProgress, hn]
    cases mapFind sp (s, n) with
    | none => rfl
    | some p => exact ih (fun x hx => h x (List.mem_cons_of_mem _ hx)) _

theorem minProgress_spec (sp : List ((Nat × Nat) × Nat)) (s : Nat) (nodes : List Nat)
    (h : ∀ n ∈ nodes, (mapFind sp (s, n)).isSome) (init : Nat) :
    ∃ r, minProgress sp s nodes init = some r ∧ r ≤ init ∧
      (∀ n ∈ nodes, ∀ p, mapFind sp (s, n) = some p → r ≤ p) ∧
      (r = init ∨ ∃ n ∈ nodes, mapFind sp (s, n) = some r) := by
  induction nodes generalizing init with
  | nil => exact ⟨init, rfl, le_refl _, by simp, Or.inl rfl⟩
  | cons n rest ih =>
    have hn := h n (List.mem_cons_self _ _)
    obtain ⟨p, hp⟩ := Option.isSome_iff_exists.mp hn
    obtain ⟨r, hr, hle, hlow, hatt⟩ :=
      ih (fun x hx => h x (List.mem_cons_of_mem _ hx)) (min init p)
    refine ⟨r, by simp [minProgress, hp, hr], le_trans hle (min_le_left _ _), ?_, ?_⟩
    · intro x hx px hpx
      rcases List.mem_cons.mp hx with rfl | hx'
      · rw [hp] at hpx
        cases hpx
        exact le_trans hle (min_le_right _ _)
      · exact hlow x hx' px hpx
    · rcases hatt with heq | ⟨x, hx, hxr⟩
      · rcases le_total init p with hip | hpi
        · left; rw [heq, min_eq_left hip]
        · right
          refine ⟨n, List.mem_cons_self _ _, ?_⟩
          rw [heq, min_eq_right hpi, hp]
      · exact Or.inr ⟨x, List.mem_cons_of_mem _ hx, hxr⟩

theorem GetShardReplicatedPosition_congr (v : View) (q : Sequencer) (m m' : MetaLogPrimary)
    (h : m'.shard_progrsses = m.shard_progrsses) (s : Nat) :
    GetShardReplicatedPosition v q m' s = GetShardReplicatedPosition v q m s := by
  unfold GetShardReplicatedPosition
  rw [h]

theorem GetShardReplicatedPosition_le (v : View) (q : Sequencer) (m : MetaLogPrimary)
    (s r : Nat) (h : GetShardReplicatedPosition v q m s = some r) : r ≤ UINT32_MAX := by
  unfold GetShardReplicatedPosition at h
  cases hs : v.GetStorageShard (JoinTwo16 q.node_id s) with
  | none => simp [hs] at h
  | some st =>
    simp only [hs] at h
    have key : ∀ (nodes : List Nat) (init r : Nat),
        minProgress m.shard_progrsses s nodes init = some r → r ≤ init := by
      intro nodes
      induction nodes with
      | nil => intro init r hr; simp [minProgress] at hr; omega
      | cons n rest ih =>
        intro init r hr
        simp only [minProgress] at hr
        cases hp : mapFind m.shard_progrsses (s, n) with
        | none => simp [hp] at hr
        | some p =>
          simp only [hp] at hr
          exact le_trans (ih _ _ hr) (min_le_left _ _)
    exact key _ _ _ h

/-! ## The cut -/

theorem sub32_eq_sub {a b : Nat} (hb : b ≤ a) (ha : a ≤ UINT32_MAX) : sub32 a b = a - b := by
  unfold sub32
  unfold UINT32_MAX at ha
  have h1 : b % 2 ^ 32 = b := Nat.mod_eq_of_lt (by omega)
  rw [h1]
  have h2 : a + 2 ^ 32 - b = (a - b) + 2 ^ 32 := by omega
  rw [h2, Nat.add_mod_right]
  exact Nat.mod_eq_of_lt (by omega)

theorem cutLoop_spec (v : View) (q : Sequencer) (ds : List Nat) :
    ∀ (m : MetaLogPrimary) (nl : NewLogsProto) (t : Nat),
      t < 2 ^ 32 →
      ds.Nodup →
      (∀ s ∈ ds, (mapFind m.last_cut s).isSome ∧
        (GetShardReplicatedPosition v q m s).isSome) →
      ∃ lc, cutLoop v q ds (m, nl, t) = some
          ({ m with last_cut := lc },
           { nl with
             shard_ids := nl.shard_ids ++ ds
             shard_starts := nl.shard_starts ++ ds.map (fun s => (mapFind m.last_cut s).getD 0)
             shard_deltas := nl.shard_deltas ++ ds.map (fun s =>
               sub32 ((GetShardReplicatedPosition v q m s).getD 0)
                 ((mapFind m.last_cut s).getD 0)) },
           (t + (ds.map (fun s =>
               sub32 ((GetShardReplicatedPosition v q m s).getD 0)
                 ((mapFind m.last_cut s).getD 0))).sum) % 2 ^ 32) ∧
        ∀ s, mapFind lc s =
          if s ∈ ds then GetShardReplicatedPosition v q m s else mapFind m.last_cut s := by
  induction ds with
  | nil =>
    intro m nl t ht _ _
    refine ⟨m.last_cut, ?_, by simp⟩
    simp only [cutLoop, List.map_nil, List.append_nil, List.sum_nil, Nat.add_zero]
    rw [Nat.mod_eq_of_lt ht]
  | cons d rest ih =>
    intro m nl t _ hnd hk
    obtain ⟨hd1, hd2⟩ := hk d (List.mem_cons_self _ _)
    obtain ⟨cut, hcut⟩ := Option.isSome_iff_exists.mp hd1
    obtain ⟨pos, hpos⟩ := Option.isSome_iff_exists.mp hd2
    have hnd' := List.nodup_cons.mp hnd
    have hframe : ∀ s, GetShardReplicatedPosition v q
        { m with last_cut := mapSet m.last_cut d pos } s =
          GetShardReplicatedPosition v q m s :=
      fun s => GetShardReplicatedPosition_congr v q m _ rfl s
    have hlc : ∀ s ∈ rest, mapFind (mapSet m.last_cut d pos) s = mapFind m.last_cut s := by
      intro s hs
      apply mapFind_mapSet_ne
      rintro rfl
      exact hnd'.1 hs
    obtain ⟨lc, hrun, hfind⟩ := ih { m with last_cut := mapSet m.last_cut d pos }
      { nl with shard_ids := nl.shard_ids ++ [d]
                shard_starts := nl.shard_starts ++ [cut]
                shard_deltas := nl.shard_deltas ++ [sub32 pos cut] }
      (add32 t (sub32 pos cut)) (Nat.mod_lt _ (by norm_num)) hnd'.2
      (fun s hs => by
        have := hk s (List.mem_cons_of_mem _ hs)
        exact ⟨by simpa [hlc s hs] using this.1, by simpa [hframe s] using this.2⟩)
    refine ⟨lc, ?_, ?_⟩
    · simp only [cutLoop, hcut, hpos]
      rw [hrun]
      have e1 : rest.map (fun s => (mapFind (mapSet m.last_cut d pos) s).getD 0) =
          rest.map (fun s => (mapFind m.last_cut s).getD 0) :=
        List.map_congr_left (fun s hs => by rw [hlc s hs])
      have e2 : rest.map (fun s => sub32 ((GetShardReplicatedPosition v q
            { m with last_cut := mapSet m.last_cut d pos } s).getD 0)
            ((mapFind (mapSet m.last_cut d pos) s).getD 0)) =
          rest.map (fun s => sub32 ((GetShardReplicatedPosition v q m s).getD 0)
            ((mapFind m.last_cut s).getD 0)) :=
        List.map_congr_left (fun s hs => by rw [hlc s hs, hframe s])
      simp only [e1, e2, List.map_cons, hcut, hpos, Option.getD_some, List.sum_cons,
        List.append_assoc, List.singleton_append, add32]
      congr 3
      omega
    · intro s
      rw [hfind s]
      by_cases hs : s ∈ rest
      · simp [hs, hframe s]
      · by_cases hsd : s = d
        · subst hsd
          simp [hs, mapFind_mapSet_self, hpos]
        · have hne : d ≠ s := fun e => hsd e.symm
          simp [hs, hsd, mapFind_mapSet_ne _ _ hne]

theorem cutLoop_frame (v : View) (q : Sequencer) (ds : List Nat) :
    ∀ (m m1 : MetaLogPrimary) (nl nl1 : NewLogsProto) (t t1 : Nat),
      cutLoop v q ds (m, nl, t) = some (m1, nl1, t1) →
      nl1.start_seqnum = nl.start_seqnum ∧
      (t1 + nl.shard_deltas.sum) % 2 ^ 32 = (t + nl1.shard_deltas.sum) % 2 ^ 32 ∧
      m1 = { m with last_cut := m1.last_cut } := by
  induction ds with
  | nil =>
    intro m m1 nl nl1 t t1 h
    simp only [cutLoop, Option.some.injEq, Prod.mk.injEq] at h
    obtain ⟨rfl, rfl, rfl⟩ := h
    exact ⟨rfl, by omega, rfl⟩
  | cons d rest ih =>
    intro m m1 nl nl1 t t1 h
    simp only [cutLoop] at h
    cases hcut : mapFind m.last_cut d with
    | none => simp [hcut] at h
    | some cut =>
      cases hpos : GetShardReplicatedPosition v q m d with
      | none => simp [hcut, hpos] at h
      | some pos =>
        simp only [hcut, hpos] at h
        obtain ⟨h1, h2, h3⟩ := ih _ _ _ _ _ _ h
        refine ⟨h1, ?_, ?_⟩
        · simp only [List.sum_append, List.sum_cons, List.sum_nil, add32] at h2
          omega
        · rw [h3]

theorem MarkNextCut_of_dirty (v : View) (q : Sequencer) (m : MetaLogPrimary)
    (hne : m.dirty_shards ≠ []) (hnodup : m.dirty_shards.Nodup)
    (hknown : ∀ s ∈ m.dirty_shards, (mapFind m.last_cut s).isSome ∧
      (GetShardReplicatedPosition v q m s).isSome) :
    ∃ lc, MarkNextCut v q m = some
        ({ m with
           last_cut := lc
           blocking_change := false
           dirty_shards := []
           applied_metalogs := m.applied_metalogs ++
             [{ logspace_id := m.identifier
                metalog_seqnum := m.metalog_position
                type := MetaLogType.NEW_LOGS
                new_logs_proto :=
                  { start_seqnum := LowHalf64 m.seqnum_position
                    shard_ids := m.dirty_shards
                    shard_starts := cutStarts m
                    shard_deltas := cutDeltas v q m } }]
           metalog_position := m.metalog_position + 1
           seqnum_position := m.seqnum_position + (cutDeltas v q m).sum },
         some { logspace_id := m.identifier
                metalog_seqnum := m.metalog_position
                type := MetaLogType.NEW_LOGS
                new_logs_proto :=
                  { start_seqnum := LowHalf64 m.seqnum_position
                    shard_ids := m.dirty_shards
                    shard_starts := cutStarts m
                    shard_deltas := cutDeltas v q m } }) ∧
      ∀ s, mapFind lc s =
        if s ∈ m.dirty_shards then GetShardReplicatedPosition v q m s
        else mapFind m.last_cut s := by
  obtain ⟨lc, hrun, hfind⟩ :=
    cutLoop_spec v q m.dirty_shards m (emptyNewLogs m) 0 (by norm_num) hnodup hknown
  refine ⟨lc, ?_, hfind⟩
  have hemp : m.dirty_shards.isEmpty = false := by
    cases hd : m.dirty_shards with
    | nil => exact absurd hd hne
    | cons a b => rfl
  unfold MarkNextCut
  simp only [hemp, Bool.false_eq_true, if_false]
  simp only [emptyNewLogs] at hrun
  rw [hrun]
  simp [ProvideMetaLog, cutStarts, cutDeltas]

/-! ## Shape of the state after each call -/

theorem BlockShard_state (m : MetaLogPrimary) (s : Nat) :
    ((BlockShard m s).1 = m ∧ (mapFind m.last_cut s = none ∨ s ∉ m.unblocked_shards)) ∨
    (s ∈ m.unblocked_shards ∧ (mapFind m.last_cut s).isSome ∧
      (BlockShard m s).1 =
        { m with dirty_shards := setErase m.dirty_shards s
                 unblocked_shards := setErase m.unblocked_shards s
                 blocking_change := true }) := by
  unfold BlockShard
  cases hk : mapFind m.last_cut s with
  | none => left; exact ⟨rfl, Or.inl rfl⟩
  | some cut =>
    by_cases hu : s ∈ m.unblocked_shards
    · right
      refine ⟨hu, rfl, ?_⟩
      simp only [hu, not_true_eq_false, if_false]
      by_cases hd : s ∈ m.dirty_shards
      · simp [hd]
      · have he : setErase m.dirty_shards s = m.dirty_shards := by
          unfold setErase
          rw [List.filter_eq_self]
          intro a ha
          have : a ≠ s := fun e => hd (e ▸ ha)
          simpa using this
        simp [hd, he]
    · left
      exact ⟨by simp [hu], Or.inr hu⟩

theorem UnblockShard_state (m : MetaLogPrimary) (s : Nat) :
    (UnblockShard m s).1 = m ∨
    ((mapFind m.last_cut s).isSome ∧
      (UnblockShard m s).1 =
        { m with unblocked_shards := setInsert m.unblocked_shards s
                 blocking_change := true }) := by
  unfold UnblockShard
  cases hk : mapFind m.last_cut s with
  | none => left; rfl
  | some cut =>
    by_cases hu : s ∈ m.unblocked_shards
    · left; simp [hu]
    · right; simp [hu]

theorem storageProgressStep_cases (v : View) (q : Sequencer) (storage_id : Nat)
    (m m' : MetaLogPrimary) (g p : Nat)
    (h : storageProgressStep v q storage_id m g p = some m') :
    m' = m ∨
    (LowHalf32 g ∈ m.unblocked_shards ∧
      m' = { m with shard_progrsses := mapTouch m.shard_progrsses (LowHalf32 g, storage_id) 0 }) ∨
    (LowHalf32 g ∈ m.unblocked_shards ∧
      ∃ sp cur cut, sp = mapSet (mapTouch m.shard_progrsses (LowHalf32 g, storage_id) 0)
          (LowHalf32 g, storage_id) p ∧
        (mapFind m.shard_progrsses (LowHalf32 g, storage_id)).getD 0 < p ∧
        GetShardReplicatedPosition v q { m with shard_progrsses := sp } (LowHalf32 g) = some cur ∧
        mapFind m.last_cut (LowHalf32 g) = some cut ∧
        ((cut < cur ∧ m' = { m with shard_progrsses := sp
                                    dirty_shards := setInsert m.dirty_shards (LowHalf32 g) }) ∨
         (cur ≤ cut ∧ m' = { m with shard_progrsses := sp }))) := by
  unfold storageProgressStep at h
  by_cases hu : LowHalf32 g ∈ m.unblocked_shards
  · simp only [hu, not_true_eq_false, if_false] at h
    have hget : (mapFind (mapTouch m.shard_progrsses (LowHalf32 g, storage_id) 0)
        (LowHalf32 g, storage_id)).getD 0 =
          (mapFind m.shard_progrsses (LowHalf32 g, storage_id)).getD 0 := by
      rw [mapFind_mapTouch]
      simp
    by_cases hp : p > (mapFind (mapTouch m.shard_progrsses (LowHalf32 g, storage_id) 0)
        (LowHalf32 g, storage_id)).getD 0
    · simp only [hp, if_true] at h
      right; right
      refine ⟨hu, ?_⟩
      cases hcur : GetShardReplicatedPosition v q
          { m with shard_progrsses :=
              (mapSet (mapTouch m.shard_progrsses (LowHalf32 g, storage_id) 0)
                (LowHalf32 g, storage_id) p) } (LowHalf32 g) with
      | none => simp [hcur] at h
      | some cur =>
        cases hcut : mapFind m.last_cut (LowHalf32 g) with
        | none => simp [hcur, hcut] at h
        | some cut =>
          simp only [hcur, hcut] at h
          refine ⟨_, cur, cut, rfl, by rw [← hget]; exact hp, hcur, rfl, ?_⟩
          by_cases hgt : cur > cut
          · simp only [hgt, if_true, Option.some.injEq] at h
            exact Or.inl ⟨hgt, h.symm⟩
          · simp only [hgt, if_false, Option.some.injEq] at h
            exact Or.inr ⟨by omega, h.symm⟩
    · simp only [hp, if_false, Option.some.injEq] at h
      right; left
      exact ⟨hu, h.symm⟩
  · simp only [hu, not_false_eq_true, if_true, Option.some.injEq] at h
    exact Or.inl h.symm

theorem UpdateReplicaProgress_cases (q : Sequencer) (m m' : MetaLogPrimary) (sid pos : Nat)
    (h : UpdateReplicaProgress q m sid pos = some m') :
    ∃ mp r, m' = { m with metalog_progresses := mp, replicated_metalog_position := r } := by
  unfold UpdateReplicaProgress at h
  by_cases h1 : q.IsReplicaSequencerNode sid = true
  · by_cases h2 : pos > m.metalog_position
    · simp [h1, h2] at h
    · simp only [h1, not_true_eq_false, if_false, h2] at h
      by_cases h3 : pos > (mapFind (mapTouch m.metalog_progresses sid 0) sid).getD 0
      · simp only [h3, if_true] at h
        unfold UpdateMetaLogReplicatedPosition at h
        simp only at h
        split at h
        · cases h; exact ⟨_, _, rfl⟩
        · split at h
          · cases h; exact ⟨_, _, rfl⟩
          · split at h
            · cases h
            · cases h; exact ⟨_, _, rfl⟩
      · simp only [h3, if_false, Option.some.injEq] at h
        exact ⟨_, _, h.symm⟩
  · simp [h1] at h

/-! ## Monotonicity of the replicated position -/

theorem minProgress_mono (sp sp' : List ((Nat × Nat) × Nat)) (s : Nat) (nodes : List Nat)
    (h : ∀ n ∈ nodes, ∀ x, mapFind sp (s, n) = some x →
      ∃ y, mapFind sp' (s, n) = some y ∧ x ≤ y) :
    ∀ (init init' a : Nat), init ≤ init' → minProgress sp s nodes init = some a →
      ∃ b, minProgress sp' s nodes init' = some b ∧ a ≤ b := by
  induction nodes with
  | nil =>
    intro init init' a hi ha
    simp only [minProgress, Option.some.injEq] at ha
    exact ⟨init', rfl, by omega⟩
  | cons n rest ih =>
    intro init init' a hi ha
    simp only [minProgress] at ha
    cases hx : mapFind sp (s, n) with
    | none => simp [hx] at ha
    | some x =>
      simp only [hx] at ha
      obtain ⟨y, hy, hxy⟩ := h n (List.mem_cons_self _ _) x hx
      obtain ⟨b, hb, hab⟩ := ih (fun k hk => h k (List.mem_cons_of_mem _ hk))
        (min init x) (min init' y) a (min_le_min hi hxy) ha
      exact ⟨b, by simp [minProgress, hy, hb], hab⟩

theorem GetShardReplicatedPosition_mono (v : View) (q : Sequencer) (m m' : MetaLogPrimary)
    (h : ∀ k x, mapFind m.shard_progrsses k = some x →
      ∃ y, mapFind m'.shard_progrsses k = some y ∧ x ≤ y)
    (s a : Nat) (ha : GetShardReplicatedPosition v q m s = some a) :
    ∃ b, GetShardReplicatedPosition v q m' s = some b ∧ a ≤ b := by
  unfold GetShardReplicatedPosition at ha ⊢
  cases hs : v.GetStorageShard (JoinTwo16 q.node_id s) with
  | none => simp [hs] at ha
  | some st =>
    simp only [hs] at ha ⊢
    exact minProgress_mono _ _ s st.storage_nodes (fun n _ x hx => h (s, n) x hx)
      _ _ a (le_refl _) ha

theorem progress_le_touch (sp : List ((Nat × Nat) × Nat)) (k0 : Nat × Nat) :
    ∀ k x, mapFind sp k = some x →
      ∃ y, mapFind (mapTouch sp k0 0) k = some y ∧ x ≤ y := by
  intro k x hx
  refine ⟨x, ?_, le_refl _⟩
  rw [mapFind_mapTouch]
  by_cases hk : k0 = k
  · subst hk; simp [hx]
  · simp [hk, hx]

theorem progress_le_set (sp : List ((Nat × Nat) × Nat)) (k0 : Nat × Nat) (p : Nat)
    (hp : (mapFind sp k0).getD 0 < p) :
    ∀ k x, mapFind sp k = some x →
      ∃ y, mapFind (mapSet (mapTouch sp k0 0) k0 p) k = some y ∧ x ≤ y := by
  intro k x hx
  rw [mapFind_mapSet]
  by_cases hk : k0 = k
  · subst hk
    refine ⟨p, by simp, ?_⟩
    rw [hx] at hp
    simp at hp
    omega
  · obtain ⟨y, hy, hxy⟩ := progress_le_touch sp k0 k x hx
    exact ⟨y, by simp [hk, hy], hxy⟩

/-! ## The consistency invariant -/

theorem initShardProgress_keys (s : Nat) (nodes : List Nat) :
    ∀ sp : List ((Nat × Nat) × Nat),
      (∀ k, (mapFind sp k).isSome → (mapFind (initShardProgress s nodes sp) k).isSome) ∧
      (∀ n ∈ nodes, (mapFind (initShardProgress s nodes sp) (s, n)).isSome) := by
  induction nodes with
  | nil => intro sp; exact ⟨fun _ h => h, by simp⟩
  | cons n rest ih =>
    intro sp
    obtain ⟨h1, h2⟩ := ih (mapSet sp (s, n) 0)
    refine ⟨fun k hk => h1 k (mapFind_mapSet_isSome _ _ _ _ hk), ?_⟩
    intro x hx
    rcases List.mem_cons.mp hx with rfl | hx'
    · exact h1 _ (by simp [mapFind_mapSet_self])
    · exact h2 x hx'

theorem initShards_keys (v : View) (id : Nat) (shards : List Nat) :
    ∀ (sp sp' : List ((Nat × Nat) × Nat)) (lc lc' : List (Nat × Nat)),
      initShards v id shards (sp, lc) = some (sp', lc') →
      (∀ k, (mapFind sp k).isSome → (mapFind sp' k).isSome) ∧
      (∀ s, (mapFind lc' s).isSome → (mapFind lc s).isSome ∨ s ∈ shards) ∧
      (∀ s ∈ shards, ∃ st, v.GetStorageShard (JoinTwo16 id s) = some st ∧
        ∀ n ∈ st.storage_nodes, (mapFind sp' (s, n)).isSome) := by
  induction shards with
  | nil =>
    intro sp sp' lc lc' h
    simp only [initShards, Option.some.injEq, Prod.mk.injEq] at h
    obtain ⟨rfl, rfl⟩ := h
    exact ⟨fun _ h => h, fun _ h => Or.inl h, by simp⟩
  | cons d rest ih =>
    intro sp sp' lc lc' h
    simp only [initShards] at h
    cases hst : v.GetStorageShard (JoinTwo16 id d) with
    | none => simp [hst] at h
    | some st =>
      simp only [hst] at h
      obtain ⟨h1, h2, h3⟩ := ih _ _ _ _ h
      obtain ⟨k1, k2⟩ := initShardProgress_keys d st.storage_nodes sp
      refine ⟨fun k hk => h1 k (k1 k hk), ?_, ?_⟩
      · intro s hs
        rcases h2 s hs with hs' | hs'
        · rw [mapFind_mapSet] at hs'
          by_cases hds : d = s
          · exact Or.inr (by simp [hds])
          · simp only [hds, if_false] at hs'
            exact Or.inl hs'
        · exact Or.inr (List.mem_cons_of_mem _ hs')
      · intro s hs
        rcases List.mem_cons.mp hs with rfl | hs'
        · exact ⟨st, hst, fun n hn => h1 _ (k2 n hn)⟩
        · exact h3 s hs'

theorem GetShardReplicatedPosition_isSome (v : View) (q : Sequencer) (m : MetaLogPrimary)
    (s : Nat) (st : StorageShard) (hst : v.GetStorageShard (JoinTwo16 q.node_id s) = some st)
    (h : ∀ n ∈ st.storage_nodes, (mapFind m.shard_progrsses (s, n)).isSome) :
    (GetShardReplicatedPosition v q m s).isSome := by
  obtain ⟨r, hr, _⟩ := minProgress_spec m.shard_progrsses s st.storage_nodes h UINT32_MAX
  simp [GetShardReplicatedPosition, hst, hr]

theorem Inv_create (v : View) (q : Sequencer) (m : MetaLogPrimary)
    (h : MetaLogPrimary.create v q = some m) : Inv v q m := by
  unfold MetaLogPrimary.create at h
  cases hids : v.GetStorageShardIds q.node_id with
  | none => simp [hids] at h
  | some shard_ids =>
    simp only [hids] at h
    cases hinit : initShards v q.node_id shard_ids ([], []) with
    | none => simp [hinit] at h
    | some r =>
      obtain ⟨sp, lc⟩ := r
      simp only [hinit, Option.some.injEq] at h
      subst h
      obtain ⟨_, h2, h3⟩ := initShards_keys v q.node_id shard_ids _ _ _ _ hinit
      refine ⟨List.nodup_nil, by simp, by simp, ?_, by simp⟩
      intro s hs
      rcases h2 s hs with hs' | hs'
      · simp [mapFind] at hs'
      · obtain ⟨st, hst, hn⟩ := h3 s hs'
        exact GetShardReplicatedPosition_isSome v q _ s st hst hn

theorem Inv_BlockShard (v : View) (q : Sequencer) (m : MetaLogPrimary) (s : Nat)
    (h : Inv v q m) : Inv v q (BlockShard m s).1 := by
  rcases BlockShard_state m s with ⟨he, _⟩ | ⟨_, _, he⟩
  · rw [he]; exact h
  · rw [he]
    refine ⟨nodup_setErase _ _ h.nodup, ?_, ?_, ?_, ?_⟩
    · intro x hx
      simp only [mem_setErase] at hx ⊢
      exact ⟨h.dirty_unblocked x hx.1, hx.2⟩
    · intro x hx
      simp only [mem_setErase] at hx
      exact h.unblocked_known x hx.1
    · intro x hx
      exact h.known_pos x hx
    · intro x hx cut pos hc hp
      simp only [mem_setErase] at hx
      exact h.dirty_gt x hx.1 cut pos hc hp

theorem Inv_UnblockShard (v : View) (q : Sequencer) (m : MetaLogPrimary) (s : Nat)
    (h : Inv v q m) : Inv v q (UnblockShard m s).1 := by
  rcases UnblockShard_state m s with he | ⟨hk, he⟩
  · rw [he]; exact h
  · rw [he]
    refine ⟨h.nodup, ?_, ?_, ?_, ?_⟩
    · intro x hx
      simp only [mem_setInsert]
      exact Or.inl (h.dirty_unblocked x hx)
    · intro x hx
      simp only [mem_setInsert] at hx
      rcases hx with hx | rfl
      · exact h.unblocked_known x hx
      · exact hk
    · intro x hx
      exact h.known_pos x hx
    · intro x hx cut pos hc hp
      exact h.dirty_gt x hx cut pos hc hp

theorem Inv_of_progress_le (v : View) (q : Sequencer) (m : MetaLogPrimary)
    (sp : List ((Nat × Nat) × Nat)) (h : Inv v q m)
    (hle : ∀ k x, mapFind m.shard_progrsses k = some x →
      ∃ y, mapFind sp k = some y ∧ x ≤ y) :
    Inv v q { m with shard_progrsses := sp } := by
  refine ⟨h.nodup, h.dirty_unblocked, h.unblocked_known, ?_, ?_⟩
  · intro x hx
    obtain ⟨a, ha⟩ := Option.isSome_iff_exists.mp (h.known_pos x hx)
    obtain ⟨b, hb, _⟩ := GetShardReplicatedPosition_mono v q m
      { m with shard_progrsses := sp } hle x a ha
    simp [hb]
  · intro x hx cut pos hc hp
    have hk : (mapFind m.last_cut x).isSome := by
      have : mapFind m.last_cut x = some cut := hc
      simp [this]
    obtain ⟨a, ha⟩ := Option.isSome_iff_exists.mp (h.known_pos x hk)
    obtain ⟨b, hb, hab⟩ := GetShardReplicatedPosition_mono v q m
      { m with shard_progrsses := sp } hle x a ha
    rw [hb] at hp
    cases hp
    have := h.dirty_gt x hx cut a hc ha
    omega

theorem Inv_storageProgressStep (v : View) (q : Sequencer) (storage_id : Nat)
    (m m' : MetaLogPrimary) (g p : Nat) (h : Inv v q m)
    (hs : storageProgressStep v q storage_id m g p = some m') : Inv v q m' := by
  rcases storageProgressStep_cases v q storage_id m m' g p hs with
    rfl | ⟨_, rfl⟩ | ⟨hu, sp, cur, cut, hsp, hp, hcur, hcut, hcase⟩
  · exact h
  · exact Inv_of_progress_le v q m _ h (progress_le_touch _ _)
  · have hbase : Inv v q { m with shard_progrsses := sp } :=
      Inv_of_progress_le v q m sp h (by rw [hsp]; exact progress_le_set _ _ _ hp)
    rcases hcase with ⟨hgt, rfl⟩ | ⟨_, rfl⟩
    · refine ⟨nodup_setInsert _ _ h.nodup, ?_, hbase.unblocked_known, ?_, ?_⟩
      · intro x hx
        simp only [mem_setInsert] at hx
        rcases hx with hx | rfl
        · exact h.dirty_unblocked x hx
        · exact hu
      · intro x hx
        exact hbase.known_pos x hx
      · intro x hx c a hc ha
        have ha' : GetShardReplicatedPosition v q { m with shard_progrsses := sp } x = some a := ha
        simp only [mem_setInsert] at hx
        rcases hx with hx | rfl
        · exact hbase.dirty_gt x hx c a hc ha'
        · have hc' : mapFind m.last_cut (LowHalf32 g) = some c := hc
          rw [hcut] at hc'
          rw [hcur] at ha'
          cases hc'
          cases ha'
          exact hgt
    · exact hbase

theorem Inv_storageProgressLoop (v : View) (q : Sequencer) (storage_id : Nat) :
    ∀ (gs ps : List Nat) (m m' : MetaLogPrimary), Inv v q m →
      storageProgressLoop v q storage_id gs ps m = some m' → Inv v q m' := by
  intro gs
  induction gs with
  | nil =>
    intro ps m m' h hs
    simp only [storageProgressLoop, Option.some.injEq] at hs
    exact hs ▸ h
  | cons g gs ih =>
    intro ps m m' h hs
    cases ps with
    | nil =>
      simp only [storageProgressLoop, Option.some.injEq] at hs
      exact hs ▸ h
    | cons p ps =>
      simp only [storageProgressLoop] at hs
      cases hstep : storageProgressStep v q storage_id m g p with
      | none => simp [hstep] at hs
      | some m1 =>
        simp only [hstep] at hs
        exact ih ps m1 m' (Inv_storageProgressStep v q storage_id m m1 g p h hstep) hs

theorem UpdateStorageProgress_loop (v : View) (q : Sequencer) (m m' : MetaLogPrimary)
    (storage_id : Nat) (progress : List Nat)
    (h : UpdateStorageProgress v q m storage_id progress = some m') :
    ∃ gs, storageProgressLoop v q storage_id gs progress m = some m' := by
  unfold UpdateStorageProgress at h
  by_cases hc : v.contains_storage_node storage_id = true
  · simp only [hc, not_true_eq_false, if_false] at h
    cases hn : v.GetStorageNode storage_id with
    | none => simp [hn] at h
    | some node =>
      simp only [hn] at h
      by_cases hl : progress.length ≠ node.storage_shard_ids.length
      · simp [hl] at h
      · simp only [hl, if_false] at h
        exact ⟨_, h⟩
  · simp [hc] at h

theorem Inv_UpdateReplicaProgress (v : View) (q : Sequencer) (m m' : MetaLogPrimary)
    (sid pos : Nat) (h : Inv v q m) (hs : UpdateReplicaProgress q m sid pos = some m') :
    Inv v q m' := by
  obtain ⟨mp, r, rfl⟩ := UpdateReplicaProgress_cases q m m' sid pos hs
  refine ⟨h.nodup, h.dirty_unblocked, h.unblocked_known, ?_, ?_⟩
  · intro x hx
    exact h.known_pos x hx
  · intro x hx cut a hc ha
    exact h.dirty_gt x hx cut a hc ha

theorem Inv_cut_ready (v : View) (q : Sequencer) (m : MetaLogPrimary) (h : Inv v q m) :
    ∀ s ∈ m.dirty_shards, (mapFind m.last_cut s).isSome ∧
      (GetShardReplicatedPosition v q m s).isSome := by
  intro s hs
  have hk := h.unblocked_known s (h.dirty_unblocked s hs)
  exact ⟨hk, h.known_pos s hk⟩

theorem Inv_MarkNextCut (v : View) (q : Sequencer) (m m' : MetaLogPrimary)
    (out : Option MetaLogProto) (h : Inv v q m) (hs : MarkNextCut v q m = some (m', out)) :
    Inv v q m' := by
  by_cases hd : m.dirty_shards = []
  · have : MarkNextCut v q m = some (m, none) := by simp [MarkNextCut, hd]
    rw [this] at hs
    cases hs
    exact h
  · obtain ⟨lc, hcut, hfind⟩ := MarkNextCut_of_dirty v q m hd h.nodup (Inv_cut_ready v q m h)
    rw [hcut] at hs
    simp only [Option.some.injEq, Prod.mk.injEq] at hs
    obtain ⟨rfl, _⟩ := hs
    have hkn : ∀ x, (mapFind lc x).isSome → (mapFind m.last_cut x).isSome := by
      intro x hx
      rw [hfind x] at hx
      by_cases hxd : x ∈ m.dirty_shards
      · exact h.unblocked_known x (h.dirty_unblocked x hxd)
      · simpa [hxd] using hx
    refine ⟨List.nodup_nil, by simp, ?_, ?_, by simp⟩
    · intro x hx
      have hk := h.unblocked_known x hx
      show (mapFind lc x).isSome = true
      rw [hfind x]
      by_cases hxd : x ∈ m.dirty_shards
      · simpa [hxd] using h.known_pos x hk
      · simpa [hxd] using hk
    · intro x hx
      exact h.known_pos x (hkn x hx)

theorem Inv_step (v : View) (q : Sequencer) (m m' : MetaLogPrimary) (op : Op)
    (out : Option MetaLogProto) (h : Inv v q m) (hs : step v q m op = some (m', out)) :
    Inv v q m' := by
  cases op with
  | block s =>
    simp only [step, Option.some.injEq, Prod.mk.injEq] at hs
    exact hs.1 ▸ Inv_BlockShard v q m s h
  | unblock s =>
    simp only [step, Option.some.injEq, Prod.mk.injEq] at hs
    exact hs.1 ▸ Inv_UnblockShard v q m s h
  | storageProgress id p =>
    simp only [step] at hs
    cases hu : UpdateStorageProgress v q m id p with
    | none => simp [hu] at hs
    | some m1 =>
      simp only [hu, Option.some.injEq, Prod.mk.injEq] at hs
      obtain ⟨gs, hl⟩ := UpdateStorageProgress_loop v q m m1 id p hu
      exact hs.1 ▸ Inv_storageProgressLoop v q id gs p m m1 h hl
  | replicaProgress id p =>
    simp only [step] at hs
    cases hu : UpdateReplicaProgress q m id p with
    | none => simp [hu] at hs
    | some m1 =>
      simp only [hu, Option.some.injEq, Prod.mk.injEq] at hs
      exact hs.1 ▸ Inv_UpdateReplicaProgress v q m m1 id p h hu
  | markNextCut =>
    exact Inv_MarkNextCut v q m m' out h hs

theorem run_cons (v : View) (q : Sequencer) (m m2 : MetaLogPrimary) (op : Op) (ops : List Op)
    (es : List MetaLogProto) (h : run v q m (op :: ops) = some (m2, es)) :
    ∃ m1 out es1, step v q m op = some (m1, out) ∧ run v q m1 ops = some (m2, es1) ∧
      es = out.toList ++ es1 := by
  simp only [run] at h
  cases hs : step v q m op with
  | none => simp [hs] at h
  | some r =>
    obtain ⟨m1, out⟩ := r
    simp only [hs] at h
    cases hr : run v q m1 ops with
    | none => simp [hr] at h
    | some r2 =>
      obtain ⟨m2', es1⟩ := r2
      simp only [hr, Option.some.injEq, Prod.mk.injEq] at h
      exact ⟨m1, out, es1, rfl, by rw [hr, h.1], h.2.symm⟩

theorem Inv_run (v : View) (q : Sequencer) (ops : List Op) :
    ∀ (m m' : MetaLogPrimary) (es : List MetaLogProto), Inv v q m →
      run v q m ops = some (m', es) → Inv v q m' := by
  induction ops with
  | nil =>
    intro m m' es h hr
    simp only [run, Option.some.injEq, Prod.mk.injEq] at hr
    exact hr.1 ▸ h
  | cons op ops ih =>
    intro m m' es h hr
    obtain ⟨m1, out, es1, hs, hr1, _⟩ := run_cons v q m m' op ops es hr
    exact ih m1 m' es1 (Inv_step v q m m1 op out h hs) hr1

theorem Inv_of_Reachable (v : View) (q : Sequencer) (m : MetaLogPrimary)
    (h : Reachable v q m) : Inv v q m := by
  obtain ⟨m0, ops, es, hc, hr⟩ := h
  exact Inv_run v q ops m0 m es (Inv_create v q m0 hc) hr

theorem MarkNextCut_total (v : View) (q : Sequencer) (m : MetaLogPrimary) (h : Inv v q m) :
    ∃ r, MarkNextCut v q m = some r := by
  by_cases hd : m.dirty_shards = []
  · exact ⟨(m, none), by simp [MarkNextCut, hd]⟩
  · obtain ⟨lc, hcut, _⟩ := MarkNextCut_of_dirty v q m hd h.nodup (Inv_cut_ready v q m h)
    exact ⟨_, hcut⟩

theorem MarkNextCut_entry (v : View) (q : Sequencer) (m m' : MetaLogPrimary) (e : MetaLogProto)
    (h : Inv v q m) (hs : MarkNextCut v q m = some (m', some e)) :
    e.new_logs_proto.shard_ids = m.dirty_shards ∧
    e.new_logs_proto.shard_starts = cutStarts m ∧
    e.new_logs_proto.shard_deltas = cutDeltas v q m ∧
    ∀ s, mapFind m'.last_cut s =
      if s ∈ m.dirty_shards then GetShardReplicatedPosition v q m s else mapFind m.last_cut s := by
  by_cases hd : m.dirty_shards = []
  · have : MarkNextCut v q m = some (m, none) := by simp [MarkNextCut, hd]
    rw [this] at hs
    simp at hs
  · obtain ⟨lc, hcut, hfind⟩ := MarkNextCut_of_dirty v q m hd h.nodup (Inv_cut_ready v q m h)
    rw [hcut] at hs
    simp only [Option.some.injEq, Prod.mk.injEq] at hs
    obtain ⟨rfl, rfl⟩ := hs
    exact ⟨rfl, rfl, rfl, hfind⟩

theorem storageProgressLoop_sets (v : View) (q : Sequencer) (storage_id : Nat) :
    ∀ (gs ps : List Nat) (m m' : MetaLogPrimary),
      storageProgressLoop v q storage_id gs ps m = some m' →
      m'.unblocked_shards = m.unblocked_shards ∧ m'.last_cut = m.last_cut ∧
      ∀ s ∈ m'.dirty_shards, s ∈ m.dirty_shards ∨ s ∈ m.unblocked_shards := by
  intro gs
  induction gs with
  | nil =>
    intro ps m m' hs
    simp only [storageProgressLoop, Option.some.injEq] at hs
    subst hs
    exact ⟨rfl, rfl, fun s hs => Or.inl hs⟩
  | cons g gs ih =>
    intro ps m m' hs
    cases ps with
    | nil =>
      simp only [storageProgressLoop, Option.some.injEq] at hs
      subst hs
      exact ⟨rfl, rfl, fun s hs => Or.inl hs⟩
    | cons p ps =>
      simp only [storageProgressLoop] at hs
      cases hstep : storageProgressStep v q storage_id m g p with
      | none => simp [hstep] at hs
      | some m1 =>
        simp only [hstep] at hs
        obtain ⟨h1, h2, h3⟩ := ih ps m1 m' hs
        have key : m1.unblocked_shards = m.unblocked_shards ∧ m1.last_cut = m.last_cut ∧
            ∀ s ∈ m1.dirty_shards, s ∈ m.dirty_shards ∨ s ∈ m.unblocked_shards := by
          rcases storageProgressStep_cases v q storage_id m m1 g p hstep with
            rfl | ⟨_, rfl⟩ | ⟨hu, sp, cur, cut, _, _, _, _, hcase⟩
          · exact ⟨rfl, rfl, fun s hs => Or.inl hs⟩
          · exact ⟨rfl, rfl, fun s hs => Or.inl hs⟩
          · rcases hcase with ⟨_, rfl⟩ | ⟨_, rfl⟩
            · refine ⟨rfl, rfl, ?_⟩
              intro s hs
              simp only [mem_setInsert] at hs
              rcases hs with hs | rfl
              · exact Or.inl hs
              · exact Or.inr hu
            · exact ⟨rfl, rfl, fun s hs => Or.inl hs⟩
        refine ⟨h1.trans key.1, h2.trans key.2.1, ?_⟩
        intro s hs
        rcases h3 s hs with hd | hu
        · exact key.2.2 s hd
        · exact Or.inr (key.1 ▸ hu)

theorem exampleDirty_reachable : Reachable exampleView exampleSequencer exampleDirty :=
  ⟨exampleInit, exampleDirtyOps, [], rfl, rfl⟩

/-! ## Order statistics of a sorted list -/

theorem sorted_countP_gt (P : Nat → Bool) :
    ∀ (l : List Nat) (k y : Nat), l.Sorted (fun a b => a ≤ b) → l[k]? = some y →
      (∀ a, a ≤ y → P a = true) → k < l.countP P := by
  intro l
  induction l with
  | nil => intro k y _ hk; simp at hk
  | cons a t ih =>
    intro k y hs hk hP
    obtain ⟨ha, ht⟩ := List.sorted_cons.mp hs
    cases k with
    | zero =>
      simp only [List.getElem?_cons_zero, Option.some.injEq] at hk
      subst hk
      rw [List.countP_cons]
      simp [hP a (le_refl _)]
    | succ k =>
      simp only [List.getElem?_cons_succ] at hk
      have hay : a ≤ y := ha y (List.getElem?_mem hk)
      rw [List.countP_cons]
      have := ih k y ht hk hP
      simp [hP a hay]
      omega

theorem sorted_countP_le (P : Nat → Bool) :
    ∀ (l : List Nat) (k y : Nat), l.Sorted (fun a b => a ≤ b) → l[k]? = some y →
      (∀ a, y ≤ a → P a = false) → l.countP P ≤ k := by
  intro l
  induction l with
  | nil => intro k y _ hk; simp at hk
  | cons a t ih =>
    intro k y hs hk hP
    obtain ⟨ha, ht⟩ := List.sorted_cons.mp hs
    cases k with
    | zero =>
      simp only [List.getElem?_cons_zero, Option.some.injEq] at hk
      subst hk
      have hall : ∀ b ∈ a :: t, ¬ (P b = true) := by
        intro b hb
        rcases List.mem_cons.mp hb with rfl | hb'
        · simp [hP b (le_refl _)]
        · simp [hP b (ha b hb')]
      have : (a :: t).countP P = 0 := List.countP_eq_zero.mpr hall
      omega
    | succ k =>
      simp only [List.getElem?_cons_succ] at hk
      rw [List.countP_cons]
      have := ih k y ht hk hP
      split <;> omega

theorem sorted_getElem?_of_counts (l : List Nat) (k x : Nat)
    (hs : l.Sorted (fun a b => a ≤ b))
    (h1 : l.countP (fun a => decide (a < x)) ≤ k)
    (h2 : k < l.countP (fun a => decide (a ≤ x))) : l[k]? = some x := by
  have hk : k < l.length := lt_of_lt_of_le h2 (List.countP_le_length _)
  obtain ⟨y, hy⟩ : ∃ y, l[k]? = some y := ⟨l[k], List.getElem?_eq_getElem hk⟩
  rcases Nat.lt_trichotomy y x with hlt | heq | hgt
  · have := sorted_countP_gt (fun a => decide (a < x)) l k y hs hy
      (fun a ha => by simp; omega)
    omega
  · rw [hy, heq]
  · have := sorted_countP_le (fun a => decide (a ≤ x)) l k y hs hy
      (fun a ha => by simp; omega)
    omega

theorem upperMedian_counts (l : List Nat) (x : Nat) (h : upperMedian l = some x) :
    l.countP (fun a => decide (a < x)) ≤ l.length / 2 ∧
    l.length / 2 < l.countP (fun a => decide (a ≤ x)) := by
  unfold upperMedian at h
  have hs := List.sorted_insertionSort (fun a b : Nat => a ≤ b) l
  have hp := List.perm_insertionSort (fun a b : Nat => a ≤ b) l
  constructor
  · rw [← hp.countP_eq]
    exact sorted_countP_le _ _ _ x hs h (fun a ha => by simp; omega)
  · rw [← hp.countP_eq]
    exact sorted_countP_gt _ _ _ x hs h (fun a ha => by simp; omega)

theorem upperMedian_of_counts (l : List Nat) (x : Nat)
    (h1 : l.countP (fun a => decide (a < x)) ≤ l.length / 2)
    (h2 : l.length / 2 < l.countP (fun a => decide (a ≤ x))) : upperMedian l = some x := by
  unfold upperMedian
  have hs := List.sorted_insertionSort (fun a b : Nat => a ≤ b) l
  have hp := List.perm_insertionSort (fun a b : Nat => a ≤ b) l
  apply sorted_getElem?_of_counts _ _ _ hs
  · rw [hp.countP_eq]; exact h1
  · rw [hp.countP_eq]; exact h2

theorem upperMedian_perm (l l' : List Nat) (h : l.Perm l') : upperMedian l = upperMedian l' := by
  unfold upperMedian
  have e : l.insertionSort (fun a b => a ≤ b) = l'.insertionSort (fun a b => a ≤ b) :=
    List.eq_of_perm_of_sorted
      (((List.perm_insertionSort _ l).trans h).trans (List.perm_insertionSort _ l').symm)
      (List.sorted_insertionSort _ l) (List.sorted_insertionSort _ l')
  rw [e, h.length_eq]

theorem upperMedian_isSome (l : List Nat) (h : l ≠ []) : ∃ x, upperMedian l = some x := by
  unfold upperMedian
  have hl : l.length / 2 < (l.insertionSort (fun a b => a ≤ b)).length := by
    rw [List.length_insertionSort]
    have : 0 < l.length := List.length_pos.mpr h
    omega
  exact ⟨_, List.getElem?_eq_getElem hl⟩

theorem upperMedian_mem (l : List Nat) (x : Nat) (h : upperMedian l = some x) : x ∈ l := by
  unfold upperMedian at h
  exact (List.perm_insertionSort (fun a b : Nat => a ≤ b) l).mem_iff.mp (List.getElem?_mem h)

theorem countP_mapSet (P : Nat → Bool) (p : Nat) :
    ∀ (mp : List (Nat × Nat)) (k old : Nat), mapFind mp k = some old →
      ((mapSet mp k p).map Prod.snd).length = (mp.map Prod.snd).length ∧
      ((mapSet mp k p).map Prod.snd).countP P + (if P old then 1 else 0) =
        (mp.map Prod.snd).countP P + (if P p then 1 else 0) := by
  intro mp
  induction mp with
  | nil => intro k old h; simp [mapFind] at h
  | cons hd tl ih =>
    intro k old h
    obtain ⟨a, b⟩ := hd
    by_cases hak : a = k
    · subst hak
      simp only [mapFind, if_true, Option.some.injEq] at h
      subst h
      simp only [mapSet, if_true, List.map_cons, List.length_cons, List.countP_cons, true_and]
      omega
    · simp only [mapFind, if_neg hak] at h
      obtain ⟨h1, h2⟩ := ih k old h
      simp only [mapSet, if_neg hak, List.map_cons, List.length_cons, List.countP_cons]
      constructor
      · omega
      · omega

/-! ## The committed metalog position -/

theorem mem_values_mapSet (mp : List (Nat × Nat)) (k v x : Nat)
    (h : x ∈ (mapSet mp k v).map Prod.snd) : x = v ∨ x ∈ mp.map Prod.snd := by
  induction mp with
  | nil => simp [mapSet] at h; exact Or.inl h
  | cons hd tl ih =>
    obtain ⟨a, b⟩ := hd
    by_cases hak : a = k
    · simp only [mapSet, if_pos hak, List.map_cons, List.mem_cons] at h
      rcases h with h | h
      · exact Or.inl h
      · exact Or.inr (by simp only [List.map_cons, List.mem_cons]; exact Or.inr h)
    · simp only [mapSet, if_neg hak, List.map_cons, List.mem_cons] at h
      rcases h with h | h
      · exact Or.inr (by simp only [List.map_cons, List.mem_cons]; exact Or.inl h)
      · rcases ih h with h' | h'
        · exact Or.inl h'
        · exact Or.inr (by simp only [List.map_cons, List.mem_cons]; exact Or.inr h')

theorem initReplicas_spec (rs : List Nat) :
    ∀ mp : List (Nat × Nat),
      (∀ k, (mapFind mp k).isSome → (mapFind (initReplicas rs mp) k).isSome) ∧
      (∀ r ∈ rs, (mapFind (initReplicas rs mp) r).isSome) ∧
      ((∀ x ∈ mp.map Prod.snd, x = 0) → ∀ x ∈ (initReplicas rs mp).map Prod.snd, x = 0) := by
  induction rs with
  | nil => intro mp; exact ⟨fun _ h => h, by simp, fun h => h⟩
  | cons r rest ih =>
    intro mp
    obtain ⟨h1, h2, h3⟩ := ih (mapSet mp r 0)
    refine ⟨fun k hk => h1 k (mapFind_mapSet_isSome _ _ _ _ hk), ?_, ?_⟩
    · intro x hx
      rcases List.mem_cons.mp hx with rfl | hx'
      · exact h1 _ (by simp [mapFind_mapSet_self])
      · exact h2 x hx'
    · intro hz
      apply h3
      intro x hx
      rcases mem_values_mapSet mp r 0 x hx with h | h
      · exact h
      · exact hz x h

theorem MedInv_create (v : View) (q : Sequencer) (m : MetaLogPrimary)
    (h : MetaLogPrimary.create v q = some m) : MedInv q m := by
  unfold MetaLogPrimary.create at h
  cases hids : v.GetStorageShardIds q.node_id with
  | none => simp [hids] at h
  | some shard_ids =>
    simp only [hids] at h
    cases hinit : initShards v q.node_id shard_ids ([], []) with
    | none => simp [hinit] at h
    | some r =>
      obtain ⟨sp, lc⟩ := r
      simp only [hinit, Option.some.injEq] at h
      subst h
      obtain ⟨_, h2, h3⟩ := initReplicas_spec q.replica_sequencer_nodes []
      refine ⟨h2, ?_⟩
      intro hne
      have hne' : (initReplicas q.replica_sequencer_nodes []).map Prod.snd ≠ [] := by
        simpa using hne
      obtain ⟨x, hx⟩ := upperMedian_isSome _ hne'
      have hx0 : x = 0 := h3 (by simp) x (upperMedian_mem _ x hx)
      show upperMedian ((initReplicas q.replica_sequencer_nodes []).map Prod.snd) = some 0
      rw [hx, hx0]

theorem UpdateMetaLogReplicatedPosition_spec (m m' : MetaLogPrimary)
    (h : UpdateMetaLogReplicatedPosition m = some m') :
    (m' = m ∧ (m.replicated_metalog_position = m.metalog_position ∨
      m.metalog_progresses = [])) ∨
    (∃ r, upperMedian (m.metalog_progresses.map Prod.snd) = some r ∧
      m' = { m with replicated_metalog_position := r }) := by
  unfold UpdateMetaLogReplicatedPosition at h
  by_cases h1 : m.replicated_metalog_position = m.metalog_position
  · simp only [h1, if_true, Option.some.injEq] at h
    exact Or.inl ⟨h.symm, Or.inl h1⟩
  · simp only [h1, if_false] at h
    by_cases hmp : m.metalog_progresses.isEmpty = true
    · simp only [hmp, if_true, Option.some.injEq] at h
      exact Or.inl ⟨h.symm, Or.inr (List.isEmpty_iff.mp hmp)⟩
    · simp only [hmp, if_false, Bool.false_eq_true] at h
      right
      cases hget : upperMedian (List.map Prod.snd m.metalog_progresses) with
      | none =>
        simp only [upperMedian, List.length_map] at hget
        simp [hget, List.length_insertionSort] at h
      | some r =>
        have hget' := hget
        simp only [upperMedian, List.length_map] at hget'
        simp only [List.length_insertionSort, List.length_map, hget', Option.some.injEq] at h
        exact ⟨r, rfl, h.symm⟩

theorem UpdateReplicaProgress_spec (q : Sequencer) (m m' : MetaLogPrimary) (sid pos : Nat)
    (h : UpdateReplicaProgress q m sid pos = some m') :
    sid ∈ q.replica_sequencer_nodes ∧ pos ≤ m.metalog_position ∧
    (m' = { m with metalog_progresses := mapTouch m.metalog_progresses sid 0 } ∨
     ((mapFind m.metalog_progresses sid).getD 0 < pos ∧
      UpdateMetaLogReplicatedPosition
        { m with metalog_progresses :=
            (mapSet (mapTouch m.metalog_progresses sid 0) sid pos) } = some m')) := by
  unfold UpdateReplicaProgress at h
  by_cases h1 : q.IsReplicaSequencerNode sid = true
  · have hmem : sid ∈ q.replica_sequencer_nodes := by
      simpa [Sequencer.IsReplicaSequencerNode] using h1
    by_cases h2 : pos > m.metalog_position
    · simp [h1, h2] at h
    · simp only [h1, not_true_eq_false, if_false, h2] at h
      refine ⟨hmem, by omega, ?_⟩
      have hget : (mapFind (mapTouch m.metalog_progresses sid 0) sid).getD 0 =
          (mapFind m.metalog_progresses sid).getD 0 := by
        rw [mapFind_mapTouch]; simp
      by_cases h3 : pos > (mapFind (mapTouch m.metalog_progresses sid 0) sid).getD 0
      · simp only [h3, if_true] at h
        exact Or.inr ⟨by rw [← hget]; exact h3, h⟩
      · simp only [h3, if_false, Option.some.injEq] at h
        exact Or.inl h.symm
  · simp [h1] at h

theorem mapTouch_of_isSome {κ ν : Type} [DecidableEq κ] (m : List (κ × ν)) (k : κ) (d : ν)
    (h : (mapFind m k).isSome) : mapTouch m k d = m := by
  simp [mapTouch, mapContains, h]

theorem MedInv_UpdateReplicaProgress (q : Sequencer) (m m' : MetaLogPrimary) (sid pos : Nat)
    (hi : MedInv q m) (h : UpdateReplicaProgress q m sid pos = some m') : MedInv q m' := by
  obtain ⟨hmem, hle, hcase⟩ := UpdateReplicaProgress_spec q m m' sid pos h
  have hkey := hi.keys sid hmem
  have htouch := mapTouch_of_isSome m.metalog_progresses sid 0 hkey
  rw [htouch] at hcase
  obtain ⟨old, hold⟩ := Option.isSome_iff_exists.mp hkey
  rcases hcase with rfl | ⟨hlt, hupd⟩
  · exact ⟨hi.keys, hi.median⟩
  · rw [hold] at hlt
    simp only [Option.getD_some] at hlt
    have hne : m.metalog_progresses ≠ [] := by
      intro he
      rw [he] at hold
      simp [mapFind] at hold
    have hkeys' : ∀ r ∈ q.replica_sequencer_nodes,
        (mapFind (mapSet m.metalog_progresses sid pos) r).isSome :=
      fun r hr => mapFind_mapSet_isSome _ _ _ _ (hi.keys r hr)
    rcases UpdateMetaLogReplicatedPosition_spec _ m' hupd with ⟨rfl, hc⟩ | ⟨r, hr, rfl⟩
    · refine ⟨hkeys', ?_⟩
      intro _
      rcases hc with heq | hempty
      · have heq' : m.replicated_metalog_position = m.metalog_position := heq
        have hmed := hi.median hne
        obtain ⟨c1, c2⟩ := upperMedian_counts _ _ hmed
        obtain ⟨l1, k1⟩ := countP_mapSet
          (fun a => decide (a < m.replicated_metalog_position)) pos
          m.metalog_progresses sid old hold
        obtain ⟨_, k2⟩ := countP_mapSet
          (fun a => decide (a ≤ m.replicated_metalog_position)) pos
          m.metalog_progresses sid old hold
        have d1 : decide (old < m.replicated_metalog_position) = true := by
          simp; omega
        have d2 : decide (old ≤ m.replicated_metalog_position) = true := by
          simp; omega
        have d3 : decide (pos ≤ m.replicated_metalog_position) = true := by
          simp; omega
        simp only [d1, if_true] at k1
        simp only [d2, d3, if_true] at k2
        apply upperMedian_of_counts
        · show List.countP (fun a => decide (a < m.replicated_metalog_position))
            ((mapSet m.metalog_progresses sid pos).map Prod.snd) ≤
              ((mapSet m.metalog_progresses sid pos).map Prod.snd).length / 2
          rw [l1]
          split at k1 <;> omega
        · show ((mapSet m.metalog_progresses sid pos).map Prod.snd).length / 2 <
            List.countP (fun a => decide (a ≤ m.replicated_metalog_position))
              ((mapSet m.metalog_progresses sid pos).map Prod.snd)
          rw [l1]
          omega
      · have hempty' : mapSet m.metalog_progresses sid pos = [] := hempty
        have := mapFind_mapSet_self m.metalog_progresses sid pos
        rw [hempty'] at this
        simp [mapFind] at this
    · exact ⟨hkeys', fun _ => hr⟩

theorem storageProgressLoop_frame (v : View) (q : Sequencer) (storage_id : Nat) :
    ∀ (gs ps : List Nat) (m m' : MetaLogPrimary),
      storageProgressLoop v q storage_id gs ps m = some m' →
      m' = { m with shard_progrsses := m'.shard_progrsses, dirty_shards := m'.dirty_shards } := by
  intro gs
  induction gs with
  | nil =>
    intro ps m m' hs
    simp only [storageProgressLoop, Option.some.injEq] at hs
    subst hs; rfl
  | cons g gs ih =>
    intro ps m m' hs
    cases ps with
    | nil =>
      simp only [storageProgressLoop, Option.some.injEq] at hs
      subst hs; rfl
    | cons p ps =>
      simp only [storageProgressLoop] at hs
      cases hstep : storageProgressStep v q storage_id m g p with
      | none => simp [hstep] at hs
      | some m1 =>
        simp only [hstep] at hs
        have h2 := ih ps m1 m' hs
        have key : m1 = { m with shard_progrsses := m1.shard_progrsses
                                 dirty_shards := m1.dirty_shards } := by
          rcases storageProgressStep_cases v q storage_id m m1 g p hstep with
            rfl | ⟨_, rfl⟩ | ⟨_, sp, cur, cut, _, _, _, _, hcase⟩
          · rfl
          · rfl
          · rcases hcase with ⟨_, rfl⟩ | ⟨_, rfl⟩ <;> rfl
        rw [key] at h2
        exact h2

theorem MarkNextCut_frame (v : View) (q : Sequencer) (m m' : MetaLogPrimary)
    (out : Option MetaLogProto) (h : MarkNextCut v q m = some (m', out)) :
    m'.metalog_progresses = m.metalog_progresses ∧
    m'.replicated_metalog_position = m.replicated_metalog_position ∧
    m'.unblocked_shards = m.unblocked_shards ∧
    m'.shard_progrsses = m.shard_progrsses := by
  unfold MarkNextCut at h
  cases hemp : m.dirty_shards.isEmpty with
  | true =>
    simp only [hemp, if_true, Option.some.injEq, Prod.mk.injEq] at h
    obtain ⟨rfl, _⟩ := h
    exact ⟨rfl, rfl, rfl, rfl⟩
  | false =>
    simp only [hemp, Bool.false_eq_true, if_false] at h
    cases hloop : cutLoop v q m.dirty_shards
        (m, { start_seqnum := LowHalf64 m.seqnum_position
              shard_ids := [], shard_starts := [], shard_deltas := [] }, 0) with
    | none => simp [hloop] at h
    | some r =>
      obtain ⟨m1, nl, total⟩ := r
      simp only [hloop, ProvideMetaLog, Option.some.injEq, Prod.mk.injEq] at h
      obtain ⟨hm, _⟩ := h
      obtain ⟨_, _, h3⟩ := cutLoop_frame v q _ _ _ _ _ _ _ hloop
      subst hm
      rw [h3]
      exact ⟨rfl, rfl, rfl, rfl⟩

theorem MedInv_step (v : View) (q : Sequencer) (m m' : MetaLogPrimary) (op : Op)
    (out : Option MetaLogProto) (h : MedInv q m) (hs : step v q m op = some (m', out)) :
    MedInv q m' := by
  cases op with
  | block s =>
    simp only [step, Option.some.injEq, Prod.mk.injEq] at hs
    obtain ⟨rfl, _⟩ := hs
    rcases BlockShard_state m s with ⟨he, _⟩ | ⟨_, _, he⟩ <;> rw [he]
    · exact h
    · exact ⟨h.keys, h.median⟩
  | unblock s =>
    simp only [step, Option.some.injEq, Prod.mk.injEq] at hs
    obtain ⟨rfl, _⟩ := hs
    rcases UnblockShard_state m s with he | ⟨_, he⟩ <;> rw [he]
    · exact h
    · exact ⟨h.keys, h.median⟩
  | storageProgress id p =>
    simp only [step] at hs
    cases hu : UpdateStorageProgress v q m id p with
    | none => simp [hu] at hs
    | some m1 =>
      simp only [hu, Option.some.injEq, Prod.mk.injEq] at hs
      obtain ⟨rfl, _⟩ := hs
      obtain ⟨gs, hl⟩ := UpdateStorageProgress_loop v q m m1 id p hu
      rw [storageProgressLoop_frame v q id gs p m m1 hl]
      exact ⟨h.keys, h.median⟩
  | replicaProgress id p =>
    simp only [step] at hs
    cases hu : UpdateReplicaProgress q m id p with
    | none => simp [hu] at hs
    | some m1 =>
      simp only [hu, Option.some.injEq, Prod.mk.injEq] at hs
      exact hs.1 ▸ MedInv_UpdateReplicaProgress q m m1 id p h hu
  | markNextCut =>
    obtain ⟨h1, h2, _, _⟩ := MarkNextCut_frame v q m m' out hs
    exact ⟨by rw [h1]; exact h.keys, by rw [h1, h2]; exact h.median⟩

theorem MedInv_run (v : View) (q : Sequencer) (ops : List Op) :
    ∀ (m m' : MetaLogPrimary) (es : List MetaLogProto), MedInv q m →
      run v q m ops = some (m', es) → MedInv q m' := by
  induction ops with
  | nil =>
    intro m m' es h hr
    simp only [run, Option.some.injEq, Prod.mk.injEq] at hr
    exact hr.1 ▸ h
  | cons op ops ih =>
    intro m m' es h hr
    obtain ⟨m1, out, es1, hs, hr1, _⟩ := run_cons v q m m' op ops es hr
    exact ih m1 m' es1 (MedInv_step v q m m1 op out h hs) hr1

theorem MedInv_of_Reachable (v : View) (q : Sequencer) (m : MetaLogPrimary)
    (h : Reachable v q m) : MedInv q m := by
  obtain ⟨m0, ops, es, hc, hr⟩ := h
  exact MedInv_run v q ops m0 m es (MedInv_create v q m0 hc) hr

theorem exampleCommitted_reachable : Reachable exampleView exampleSequencer exampleCommitted :=
  ⟨exampleInit, exampleCommitOps, _, rfl, rfl⟩

theorem exampleReadmitted_reachable :
    Reachable exampleView exampleSequencer exampleReadmitted :=
  ⟨exampleInit, exampleReadmitOps, _, rfl, rfl⟩

/-! ## Shards with nothing left to cut -/

theorem initShardProgress_zero (s : Nat) (nodes : List Nat) :
    ∀ sp : List ((Nat × Nat) × Nat), (∀ k x, mapFind sp k = some x → x = 0) →
      ∀ k x, mapFind (initShardProgress s nodes sp) k = some x → x = 0 := by
  induction nodes with
  | nil => intro sp h; exact h
  | cons n rest ih =>
    intro sp h
    apply ih
    intro k x hk
    rw [mapFind_mapSet] at hk
    by_cases hkk : (s, n) = k
    · simp only [hkk, if_true, Option.some.injEq] at hk
      exact hk.symm
    · simp only [hkk, if_false] at hk
      exact h k x hk

theorem initShards_zero (v : View) (id : Nat) (shards : List Nat) :
    ∀ (sp sp' : List ((Nat × Nat) × Nat)) (lc lc' : List (Nat × Nat)),
      initShards v id shards (sp, lc) = some (sp', lc') →
      (∀ k x, mapFind sp k = some x → x = 0) → (∀ k x, mapFind lc k = some x → x = 0) →
      (∀ k x, mapFind sp' k = some x → x = 0) ∧ (∀ k x, mapFind lc' k = some x → x = 0) := by
  induction shards with
  | nil =>
    intro sp sp' lc lc' h h1 h2
    simp only [initShards, Option.some.injEq, Prod.mk.injEq] at h
    obtain ⟨rfl, rfl⟩ := h
    exact ⟨h1, h2⟩
  | cons d rest ih =>
    intro sp sp' lc lc' h h1 h2
    simp only [initShards] at h
    cases hst : v.GetStorageShard (JoinTwo16 id d) with
    | none => simp [hst] at h
    | some st =>
      simp only [hst] at h
      apply ih _ _ _ _ h (initShardProgress_zero d st.storage_nodes sp h1)
      intro k x hk
      rw [mapFind_mapSet] at hk
      by_cases hkk : d = k
      · simp only [hkk, if_true, Option.some.injEq] at hk
        exact hk.symm
      · simp only [hkk, if_false] at hk
        exact h2 k x hk

theorem create_zero (v : View) (q : Sequencer) (m : MetaLogPrimary)
    (h : MetaLogPrimary.create v q = some m) :
    (∀ k x, mapFind m.shard_progrsses k = some x → x = 0) ∧
    (∀ k x, mapFind m.last_cut k = some x → x = 0) := by
  unfold MetaLogPrimary.create at h
  cases hids : v.GetStorageShardIds q.node_id with
  | none => simp [hids] at h
  | some shard_ids =>
    simp only [hids] at h
    cases hinit : initShards v q.node_id shard_ids ([], []) with
    | none => simp [hinit] at h
    | some r =>
      obtain ⟨sp, lc⟩ := r
      simp only [hinit, Option.some.injEq] at h
      subst h
      exact initShards_zero v q.node_id shard_ids _ _ _ _ hinit
        (by simp [mapFind]) (by simp [mapFind])

theorem minProgress_some_present (sp : List ((Nat × Nat) × Nat)) (s : Nat) :
    ∀ (nodes : List Nat) (init a : Nat), minProgress sp s nodes init = some a →
      ∀ n ∈ nodes, (mapFind sp (s, n)).isSome := by
  intro nodes
  induction nodes with
  | nil => intro init a _ n hn; simp at hn
  | cons x rest ih =>
    intro init a ha n hn
    simp only [minProgress] at ha
    cases hx : mapFind sp (s, x) with
    | none => simp [hx] at ha
    | some y =>
      simp only [hx] at ha
      rcases List.mem_cons.mp hn with rfl | hn'
      · simp [hx]
      · exact ih _ _ ha n hn'

theorem GetShardReplicatedPosition_zero (v : View) (q : Sequencer) (m : MetaLogPrimary)
    (s pos : Nat) (st : StorageShard)
    (hst : v.GetStorageShard (JoinTwo16 q.node_id s) = some st)
    (hnodes : st.storage_nodes ≠ [])
    (hz : ∀ k x, mapFind m.shard_progrsses k = some x → x = 0)
    (hp : GetShardReplicatedPosition v q m s = some pos) : pos = 0 := by
  have hpres : ∀ n ∈ st.storage_nodes, (mapFind m.shard_progrsses (s, n)).isSome := by
    unfold GetShardReplicatedPosition at hp
    simp only [hst] at hp
    exact minProgress_some_present _ s _ _ _ hp
  obtain ⟨r, hr, _, hlow, _⟩ :=
    minProgress_spec m.shard_progrsses s st.storage_nodes hpres UINT32_MAX
  have hr' : GetShardReplicatedPosition v q m s = some r := by
    simp [GetShardReplicatedPosition, hst, hr]
  rw [hp] at hr'
  cases hr'
  obtain ⟨n, hn⟩ := List.exists_mem_of_ne_nil _ hnodes
  obtain ⟨x, hx⟩ := Option.isSome_iff_exists.mp (hpres n hn)
  have h0 := hz _ x hx
  have hle := hlow n hn x hx
  omega

theorem Settled_create (v : View) (q : Sequencer) (s : Nat) (m : MetaLogPrimary)
    (st : StorageShard) (hst : v.GetStorageShard (JoinTwo16 q.node_id s) = some st)
    (hnodes : st.storage_nodes ≠ []) (h : MetaLogPrimary.create v q = some m) :
    Settled v q s m := by
  obtain ⟨z1, _⟩ := create_zero v q m h
  intro cut pos _ hp _
  rw [GetShardReplicatedPosition_zero v q m s pos st hst hnodes z1 hp]
  exact Nat.zero_le _

theorem minProgress_congr_present (sp sp' : List ((Nat × Nat) × Nat)) (s : Nat)
    (h : ∀ k, (mapFind sp k).isSome → mapFind sp' k = mapFind sp k) :
    ∀ (nodes : List Nat) (init a : Nat), minProgress sp s nodes init = some a →
      minProgress sp' s nodes init = some a := by
  intro nodes
  induction nodes with
  | nil => intro init a ha; exact ha
  | cons n rest ih =>
    intro init a ha
    simp only [minProgress] at ha ⊢
    cases hx : mapFind sp (s, n) with
    | none => simp [hx] at ha
    | some x =>
      simp only [hx] at ha
      rw [h (s, n) (by simp [hx]), hx]
      exact ih _ _ ha

theorem GetShardReplicatedPosition_congr_present (v : View) (q : Sequencer)
    (m m' : MetaLogPrimary)
    (h : ∀ k, (mapFind m.shard_progrsses k).isSome →
      mapFind m'.shard_progrsses k = mapFind m.shard_progrsses k)
    (s a : Nat) (ha : GetShardReplicatedPosition v q m s = some a) :
    GetShardReplicatedPosition v q m' s = some a := by
  unfold GetShardReplicatedPosition at ha ⊢
  cases hs : v.GetStorageShard (JoinTwo16 q.node_id s) with
  | none => simp [hs] at ha
  | some st =>
    simp only [hs] at ha ⊢
    exact minProgress_congr_present _ _ s h _ _ _ ha

theorem GetShardReplicatedPosition_congr_shard (v : View) (q : Sequencer)
    (m m' : MetaLogPrimary) (s : Nat)
    (h : ∀ n, mapFind m'.shard_progrsses (s, n) = mapFind m.shard_progrsses (s, n)) :
    GetShardReplicatedPosition v q m' s = GetShardReplicatedPosition v q m s := by
  unfold GetShardReplicatedPosition
  cases hs : v.GetStorageShard (JoinTwo16 q.node_id s) with
  | none => rfl
  | some st => exact minProgress_congr _ _ s _ (fun n _ => h n) _

theorem mapFind_mapTouch_present {κ ν : Type} [DecidableEq κ] (m : List (κ × ν)) (k k' : κ)
    (d : ν) (h : (mapFind m k').isSome) : mapFind (mapTouch m k d) k' = mapFind m k' := by
  rw [mapFind_mapTouch]
  by_cases hk : k = k'
  · subst hk
    obtain ⟨x, hx⟩ := Option.isSome_iff_exists.mp h
    simp [hx]
  · simp [hk]

theorem Settled_storageProgressStep (v : View) (q : Sequencer) (s storage_id : Nat)
    (m m' : MetaLogPrimary) (g p : Nat) (hinv : Inv v q m) (hset : Settled v q s m)
    (hs : storageProgressStep v q storage_id m g p = some m') : Settled v q s m' := by
  rcases storageProgressStep_cases v q storage_id m m' g p hs with
    rfl | ⟨_, rfl⟩ | ⟨hu, sp, cur, cut', hsp, hp, hcur, hcut, hcase⟩
  · exact hset
  · intro cut pos hc hpos hnd
    have hk : (mapFind m.last_cut s).isSome := by
      have : mapFind m.last_cut s = some cut := hc
      simp [this]
    obtain ⟨a, ha⟩ := Option.isSome_iff_exists.mp (hinv.known_pos s hk)
    have ha' := GetShardReplicatedPosition_congr_present v q m
      { m with shard_progrsses := mapTouch m.shard_progrsses (LowHalf32 g, storage_id) 0 }
      (fun k hk => mapFind_mapTouch_present _ _ _ _ hk) s a ha
    rw [ha'] at hpos
    cases hpos
    exact hset cut _ hc ha hnd
  · by_cases hss : LowHalf32 g = s
    · rcases hcase with ⟨_, rfl⟩ | ⟨hle, rfl⟩
      · intro cut pos _ _ hnd
        exact absurd ((mem_setInsert _ _ _).mpr (Or.inr hss.symm)) hnd
      · intro cut pos hc hpos _
        have hc' : mapFind m.last_cut s = some cut := hc
        rw [← hss, hcut] at hc'
        have hpos' : GetShardReplicatedPosition v q { m with shard_progrsses := sp } s =
            some pos := hpos
        rw [← hss, hcur] at hpos'
        cases hc'
        cases hpos'
        exact hle
    · have hsame : GetShardReplicatedPosition v q { m with shard_progrsses := sp } s =
          GetShardReplicatedPosition v q m s := by
        apply GetShardReplicatedPosition_congr_shard
        intro n
        have hne : (LowHalf32 g, storage_id) ≠ (s, n) := by
          intro e
          exact hss (congrArg Prod.fst e)
        show mapFind sp (s, n) = mapFind m.shard_progrsses (s, n)
        rw [hsp, mapFind_mapSet_ne _ _ hne, mapFind_mapTouch]
        simp [hne]
      have hdirty : s ∉ m'.dirty_shards → s ∉ m.dirty_shards := by
        intro hnd hd
        apply hnd
        rcases hcase with ⟨_, rfl⟩ | ⟨_, rfl⟩
        · exact (mem_setInsert _ _ _).mpr (Or.inl hd)
        · exact hd
      have hlc : m'.last_cut = m.last_cut := by
        rcases hcase with ⟨_, rfl⟩ | ⟨_, rfl⟩ <;> rfl
      have hpos_eq : GetShardReplicatedPosition v q m' s =
          GetShardReplicatedPosition v q m s := by
        rcases hcase with ⟨_, rfl⟩ | ⟨_, rfl⟩ <;> exact hsame
      intro cut pos hc hpos hnd
      rw [hlc] at hc
      rw [hpos_eq] at hpos
      exact hset cut pos hc hpos (hdirty hnd)

theorem Settled_storageProgressLoop (v : View) (q : Sequencer) (s storage_id : Nat) :
    ∀ (gs ps : List Nat) (m m' : MetaLogPrimary), Inv v q m → Settled v q s m →
      storageProgressLoop v q storage_id gs ps m = some m' → Settled v q s m' := by
  intro gs
  induction gs with
  | nil =>
    intro ps m m' _ h hs
    simp only [storageProgressLoop, Option.some.injEq] at hs
    exact hs ▸ h
  | cons g gs ih =>
    intro ps m m' hinv h hs
    cases ps with
    | nil =>
      simp only [storageProgressLoop, Option.some.injEq] at hs
      exact hs ▸ h
    | cons p ps =>
      simp only [storageProgressLoop] at hs
      cases hstep : storageProgressStep v q storage_id m g p with
      | none => simp [hstep] at hs
      | some m1 =>
        simp only [hstep] at hs
        exact ih ps m1 m' (Inv_storageProgressStep v q storage_id m m1 g p hinv hstep)
          (Settled_storageProgressStep v q s storage_id m m1 g p hinv h hstep) hs

theorem Settled_step (v : View) (q : Sequencer) (s : Nat) (m m' : MetaLogPrimary) (op : Op)
    (out : Option MetaLogProto) (hinv : Inv v q m) (hset : Settled v q s m)
    (hclean : op = Op.block s → s ∉ m.dirty_shards)
    (hs : step v q m op = some (m', out)) : Settled v q s m' := by
  cases op with
  | block x =>
    simp only [step, Option.some.injEq, Prod.mk.injEq] at hs
    obtain ⟨rfl, _⟩ := hs
    rcases BlockShard_state m x with ⟨he, _⟩ | ⟨_, _, he⟩ <;> rw [he]
    · exact hset
    · intro cut pos hc hpos hnd
      apply hset cut pos hc hpos
      intro hd
      by_cases hxs : x = s
      · exact hclean (by rw [hxs]) hd
      · apply hnd
        show s ∈ setErase m.dirty_shards x
        exact (mem_setErase _ _ _).mpr ⟨hd, fun e => hxs e.symm⟩
  | unblock x =>
    simp only [step, Option.some.injEq, Prod.mk.injEq] at hs
    obtain ⟨rfl, _⟩ := hs
    rcases UnblockShard_state m x with he | ⟨_, he⟩ <;> rw [he]
    · exact hset
    · exact hset
  | storageProgress id p =>
    simp only [step] at hs
    cases hu : UpdateStorageProgress v q m id p with
    | none => simp [hu] at hs
    | some m1 =>
      simp only [hu, Option.some.injEq, Prod.mk.injEq] at hs
      obtain ⟨gs, hl⟩ := UpdateStorageProgress_loop v q m m1 id p hu
      exact hs.1 ▸ Settled_storageProgressLoop v q s id gs p m m1 hinv hset hl
  | replicaProgress id p =>
    simp only [step] at hs
    cases hu : UpdateReplicaProgress q m id p with
    | none => simp [hu] at hs
    | some m1 =>
      simp only [hu, Option.some.injEq, Prod.mk.injEq] at hs
      obtain ⟨mp, r, he⟩ := UpdateReplicaProgress_cases q m m1 id p hu
      rw [← hs.1, he]
      exact hset
  | markNextCut =>
    have hs' : MarkNextCut v q m = some (m', out) := hs
    by_cases hd : m.dirty_shards = []
    · have : MarkNextCut v q m = some (m, none) := by simp [MarkNextCut, hd]
      rw [this] at hs'
      cases hs'
      exact hset
    · obtain ⟨lc, hcut, hfind⟩ :=
        MarkNextCut_of_dirty v q m hd hinv.nodup (Inv_cut_ready v q m hinv)
      rw [hcut] at hs'
      simp only [Option.some.injEq, Prod.mk.injEq] at hs'
      obtain ⟨rfl, _⟩ := hs'
      intro cut pos hc hpos _
      have hc' : mapFind lc s = some cut := hc
      have hpos' : GetShardReplicatedPosition v q m s = some pos := hpos
      rw [hfind s] at hc'
      by_cases hsd : s ∈ m.dirty_shards
      · simp only [hsd, if_true] at hc'
        rw [hpos'] at hc'
        cases hc'
        exact le_refl _
      · simp only [hsd, if_false] at hc'
        exact hset cut pos hc' hpos' hsd

theorem Settled_run (v : View) (q : Sequencer) (s : Nat) (ops : List Op) :
    ∀ (m m' : MetaLogPrimary) (es : List MetaLogProto), Inv v q m → Settled v q s m →
      blocksOnlyClean v q s m ops = true →
      run v q m ops = some (m', es) → Settled v q s m' := by
  induction ops with
  | nil =>
    intro m m' es _ h _ hr
    simp only [run, Option.some.injEq, Prod.mk.injEq] at hr
    exact hr.1 ▸ h
  | cons op ops ih =>
    intro m m' es hinv h hclean hr
    obtain ⟨m1, out, es1, hs, hr1, _⟩ := run_cons v q m m' op ops es hr
    simp only [blocksOnlyClean, hs, Bool.and_eq_true, decide_eq_true_eq] at hclean
    exact ih m1 m' es1 (Inv_step v q m m1 op out hinv hs)
      (Settled_step v q s m m1 op out hinv h hclean.1 hs) hclean.2 hr1

/-! ## Successive cuts of one shard -/

theorem mapFind_zip_map (f : Nat → Nat) (s : Nat) :
    ∀ l : List Nat, s ∈ l → mapFind (l.zip (l.map f)) s = some (f s) := by
  intro l
  induction l with
  | nil => intro h; simp at h
  | cons a t ih =>
    intro h
    simp only [List.map_cons, List.zip_cons_cons, mapFind]
    by_cases has : a = s
    · simp [has]
    · simp only [has, if_false]
      rcases List.mem_cons.mp h with rfl | ht
      · exact absurd rfl has
      · exact ih ht

theorem MarkNextCut_listed (v : View) (q : Sequencer) (m m1 : MetaLogPrimary)
    (e : MetaLogProto) (s : Nat) (hinv : Inv v q m)
    (hcut : MarkNextCut v q m = some (m1, some e)) (hs : s ∈ e.new_logs_proto.shard_ids) :
    ∃ a d, mapFind m.last_cut s = some a ∧ entryStart e s = some a ∧
      entryDelta e s = some d ∧ mapFind m1.last_cut s = some (a + d) := by
  obtain ⟨hids, hst, hdl, hfind⟩ := MarkNextCut_entry v q m m1 e hinv hcut
  rw [hids] at hs
  obtain ⟨h1, h2⟩ := Inv_cut_ready v q m hinv s hs
  obtain ⟨cut, hc⟩ := Option.isSome_iff_exists.mp h1
  obtain ⟨pos, hp⟩ := Option.isSome_iff_exists.mp h2
  have hlt := hinv.dirty_gt s hs cut pos hc hp
  refine ⟨cut, pos - cut, hc, ?_, ?_, ?_⟩
  · unfold entryStart
    rw [hids, hst]
    unfold cutStarts
    rw [mapFind_zip_map _ s _ hs, hc]
    rfl
  · unfold entryDelta
    rw [hids, hdl]
    unfold cutDeltas
    rw [mapFind_zip_map _ s _ hs, hc, hp]
    simp only [Option.getD_some]
    rw [sub32_eq_sub (Nat.le_of_lt hlt) (GetShardReplicatedPosition_le v q m s pos hp)]
  · rw [hfind s]
    simp only [hs, if_true, hp]
    congr 1
    omega

theorem step_last_cut_unlisted (v : View) (q : Sequencer) (m m1 : MetaLogPrimary) (op : Op)
    (out : Option MetaLogProto) (s : Nat) (hinv : Inv v q m)
    (hs : step v q m op = some (m1, out))
    (hout : ∀ e, out = some e → s ∉ e.new_logs_proto.shard_ids) :
    mapFind m1.last_cut s = mapFind m.last_cut s := by
  cases op with
  | block x =>
    simp only [step, Option.some.injEq, Prod.mk.injEq] at hs
    obtain ⟨rfl, _⟩ := hs
    rcases BlockShard_state m x with ⟨he, _⟩ | ⟨_, _, he⟩ <;> rw [he]
  | unblock x =>
    simp only [step, Option.some.injEq, Prod.mk.injEq] at hs
    obtain ⟨rfl, _⟩ := hs
    rcases UnblockShard_state m x with he | ⟨_, he⟩ <;> rw [he]
  | storageProgress id p =>
    simp only [step] at hs
    cases hu : UpdateStorageProgress v q m id p with
    | none => simp [hu] at hs
    | some m2 =>
      simp only [hu, Option.some.injEq, Prod.mk.injEq] at hs
      obtain ⟨gs, hl⟩ := UpdateStorageProgress_loop v q m m2 id p hu
      rw [← hs.1, storageProgressLoop_frame v q id gs p m m2 hl]
  | replicaProgress id p =>
    simp only [step] at hs
    cases hu : UpdateReplicaProgress q m id p with
    | none => simp [hu] at hs
    | some m2 =>
      simp only [hu, Option.some.injEq, Prod.mk.injEq] at hs
      obtain ⟨mp, r, he⟩ := UpdateReplicaProgress_cases q m m2 id p hu
      rw [← hs.1, he]
  | markNextCut =>
    have hs' : MarkNextCut v q m = some (m1, out) := hs
    cases out with
    | none =>
      by_cases hd : m.dirty_shards = []
      · have : MarkNextCut v q m = some (m, none) := by simp [MarkNextCut, hd]
        rw [this] at hs'
        cases hs'
        rfl
      · obtain ⟨lc, hc, _⟩ :=
          MarkNextCut_of_dirty v q m hd hinv.nodup (Inv_cut_ready v q m hinv)
        rw [hc] at hs'
        simp at hs'
    | some e =>
      obtain ⟨hids, _, _, hfind⟩ := MarkNextCut_entry v q m m1 e hinv hs'
      have hns := hout e rfl
      rw [hids] at hns
      rw [hfind s]
      simp [hns]

theorem step_entry_is_cut (v : View) (q : Sequencer) (m m1 : MetaLogPrimary) (op : Op)
    (e : MetaLogProto) (hs : step v q m op = some (m1, some e)) :
    MarkNextCut v q m = some (m1, some e) := by
  cases op with
  | block x => simp [step] at hs
  | unblock x => simp [step] at hs
  | storageProgress id p =>
    simp only [step] at hs
    cases hu : UpdateStorageProgress v q m id p <;> simp [hu] at hs
  | replicaProgress id p =>
    simp only [step] at hs
    cases hu : UpdateReplicaProgress q m id p <;> simp [hu] at hs
  | markNextCut => exact hs

theorem run_cuts_contiguous (v : View) (q : Sequencer) (s : Nat) (ops : List Op) :
    ∀ (m m' : MetaLogPrimary) (es : List MetaLogProto), Inv v q m →
      run v q m ops = some (m', es) →
      (∀ pre e post, es = pre ++ e :: post →
        (∀ x ∈ pre, s ∉ x.new_logs_proto.shard_ids) → s ∈ e.new_logs_proto.shard_ids →
        entryStart e s = mapFind m.last_cut s) ∧
      (∀ pre e1 mid e2 post, es = pre ++ e1 :: (mid ++ e2 :: post) →
        s ∈ e1.new_logs_proto.shard_ids → s ∈ e2.new_logs_proto.shard_ids →
        (∀ x ∈ mid, s ∉ x.new_logs_proto.shard_ids) →
        ∃ a d, entryStart e1 s = some a ∧ entryDelta e1 s = some d ∧
          entryStart e2 s = some (a + d)) := by
  induction ops with
  | nil =>
    intro m m' es _ hr
    simp only [run, Option.some.injEq, Prod.mk.injEq] at hr
    obtain ⟨_, rfl⟩ := hr
    constructor
    · intro pre e post h; simp at h
    · intro pre e1 mid e2 post h; simp at h
  | cons op ops ih =>
    intro m m' es hinv hr
    obtain ⟨m1, out, es1, hs, hr1, hes⟩ := run_cons v q m m' op ops es hr
    have hinv1 := Inv_step v q m m1 op out hinv hs
    obtain ⟨ih1, ih2⟩ := ih m1 m' es1 hinv1 hr1
    cases out with
    | none =>
      have hlc := step_last_cut_unlisted v q m m1 op none s hinv hs (by simp)
      simp only [Option.toList, List.nil_append] at hes
      subst hes
      refine ⟨?_, ih2⟩
      intro pre e post h hpre he
      rw [← hlc]
      exact ih1 pre e post h hpre he
    | some e0 =>
      have hcut := step_entry_is_cut v q m m1 op e0 hs
      simp only [Option.toList, List.singleton_append] at hes
      subst hes
      constructor
      · intro pre e post h hpre he
        cases pre with
        | nil =>
          simp only [List.nil_append, List.cons.injEq] at h
          obtain ⟨rfl, _⟩ := h
          obtain ⟨a, d, h1, h2, _, _⟩ := MarkNextCut_listed v q m m1 e0 s hinv hcut he
          rw [h1, h2]
        | cons p0 pre' =>
          simp only [List.cons_append, List.cons.injEq] at h
          obtain ⟨rfl, h'⟩ := h
          have hns : s ∉ e0.new_logs_proto.shard_ids := hpre e0 (List.mem_cons_self _ _)
          have hlc := step_last_cut_unlisted v q m m1 op (some e0) s hinv hs
            (by intro e he'; cases he'; exact hns)
          rw [← hlc]
          exact ih1 pre' e post h' (fun x hx => hpre x (List.mem_cons_of_mem _ hx)) he
      · intro pre e1 mid e2 post h he1 he2 hmid
        cases pre with
        | nil =>
          simp only [List.nil_append, List.cons.injEq] at h
          obtain ⟨rfl, h'⟩ := h
          obtain ⟨a, d, _, h2, h3, h4⟩ := MarkNextCut_listed v q m m1 e0 s hinv hcut he1
          refine ⟨a, d, h2, h3, ?_⟩
          rw [ih1 mid e2 post h' hmid he2, h4]
        | cons p0 pre' =>
          simp only [List.cons_append, List.cons.injEq] at h
          obtain ⟨_, h'⟩ := h
          exact ih2 pre' e1 mid e2 post h' he1 he2 hmid

theorem exampleBlocked_reachable : Reachable exampleView exampleSequencer exampleBlocked :=
  ⟨exampleInit, exampleCommitOps ++ [Op.block 0], _, rfl, rfl⟩

/-! ## The log producer -/

theorem mapFind_filter_key {κ ν : Type} [DecidableEq κ] (P : κ → Bool) (k : κ) :
    ∀ m : List (κ × ν), mapFind (m.filter (fun kv => P kv.1)) k =
      if P k then mapFind m k else none := by
  intro m
  induction m with
  | nil => simp [mapFind]
  | cons hd tl ih =>
    obtain ⟨a, b⟩ := hd
    by_cases hPa : P a = true
    · simp only [List.filter_cons, hPa, if_true, mapFind, ih]
      by_cases hak : a = k
      · subst hak; simp [hPa]
      · simp [hak]
    · simp only [List.filter_cons, hPa, Bool.false_eq_true, if_false, mapFind, ih]
      by_cases hak : a = k
      · subst hak; simp [hPa]
      · simp [hak]

theorem mapFind_mapErase {κ ν : Type} [DecidableEq κ] (m : List (κ × ν)) (k k' : κ) :
    mapFind (mapErase m k) k' = if k = k' then none else mapFind m k' := by
  unfold mapErase
  rw [mapFind_filter_key (fun x => decide (x ≠ k)) k' m]
  by_cases h : k = k'
  · subst h; simp
  · have h' : k' ≠ k := fun e => h e.symm
    simp [h, h']

theorem ProducerInv_create (view_id sequencer_id storage_shard_id metalog_position
    next_start_id : Nat) :
    ProducerInv (LogProducer.create view_id sequencer_id storage_shard_id metalog_position
      next_start_id) := by
  intro k hk
  simp [LogProducer.create, mapFind] at hk

theorem newLogsLoop_frame (metalog_seqnum start_seqnum start_localid : Nat) :
    ∀ (n i : Nat) (p p' : LogProducer),
      LogProducer.newLogsLoop metalog_seqnum start_seqnum start_localid n i p = some p' →
      p'.next_localid = p.next_localid ∧ p'.identifier = p.identifier ∧
      p'.seqnum_position = p.seqnum_position ∧
      ∀ k, (mapFind p'.pending_appends k).isSome → (mapFind p.pending_appends k).isSome := by
  intro n
  induction n with
  | zero =>
    intro i p p' h
    simp only [LogProducer.newLogsLoop, Option.some.injEq] at h
    subst h
    exact ⟨rfl, rfl, rfl, fun _ hk => hk⟩
  | succ n ih =>
    intro i p p' h
    simp only [LogProducer.newLogsLoop] at h
    cases hf : mapFind p.pending_appends (add64 start_localid i) with
    | none => simp [hf] at h
    | some cd =>
      simp only [hf] at h
      obtain ⟨h1, h2, h3, h4⟩ := ih _ _ _ h
      refine ⟨h1, h2, h3, ?_⟩
      intro k hk
      have := h4 k hk
      simp only [mapFind_mapErase] at this
      by_cases hkk : add64 start_localid i = k
      · simp [hkk] at this
      · simpa [hkk] using this

theorem producerStep_spec (p p1 : LogProducer) (op : ProducerOp) (out : Option Nat)
    (hinv : ProducerInv p) (hs : producerStep p op = some (p1, out)) :
    (out = none → p1.next_localid = p.next_localid ∧ ProducerInv p1) ∧
    (∀ id, out = some id → id = p.next_localid ∧
      (p.next_localid + 1 < 2 ^ 64 → p1.next_localid = p.next_localid + 1 ∧ ProducerInv p1)) := by
  cases op with
  | localAppend cd =>
    simp only [producerStep, LogProducer.LocalAppend, Option.some.injEq, Prod.mk.injEq] at hs
    obtain ⟨rfl, rfl⟩ := hs
    refine ⟨by simp, ?_⟩
    intro id hid
    cases hid
    refine ⟨rfl, ?_⟩
    intro hlt
    have hn : add64 p.next_localid 1 = p.next_localid + 1 := Nat.mod_eq_of_lt hlt
    refine ⟨hn, ?_⟩
    intro k hk
    show k < add64 p.next_localid 1
    rw [hn]
    have hk' : (mapFind (mapSet p.pending_appends p.next_localid cd) k).isSome := hk
    rw [mapFind_mapSet] at hk'
    by_cases hkk : p.next_localid = k
    · omega
    · simp only [hkk, if_false] at hk'
      have := hinv k hk'
      omega
  | pollAppendResults =>
    simp only [producerStep, LogProducer.PollAppendResults, Option.some.injEq,
      Prod.mk.injEq] at hs
    obtain ⟨rfl, rfl⟩ := hs
    exact ⟨fun _ => ⟨rfl, hinv⟩, by simp⟩
  | onNewLogs a b c d e =>
    simp only [producerStep, LogProducer.OnNewLogs] at hs
    cases hl : LogProducer.newLogsLoop a b c d 0 p with
    | none => simp [hl] at hs
    | some p' =>
      simp only [hl, Option.some.injEq, Prod.mk.injEq] at hs
      obtain ⟨rfl, rfl⟩ := hs
      obtain ⟨h1, _, _, h4⟩ := newLogsLoop_frame a b c d 0 p p' hl
      refine ⟨fun _ => ⟨h1, ?_⟩, by simp⟩
      intro k hk
      rw [h1]
      exact hinv k (h4 k hk)
  | onFinalized mp =>
    simp only [producerStep, LogProducer.OnFinalized, Option.some.injEq, Prod.mk.injEq] at hs
    obtain ⟨rfl, rfl⟩ := hs
    refine ⟨fun _ => ⟨rfl, ?_⟩, by simp⟩
    intro k hk
    simp [mapFind] at hk

theorem producerRun_ids (ops : List ProducerOp) :
    ∀ (p p' : LogProducer) (ids : List Nat), ProducerInv p →
      producerRun p ops = some (p', ids) → p.next_localid + ids.length < 2 ^ 64 →
      ids = List.range' p.next_localid ids.length ∧
      p'.next_localid = p.next_localid + ids.length ∧ ProducerInv p' := by
  induction ops with
  | nil =>
    intro p p' ids hinv hr _
    simp only [producerRun, Option.some.injEq, Prod.mk.injEq] at hr
    obtain ⟨rfl, rfl⟩ := hr
    exact ⟨rfl, rfl, hinv⟩
  | cons op ops ih =>
    intro p p' ids hinv hr hlt
    simp only [producerRun] at hr
    cases hs : producerStep p op with
    | none => simp [hs] at hr
    | some r =>
      obtain ⟨p1, out⟩ := r
      simp only [hs] at hr
      cases hr1 : producerRun p1 ops with
      | none => simp [hr1] at hr
      | some r1 =>
        obtain ⟨p2, ids1⟩ := r1
        simp only [hr1, Option.some.injEq, Prod.mk.injEq] at hr
        obtain ⟨rfl, rfl⟩ := hr
        obtain ⟨hnone, hsome⟩ := producerStep_spec p p1 op out hinv hs
        cases out with
        | none =>
          obtain ⟨hn, hinv1⟩ := hnone rfl
          simp only [Option.toList, List.nil_append] at hlt ⊢
          obtain ⟨e1, e2, e3⟩ := ih p1 p2 ids1 hinv1 hr1 (by rw [hn]; exact hlt)
          rw [hn] at e1 e2
          exact ⟨e1, e2, e3⟩
        | some id =>
          obtain ⟨hid, hnext⟩ := hsome id rfl
          simp only [Option.toList, List.singleton_append, List.length_cons] at hlt ⊢
          obtain ⟨hn, hinv1⟩ := hnext (by omega)
          obtain ⟨e1, e2, e3⟩ := ih p1 p2 ids1 hinv1 hr1 (by rw [hn]; omega)
          rw [hn] at e1 e2
          refine ⟨?_, by omega, e3⟩
          rw [List.range'_succ, hid, ← e1]

theorem add64_ne (a i j : Nat) (hi : i < 2 ^ 32) (hj : j < 2 ^ 32) (hij : i ≠ j) :
    add64 a i ≠ add64 a j := by
  unfold add64
  omega

theorem newLogsLoop_spec (ms ss sl : Nat) :
    ∀ (n i : Nat) (p : LogProducer), i + n ≤ 2 ^ 32 →
      (∀ j, i ≤ j → j < i + n → (mapFind p.pending_appends (add64 sl j)).isSome) →
      LogProducer.newLogsLoop ms ss sl n i p = some
        { p with
          pending_append_results := p.pending_append_results ++
            (List.range' i n).map (fun j =>
              { seqnum := add64 ss j
                localid := add64 sl j
                metalog_progress := JoinTwo32 p.identifier (add32 ms 1)
                caller_data := (mapFind p.pending_appends (add64 sl j)).getD 0 })
          pending_appends := p.pending_appends.filter (fun kv =>
            decide (kv.1 ∉ (List.range' i n).map (add64 sl))) } := by
  intro n
  induction n with
  | zero =>
    intro i p _ _
    simp [LogProducer.newLogsLoop]
  | succ n ih =>
    intro i p hb hpend
    obtain ⟨cd, hcd⟩ := Option.isSome_iff_exists.mp (hpend i (le_refl _) (by omega))
    have hne : ∀ j, i + 1 ≤ j → j < i + 1 + n → add64 sl i ≠ add64 sl j :=
      fun j h1 h2 => add64_ne sl i j (by omega) (by omega) (by omega)
    simp only [LogProducer.newLogsLoop, hcd]
    rw [ih (i + 1) _ (by omega) (fun j h1 h2 => by
      show (mapFind (mapErase p.pending_appends (add64 sl i)) (add64 sl j)).isSome = true
      rw [mapFind_mapErase, if_neg (hne j h1 h2)]
      exact hpend j (by omega) (by omega))]
    have e1 : (List.range' (i + 1) n).map (fun j =>
          ({ seqnum := add64 ss j
             localid := add64 sl j
             metalog_progress := JoinTwo32 p.identifier (add32 ms 1)
             caller_data := (mapFind (mapErase p.pending_appends (add64 sl i))
               (add64 sl j)).getD 0 } : AppendResult)) =
        (List.range' (i + 1) n).map (fun j =>
          ({ seqnum := add64 ss j
             localid := add64 sl j
             metalog_progress := JoinTwo32 p.identifier (add32 ms 1)
             caller_data := (mapFind p.pending_appends (add64 sl j)).getD 0 } :
            AppendResult)) := by
      apply List.map_congr_left
      intro j hj
      simp only [List.mem_range'_1] at hj
      rw [mapFind_mapErase, if_neg (hne j hj.1 (by omega))]
    have e2 : (mapErase p.pending_appends (add64 sl i)).filter (fun kv =>
          decide (kv.1 ∉ (List.range' (i + 1) n).map (add64 sl))) =
        p.pending_appends.filter (fun kv =>
          decide (kv.1 ∉ (List.range' i (n + 1)).map (add64 sl))) := by
      unfold mapErase
      rw [List.filter_filter]
      apply List.filter_congr
      intro kv _
      simp only [List.range'_succ, List.map_cons, List.mem_cons, not_or]
      by_cases h1 : kv.1 = add64 sl i <;> simp [h1]
    simp only [e1, e2, List.range'_succ, List.map_cons, hcd, Option.getD_some,
      List.append_assoc, List.singleton_append]

/-! ## The log storage -/

theorem advanceScan_found (pending : List (Nat × LogEntry)) (h n : Nat) (hn : n < 2 ^ 32)
    (hgap : mapContains pending (JoinTwo32 h n) = false) :
    ∀ (d cur probes : Nat), cur + d = n → d < probes →
      (∀ k, cur ≤ k → k < n → mapContains pending (JoinTwo32 h k) = true) →
      advanceScan pending h probes cur = some n := by
  intro d
  induction d with
  | zero =>
    intro cur probes hc hp _
    obtain ⟨pr, rfl⟩ : ∃ pr, probes = pr + 1 := ⟨probes - 1, by omega⟩
    have : cur = n := by omega
    subst this
    simp [advanceScan, hgap]
  | succ d ih =>
    intro cur probes hc hp hfull
    obtain ⟨pr, rfl⟩ : ∃ pr, probes = pr + 1 := ⟨probes - 1, by omega⟩
    have h1 : add32 cur 1 = cur + 1 := Nat.mod_eq_of_lt (by omega)
    simp only [advanceScan, hfull cur (le_refl _) (by omega), if_true, h1]
    exact ih (cur + 1) pr (by omega) (by omega) (fun k hk1 hk2 => hfull k (by omega) hk2)

theorem advanceScan_none (pending : List (Nat × LogEntry)) (h : Nat) :
    ∀ (probes cur : Nat), cur < 2 ^ 32 → advanceScan pending h probes cur = none →
      ∀ j, j < probes → mapContains pending (JoinTwo32 h ((cur + j) % 2 ^ 32)) = true := by
  intro probes
  induction probes with
  | zero => intro cur _ _ j hj; omega
  | succ pr ih =>
    intro cur hcur hnone j hj
    simp only [advanceScan] at hnone
    by_cases hc : mapContains pending (JoinTwo32 h cur) = true
    · simp only [hc, if_true] at hnone
      cases j with
      | zero =>
        rw [Nat.add_zero, Nat.mod_eq_of_lt hcur]
        exact hc
      | succ j =>
        have := ih (add32 cur 1) (Nat.mod_lt _ (by norm_num)) hnone j (by omega)
        have e : (add32 cur 1 + j) % 2 ^ 32 = (cur + (j + 1)) % 2 ^ 32 := by
          unfold add32
          omega
        rw [e] at this
        exact this
    · simp [hc] at hnone

theorem mapFind_isSome_mem {κ ν : Type} [DecidableEq κ] (m : List (κ × ν)) (k : κ)
    (h : (mapFind m k).isSome) : k ∈ m.map Prod.fst := by
  induction m with
  | nil => simp [mapFind] at h
  | cons hd tl ih =>
    obtain ⟨a, b⟩ := hd
    by_cases hak : a = k
    · simp [hak]
    · simp only [mapFind, if_neg hak] at h
      simp only [List.map_cons, List.mem_cons]
      exact Or.inr (ih h)

theorem JoinTwo32_low_inj (h a b : Nat) (ha : a < 2 ^ 32) (hb : b < 2 ^ 32)
    (e : JoinTwo32 h a = JoinTwo32 h b) : a = b := by
  unfold JoinTwo32 at e
  rw [Nat.mod_eq_of_lt ha, Nat.mod_eq_of_lt hb] at e
  omega

theorem advanceScan_terminates (pending : List (Nat × LogEntry)) (h cur : Nat)
    (hcur : cur < 2 ^ 32) (hsize : pending.length < 2 ^ 32) :
    ∃ n, advanceScan pending h (2 ^ 32) cur = some n := by
  cases hres : advanceScan pending h (2 ^ 32) cur with
  | some n => exact ⟨n, rfl⟩
  | none =>
    exfalso
    have hall := advanceScan_none pending h (2 ^ 32) cur hcur hres
    have hsub : (List.range (2 ^ 32)).map (JoinTwo32 h) ⊆ pending.map Prod.fst := by
      intro x hx
      simp only [List.mem_map, List.mem_range] at hx
      obtain ⟨r, hr, rfl⟩ := hx
      apply mapFind_isSome_mem
      have := hall ((r + 2 ^ 32 - cur) % 2 ^ 32) (Nat.mod_lt _ (by norm_num))
      have e : (cur + (r + 2 ^ 32 - cur) % 2 ^ 32) % 2 ^ 32 = r := by omega
      rw [e] at this
      exact this
    have hnd : ((List.range (2 ^ 32)).map (JoinTwo32 h)).Nodup := by
      apply List.Nodup.map_on _ (List.nodup_range _)
      intro a ha b hb e
      exact JoinTwo32_low_inj h a b (List.mem_range.mp ha) (List.mem_range.mp hb) e
    have hle := (hnd.subperm hsub).length_le
    simp only [List.length_map, List.length_range] at hle
    omega

theorem AdvanceShardProgress_cases (s s' : LogStorage) (h : Nat)
    (hs : s.AdvanceShardProgress h = some s') :
    ∃ current, advanceScan s.pending_log_entries h (2 ^ 32)
        ((mapFind s.shard_progresses h).getD 0) = some current ∧
      (((mapFind s.shard_progresses h).getD 0 < current ∧
        s' = { s with shard_progress_dirty := true
                      shard_progresses := mapSet (mapTouch s.shard_progresses h 0) h current }) ∨
       (current ≤ (mapFind s.shard_progresses h).getD 0 ∧
        s' = { s with shard_progresses := mapTouch s.shard_progresses h 0 })) := by
  unfold LogStorage.AdvanceShardProgress at hs
  have hget : (mapFind (mapTouch s.shard_progresses h 0) h).getD 0 =
      (mapFind s.shard_progresses h).getD 0 := by
    rw [mapFind_mapTouch]; simp
  simp only [hget] at hs
  cases hscan : advanceScan s.pending_log_entries h (2 ^ 32)
      ((mapFind s.shard_progresses h).getD 0) with
  | none =>
    simp only [hscan] at hs
    cases hs
  | some current =>
    simp only [hscan] at hs
    refine ⟨current, rfl, ?_⟩
    by_cases hgt : current > (mapFind s.shard_progresses h).getD 0
    · simp only [hgt, if_true, Option.some.injEq] at hs
      exact Or.inl ⟨hgt, hs.symm⟩
    · simp only [hgt, if_false, Option.some.injEq] at hs
      exact Or.inr ⟨by omega, hs.symm⟩

theorem AdvanceShardProgress_of_scan (s : LogStorage) (h current : Nat)
    (hscan : advanceScan s.pending_log_entries h (2 ^ 32)
      ((mapFind s.shard_progresses h).getD 0) = some current) :
    s.AdvanceShardProgress h = some
      (if (mapFind s.shard_progresses h).getD 0 < current then
        { s with shard_progress_dirty := true
                 shard_progresses := mapSet (mapTouch s.shard_progresses h 0) h current }
       else { s with shard_progresses := mapTouch s.shard_progresses h 0 }) := by
  unfold LogStorage.AdvanceShardProgress
  have hget : (mapFind (mapTouch s.shard_progresses h 0) h).getD 0 =
      (mapFind s.shard_progresses h).getD 0 := by
    rw [mapFind_mapTouch]; simp
  simp only [hget, hscan]
  by_cases hgt : (mapFind s.shard_progresses h).getD 0 < current
  · simp only [gt_iff_lt, hgt, if_true]
  · simp only [gt_iff_lt, hgt, if_false]

theorem Store_cases (s s' : LogStorage) (log_metadata : LogMetaData)
    (user_tags log_data : List Nat) (b : Bool)
    (hs : s.Store log_metadata user_tags log_data = some (s', b)) :
    b = true ∧
    (({ s with pending_log_entries := (mapSet s.pending_log_entries log_metadata.localid
        { metadata := log_metadata, user_tags := user_tags, data := log_data }) } :
      LogStorage).AdvanceShardProgress (HighHalf64 log_metadata.localid % 2 ^ 16)) = some s' := by
  unfold LogStorage.Store at hs
  simp only at hs
  split at hs
  · cases hs
  · rename_i s2 heq
    simp only [Option.some.injEq, Prod.mk.injEq] at hs
    obtain ⟨rfl, rfl⟩ := hs
    exact ⟨rfl, heq⟩

theorem advanceScan_some (pending : List (Nat × LogEntry)) (h : Nat) :
    ∀ (probes cur c : Nat), advanceScan pending h probes cur = some c →
      mapFind pending (JoinTwo32 h c) = none ∧ (c = cur ∨ c < 2 ^ 32) := by
  intro probes
  induction probes with
  | zero =>
    intro cur c hs
    simp only [advanceScan] at hs
    cases hs
  | succ pr ih =>
    intro cur c hs
    by_cases hc : mapContains pending (JoinTwo32 h cur) = true
    · simp only [advanceScan, hc, if_true] at hs
      obtain ⟨h1, h2⟩ := ih (add32 cur 1) c hs
      refine ⟨h1, Or.inr ?_⟩
      rcases h2 with e | e
      · rw [e]
        exact Nat.mod_lt _ (by norm_num)
      · exact e
    · simp only [advanceScan, hc, Bool.false_eq_true, if_false, Option.some.injEq] at hs
      subst hs
      refine ⟨?_, Or.inl rfl⟩
      unfold mapContains at hc
      cases hf : mapFind pending (JoinTwo32 h cur) with
      | none => rfl
      | some e =>
        rw [hf] at hc
        exact absurd rfl hc

theorem least_gap (P : Nat → Prop) (g : Nat) (hg : P g) :
    ∃ n, n ≤ g ∧ P n ∧ ∀ k, k < n → ¬ P k := by
  classical
  exact ⟨Nat.find ⟨g, hg⟩, Nat.find_min' _ hg, Nat.find_spec _, fun k hk => Nat.find_min _ hk⟩

/-! ### The storage loops -/

theorem shrinkLoop_live (M P : Nat) :
    ∀ (ls : List Nat) (live : List (Nat × LogEntry)) (k : Nat),
      mapFind (shrinkLoop M P ls live).2 k = none ∨
        mapFind (shrinkLoop M P ls live).2 k = mapFind live k := by
  intro ls
  induction ls with
  | nil => intro live k; right; rfl
  | cons front rest ih =>
    intro live k
    unfold shrinkLoop
    split
    · rcases ih (mapErase live front) k with h | h
      · left; exact h
      · rw [h, mapFind_mapErase]
        by_cases e : front = k
        · left; simp [e]
        · right; simp [e]
    · right; rfl

theorem storageLoop_step (M ss sl n j : Nat) (s : LogStorage) (pe : LogEntry)
    (h : mapFind s.pending_log_entries (add64 sl j) = some pe) :
    ∃ s1, LogStorage.newLogsLoop M ss sl (n + 1) j s =
        LogStorage.newLogsLoop M ss sl n (j + 1) s1 ∧
      s1.pending_log_entries = mapErase s.pending_log_entries (add64 sl j) ∧
      s1.live_log_entries =
        (shrinkLoop M s.persisted_seqnum_position (s.live_seqnums ++ [add64 ss j])
          (mapSet s.live_log_entries (add64 ss j)
            { pe with metadata := { pe.metadata with seqnum := add64 ss j } })).2 ∧
      s1.live_seqnums =
        (shrinkLoop M s.persisted_seqnum_position (s.live_seqnums ++ [add64 ss j])
          (mapSet s.live_log_entries (add64 ss j)
            { pe with metadata := { pe.metadata with seqnum := add64 ss j } })).1 ∧
      s1.persisted_seqnum_position = s.persisted_seqnum_position ∧
      s1.seqnum_position = s.seqnum_position ∧
      s1.pending_read_requests =
        (serveReads (add64 ss j)
          { pe with metadata := { pe.metadata with seqnum := add64 ss j } }
          s.pending_read_requests s.pending_read_results).1 ∧
      s1.pending_read_results =
        (serveReads (add64 ss j)
          { pe with metadata := { pe.metadata with seqnum := add64 ss j } }
          s.pending_read_requests s.pending_read_results).2 := by
  simp only [LogStorage.newLogsLoop, h]
  exact ⟨_, rfl, rfl, rfl, rfl, rfl, rfl, rfl, rfl⟩

theorem storageLoop_frame (M ss sl : Nat) :
    ∀ (n j : Nat) (s s' : LogStorage), LogStorage.newLogsLoop M ss sl n j s = some s' →
      (∀ L, mapFind s.pending_log_entries L = none → mapFind s'.pending_log_entries L = none) ∧
      (∀ q, (∀ k, j ≤ k → k < j + n → add64 ss k ≠ q) →
        mapFind s'.live_log_entries q = none ∨
          mapFind s'.live_log_entries q = mapFind s.live_log_entries q) := by
  intro n
  induction n with
  | zero =>
    intro j s s' h
    simp only [LogStorage.newLogsLoop, Option.some.injEq] at h
    subst h
    exact ⟨fun _ h => h, fun _ _ => Or.inr rfl⟩
  | succ n ih =>
    intro j s s' h
    cases hp : mapFind s.pending_log_entries (add64 sl j) with
    | none =>
      simp only [LogStorage.newLogsLoop, hp] at h
      cases h
    | some pe =>
      obtain ⟨s1, hstep, hpend, hlive, -⟩ := storageLoop_step M ss sl n j s pe hp
      rw [hstep] at h
      obtain ⟨ih1, ih2⟩ := ih (j + 1) s1 s' h
      refine ⟨fun L hL => ih1 L ?_, fun q hq => ?_⟩
      · rw [hpend, mapFind_mapErase]
        split
        · rfl
        · exact hL
      · rcases ih2 q (fun k h1 h2 => hq k (by omega) (by omega)) with h' | h'
        · left; exact h'
        · rw [h', hlive]
          rcases shrinkLoop_live M s.persisted_seqnum_position
            (s.live_seqnums ++ [add64 ss j])
            (mapSet s.live_log_entries (add64 ss j)
              { pe with metadata := { pe.metadata with seqnum := add64 ss j } }) q with h'' | h''
          · left; exact h''
          · right
            rw [h'', mapFind_mapSet_ne _ _ (hq j (le_refl _) (by omega))]

theorem storageLoop_assign (M ss sl : Nat) :
    ∀ (n j : Nat) (s s' : LogStorage) (i : Nat) (e : LogEntry), j + n ≤ 2 ^ 32 →
      j ≤ i → i < j + n → mapFind s.pending_log_entries (add64 sl i) = some e →
      LogStorage.newLogsLoop M ss sl n j s = some s' →
      mapFind s'.pending_log_entries (add64 sl i) = none ∧
      (mapFind s'.live_log_entries (add64 ss i) = none ∨
        mapFind s'.live_log_entries (add64 ss i) =
          some { e with metadata := { e.metadata with seqnum := add64 ss i } }) := by
  intro n
  induction n with
  | zero => intro j s s' i e _ h1 h2; omega
  | succ n ih =>
    intro j s s' i e hb h1 h2 he h
    cases hp : mapFind s.pending_log_entries (add64 sl j) with
    | none =>
      simp only [LogStorage.newLogsLoop, hp] at h
      cases h
    | some pe =>
      obtain ⟨s1, hstep, hpend, hlive, -⟩ := storageLoop_step M ss sl n j s pe hp
      rw [hstep] at h
      by_cases hij : i = j
      · subst hij
        rw [he] at hp
        cases hp
        obtain ⟨f1, f2⟩ := storageLoop_frame M ss sl n (i + 1) s1 s' h
        refine ⟨f1 _ (by rw [hpend, mapFind_mapErase]; simp), ?_⟩
        rcases f2 (add64 ss i) (fun k hk1 hk2 =>
          add64_ne ss k i (by omega) (by omega) (by omega)) with h' | h'
        · left; exact h'
        · rw [h', hlive]
          rcases shrinkLoop_live M s.persisted_seqnum_position
            (s.live_seqnums ++ [add64 ss i])
            (mapSet s.live_log_entries (add64 ss i)
              { e with metadata := { e.metadata with seqnum := add64 ss i } })
            (add64 ss i) with h'' | h''
          · left; exact h''
          · right
            rw [h'', mapFind_mapSet_self]
      · refine ih (j + 1) s1 s' i e (by omega) (by omega) (by omega) ?_ h
        rw [hpend, mapFind_mapErase,
          if_neg (add64_ne sl j i (by omega) (by omega) (fun e' => hij e'.symm))]
        exact he

theorem OnNewLogs_loop (M : Nat) (s s2 : LogStorage) (ms ss sl delta shard : Nat)
    (h : LogStorage.OnNewLogs M s ms ss sl delta shard = some s2) :
    ∃ s', LogStorage.newLogsLoop M ss sl delta 0
        { s with
          pending_read_requests :=
            (failPastReads ss s.pending_read_requests s.pending_read_results).1
          pending_read_results :=
            (failPastReads ss s.pending_read_requests s.pending_read_results).2 } = some s' ∧
      s2.pending_log_entries = s'.pending_log_entries ∧
      s2.live_log_entries = s'.live_log_entries ∧
      s2.live_seqnums = s'.live_seqnums ∧
      s2.pending_read_requests = s'.pending_read_requests ∧
      s2.pending_read_results = s'.pending_read_results := by
  unfold LogStorage.OnNewLogs at h
  cases hl : LogStorage.newLogsLoop M ss sl delta 0
      { s with
        pending_read_requests :=
          (failPastReads ss s.pending_read_requests s.pending_read_results).1
        pending_read_results :=
          (failPastReads ss s.pending_read_requests s.pending_read_results).2 } with
  | none =>
    simp only [hl] at h
    cases h
  | some s' =>
    simp only [hl, Option.some.injEq] at h
    subst h
    exact ⟨s', rfl, rfl, rfl, rfl, rfl, rfl⟩

theorem Store_frame (s s' : LogStorage) (log_metadata : LogMetaData)
    (user_tags log_data : List Nat) (b : Bool)
    (hs : s.Store log_metadata user_tags log_data = some (s', b)) :
    s'.pending_log_entries = mapSet s.pending_log_entries log_metadata.localid
      { metadata := log_metadata, user_tags := user_tags, data := log_data } ∧
    s'.live_log_entries = s.live_log_entries ∧ s'.live_seqnums = s.live_seqnums ∧
    s'.persisted_seqnum_position = s.persisted_seqnum_position ∧
    s'.seqnum_position = s.seqnum_position ∧
    s'.pending_read_requests = s.pending_read_requests ∧
    s'.pending_read_results = s.pending_read_results := by
  obtain ⟨_, hadv⟩ := Store_cases s s' log_metadata user_tags log_data b hs
  obtain ⟨current, _, hcase⟩ := AdvanceShardProgress_cases _ s' _ hadv
  rcases hcase with ⟨_, rfl⟩ | ⟨_, rfl⟩ <;> exact ⟨rfl, rfl, rfl, rfl, rfl, rfl, rfl⟩

theorem multimapInsert_perm {ν : Type} (k : Nat) (v : ν) :
    ∀ l : List (Nat × ν), (multimapInsert l k v).Perm ((k, v) :: l) := by
  intro l
  induction l with
  | nil => exact List.Perm.refl _
  | cons hd tl ih =>
    obtain ⟨k', v'⟩ := hd
    unfold multimapInsert
    split
    · exact (List.Perm.cons _ ih).trans (List.Perm.swap _ _ _)
    · exact List.Perm.refl _

theorem mapFind_foldl_mapErase (k : Nat) :
    ∀ (evicted : List Nat) (live : List (Nat × LogEntry)),
      mapFind (evicted.foldl mapErase live) k =
        if k ∈ evicted then none else mapFind live k := by
  intro evicted
  induction evicted with
  | nil => intro live; simp
  | cons x xs ih =>
    intro live
    rw [List.foldl_cons, ih, mapFind_mapErase]
    by_cases h1 : k ∈ xs
    · simp [h1]
    · by_cases h2 : x = k
      · simp [h2]
      · have h3 : ¬ k = x := fun e => h2 e.symm
        simp [h1, h2, h3]

theorem shrinkLoop_spec (M P : Nat) :
    ∀ (ls : List Nat) (live : List (Nat × LogEntry)),
      ∃ evicted, ls = evicted ++ (shrinkLoop M P ls live).1 ∧
        (∀ x ∈ evicted, x < P) ∧
        (shrinkLoop M P ls live).2 = evicted.foldl mapErase live ∧
        (evicted ≠ [] → M < ls.length ∧ M ≤ (shrinkLoop M P ls live).1.length) ∧
        ((shrinkLoop M P ls live).1.length ≤ M ∨
          ∃ front rest, (shrinkLoop M P ls live).1 = front :: rest ∧ P ≤ front) := by
  intro ls
  induction ls with
  | nil =>
    intro live
    exact ⟨[], rfl, by simp, rfl, fun h => absurd rfl h, Or.inl (Nat.zero_le _)⟩
  | cons front rest ih =>
    intro live
    by_cases hc : (front :: rest).length > M ∧ front < P
    · obtain ⟨ev, h1, h2, h3, h4, h5⟩ := ih (mapErase live front)
      have hun : shrinkLoop M P (front :: rest) live =
          shrinkLoop M P rest (mapErase live front) := by
        rw [shrinkLoop, if_pos hc]
      rw [hun]
      refine ⟨front :: ev, ?_, ?_, ?_, ?_, h5⟩
      · rw [List.cons_append, ← h1]
      · intro x hx
        rcases List.mem_cons.mp hx with rfl | hx
        · exact hc.2
        · exact h2 x hx
      · rw [h3, List.foldl_cons]
      · intro _
        refine ⟨hc.1, ?_⟩
        by_cases hev : ev = []
        · subst hev
          have hlen : rest.length =
              (shrinkLoop M P rest (mapErase live front)).1.length := by
            rw [List.nil_append] at h1
            exact congrArg List.length h1
          have := hc.1
          simp only [List.length_cons] at this
          omega
        · exact (h4 hev).2
    · have hun : shrinkLoop M P (front :: rest) live = (front :: rest, live) := by
        rw [shrinkLoop, if_neg hc]
      rw [hun]
      refine ⟨[], rfl, by simp, rfl, fun h => absurd rfl h, ?_⟩
      by_cases hlen : (front :: rest).length ≤ M
      · exact Or.inl hlen
      · right
        refine ⟨front, rest, rfl, ?_⟩
        by_contra hlt
        exact hc ⟨by omega, by omega⟩

theorem dropWhile_lt_eq_filter (P : Nat) :
    ∀ l : List Nat, l.Pairwise (fun a b => a ≤ b) →
      l.dropWhile (fun x => decide (x < P)) = l.filter (fun x => decide (P ≤ x)) := by
  intro l
  induction l with
  | nil => intro _; rfl
  | cons x xs ih =>
    intro hs
    obtain ⟨hx, hxs⟩ := List.pairwise_cons.mp hs
    by_cases h : x < P
    · have h' : ¬ P ≤ x := Nat.not_le.mpr h
      rw [List.dropWhile_cons_of_pos (by simpa using h), ih hxs,
        List.filter_cons_of_neg (by simpa using h')]
    · have h' : P ≤ x := Nat.le_of_not_lt h
      rw [List.dropWhile_cons_of_neg (by simpa using h)]
      symm
      apply List.filter_eq_self.mpr
      intro a ha
      rcases List.mem_cons.mp ha with rfl | ha
      · simpa using h'
      · have := hx a ha
        simp only [decide_eq_true_eq]
        omega

theorem grabLoop_spec (live : List (Nat × LogEntry)) :
    ∀ (l : List Nat) (acc : List LogEntry),
      (∀ x ∈ l, (mapFind live x).isSome) →
      ∃ entries, grabLoop live l acc = some (acc ++ entries) ∧
        entries.map some = l.map (mapFind live) := by
  intro l
  induction l with
  | nil => intro acc _; exact ⟨[], by simp [grabLoop], rfl⟩
  | cons x xs ih =>
    intro acc h
    obtain ⟨e, he⟩ := Option.isSome_iff_exists.mp (h x (List.mem_cons_self _ _))
    obtain ⟨es, h1, h2⟩ := ih (acc ++ [e]) (fun y hy => h y (List.mem_cons_of_mem _ hy))
    refine ⟨e :: es, ?_, ?_⟩
    · simp only [grabLoop, he, h1, List.append_assoc, List.singleton_append]
    · simp only [List.map_cons, he, h2]

theorem exampleStored_by_Store :
    exampleStorage.Store (exampleMeta 7) [42] [120, 121] = some (exampleStored, true) := rfl

theorem removePendingLoop_stuck (shard : Nat) (localid : Nat) (entry : LogEntry)
    (rest : List (Nat × LogEntry)) (h : HighHalf64 localid ≠ shard) :
    ∀ rounds, removePendingLoop shard ((localid, entry) :: rest) rounds =
      RemoveOutcome.looping := by
  intro rounds
  induction rounds with
  | zero => rfl
  | succ n ih => rw [removePendingLoop, if_neg h, ih]

theorem removePendingLoop_returned (shard : Nat) (pending out : List (Nat × LogEntry)) :
    ∀ rounds, removePendingLoop shard pending rounds = RemoveOutcome.returned out →
      pending = [] ∧ out = [] := by
  intro rounds
  induction rounds with
  | zero => intro h; cases h
  | succ n ih =>
    intro h
    cases pending with
    | nil =>
      simp only [removePendingLoop, RemoveOutcome.returned.injEq] at h
      exact ⟨rfl, h.symm⟩
    | cons hd tl =>
      obtain ⟨k, e⟩ := hd
      by_cases hk : HighHalf64 k = shard
      · rw [removePendingLoop, if_pos hk] at h
        cases h
      · rw [removePendingLoop, if_neg hk] at h
        exact ih h

/-! ### Queued reads -/

theorem failPastReads_spec (start : Nat) :
    ∀ (queue : List (Nat × SharedLogMessage)) (results : List ReadResult),
      queue.Pairwise (fun a b => a.1 ≤ b.1) →
      failPastReads start queue results =
        (queue.filter (fun kv => decide (start ≤ kv.1)),
         results ++ (queue.filter (fun kv => decide (kv.1 < start))).map
           (fun kv => { status := ReadStatus.kFailed, log_entry := none
                        original_request := kv.2 })) := by
  intro queue
  induction queue with
  | nil => intro results _; simp [failPastReads]
  | cons hd tl ih =>
    intro results hs
    obtain ⟨k, r⟩ := hd
    obtain ⟨hk, htl⟩ := List.pairwise_cons.mp hs
    by_cases h : k < start
    · have h' : ¬ start ≤ k := Nat.not_le.mpr h
      rw [failPastReads, if_pos h, ih _ htl,
        List.filter_cons_of_neg (by simpa using h'),
        List.filter_cons_of_pos (by simpa using h)]
      simp
    · have h' : start ≤ k := Nat.le_of_not_lt h
      rw [failPastReads, if_neg h]
      have h1 : ((k, r) :: tl).filter (fun kv => decide (start ≤ kv.1)) = (k, r) :: tl := by
        apply List.filter_eq_self.mpr
        intro a ha
        rcases List.mem_cons.mp ha with rfl | ha
        · simpa using h'
        · have := hk a ha
          simp only [decide_eq_true_eq]
          exact le_trans h' this
      have h2 : ((k, r) :: tl).filter (fun kv => decide (kv.1 < start)) = [] := by
        apply List.filter_eq_nil_iff.mpr
        intro a ha
        rcases List.mem_cons.mp ha with rfl | ha
        · simpa using h'
        · have := hk a ha
          simp only [decide_eq_true_eq, not_lt]
          exact le_trans h' this
      rw [h1, h2]
      simp

theorem serveReads_spec (seqnum : Nat) (entry : LogEntry) :
    ∀ (queue : List (Nat × SharedLogMessage)) (results : List ReadResult),
      queue.Pairwise (fun a b => a.1 ≤ b.1) → (∀ kv ∈ queue, seqnum ≤ kv.1) →
      serveReads seqnum entry queue results =
        (queue.filter (fun kv => decide (kv.1 ≠ seqnum)),
         results ++ (queue.filter (fun kv => decide (kv.1 = seqnum))).map
           (fun kv => { status := ReadStatus.kOK, log_entry := some entry
                        original_request := kv.2 })) := by
  intro queue
  induction queue with
  | nil => intro results _ _; simp [serveReads]
  | cons hd tl ih =>
    intro results hs hge
    obtain ⟨k, r⟩ := hd
    obtain ⟨hk, htl⟩ := List.pairwise_cons.mp hs
    by_cases h : k = seqnum
    · rw [serveReads, if_pos h, ih _ htl (fun kv hkv => hge kv (List.mem_cons_of_mem _ hkv)),
        List.filter_cons_of_neg (by simpa using h),
        List.filter_cons_of_pos (by simpa using h)]
      simp
    · have hgt : seqnum < k := by
        have := hge (k, r) (List.mem_cons_self _ _)
        simp only at this
        omega
      rw [serveReads, if_neg h]
      have h1 : ((k, r) :: tl).filter (fun kv => decide (kv.1 ≠ seqnum)) = (k, r) :: tl := by
        apply List.filter_eq_self.mpr
        intro a ha
        rcases List.mem_cons.mp ha with rfl | ha
        · simpa using h
        · have := hk a ha
          simp only [ne_eq, decide_not, Bool.not_eq_true', decide_eq_false_iff_not]
          omega
      have h2 : ((k, r) :: tl).filter (fun kv => decide (kv.1 = seqnum)) = [] := by
        apply List.filter_eq_nil_iff.mpr
        intro a ha
        rcases List.mem_cons.mp ha with rfl | ha
        · simpa using h
        · have := hk a ha
          simp only [decide_eq_true_eq]
          omega
      rw [h1, h2]
      simp

theorem sorted_filter_split (a B : Nat) (hB : a < B) :
    ∀ (l : List (Nat × SharedLogMessage)),
      l.Pairwise (fun x y => x.1 ≤ y.1) → (∀ kv ∈ l, a ≤ kv.1) →
      l.filter (fun kv => decide (kv.1 < B)) =
        l.filter (fun kv => decide (kv.1 = a)) ++
          (l.filter (fun kv => decide (kv.1 ≠ a))).filter (fun kv => decide (kv.1 < B)) := by
  intro l
  induction l with
  | nil => intro _ _; rfl
  | cons hd tl ih =>
    intro hs hge
    obtain ⟨k, r⟩ := hd
    obtain ⟨hk, htl⟩ := List.pairwise_cons.mp hs
    have ihtl := ih htl (fun kv hkv => hge kv (List.mem_cons_of_mem _ hkv))
    by_cases h : k = a
    · have hlt : k < B := by omega
      rw [List.filter_cons_of_pos (by simpa using hlt),
        List.filter_cons_of_pos (by simpa using h),
        List.filter_cons_of_neg (by simpa using h), ihtl]
      rfl
    · have hgt : a < k := by
        have := hge (k, r) (List.mem_cons_self _ _)
        simp only at this
        omega
      have h1 : ((k, r) :: tl).filter (fun kv => decide (kv.1 ≠ a)) = (k, r) :: tl := by
        apply List.filter_eq_self.mpr
        intro x hx
        rcases List.mem_cons.mp hx with rfl | hx
        · simpa using h
        · have := hk x hx
          simp only [ne_eq, decide_not, Bool.not_eq_true', decide_eq_false_iff_not]
          omega
      have h2 : ((k, r) :: tl).filter (fun kv => decide (kv.1 = a)) = [] := by
        apply List.filter_eq_nil_iff.mpr
        intro x hx
        rcases List.mem_cons.mp hx with rfl | hx
        · simpa using h
        · have := hk x hx
          simp only [decide_eq_true_eq]
          omega
      rw [h1, h2, List.nil_append]

theorem storageLoop_reads (M ss sl : Nat) :
    ∀ (n j : Nat) (s : LogStorage), j + n ≤ 2 ^ 32 → ss + j + n ≤ 2 ^ 64 →
      s.pending_read_requests.Pairwise (fun a b => a.1 ≤ b.1) →
      (∀ kv ∈ s.pending_read_requests, ss + j ≤ kv.1) →
      (∀ k, j ≤ k → k < j + n → (mapFind s.pending_log_entries (add64 sl k)).isSome) →
      ∃ s', LogStorage.newLogsLoop M ss sl n j s = some s' ∧
        s'.pending_read_requests =
          s.pending_read_requests.filter (fun kv => decide (ss + j + n ≤ kv.1)) ∧
        s'.pending_read_results = s.pending_read_results ++
          (s.pending_read_requests.filter (fun kv => decide (kv.1 < ss + j + n))).map
            (fun kv => { status := ReadStatus.kOK
                         log_entry := finalizedEntry s.pending_log_entries ss sl kv.1
                         original_request := kv.2 }) := by
  intro n
  induction n with
  | zero =>
    intro j s _ _ _ hge _
    refine ⟨s, rfl, ?_, ?_⟩
    · symm
      apply List.filter_eq_self.mpr
      intro kv hkv
      simpa using hge kv hkv
    · have : s.pending_read_requests.filter (fun kv => decide (kv.1 < ss + j + 0)) = [] := by
        apply List.filter_eq_nil_iff.mpr
        intro kv hkv
        have := hge kv hkv
        simp only [decide_eq_true_eq]
        omega
      rw [this]
      simp
  | succ n ih =>
    intro j s hb hw hsorted hge hpend
    obtain ⟨pe, hpe⟩ := Option.isSome_iff_exists.mp (hpend j (le_refl _) (by omega))
    obtain ⟨s1, hstep, hp1, -, -, -, -, hq1, hr1⟩ := storageLoop_step M ss sl n j s pe hpe
    have hadd : add64 ss j = ss + j := by
      unfold add64
      omega
    rw [hadd, serveReads_spec (ss + j) _ _ _ hsorted hge] at hq1 hr1
    simp only at hq1 hr1
    have hq1mem : ∀ kv ∈ s1.pending_read_requests, ss + (j + 1) ≤ kv.1 := by
      intro kv hkv
      rw [hq1] at hkv
      obtain ⟨hm, hne⟩ := List.mem_filter.mp hkv
      have := hge kv hm
      simp only [ne_eq, decide_not, Bool.not_eq_true', decide_eq_false_iff_not] at hne
      omega
    have hfin : ∀ k, j + 1 ≤ k → k < j + 1 + n →
        mapFind s1.pending_log_entries (add64 sl k) =
          mapFind s.pending_log_entries (add64 sl k) := by
      intro k hk1 hk2
      rw [hp1, mapFind_mapErase,
        if_neg (add64_ne sl j k (by omega) (by omega) (by omega))]
    obtain ⟨s', hloop, hq', hr'⟩ := ih (j + 1) s1 (by omega) (by omega)
      (by rw [hq1]; exact List.Pairwise.filter _ hsorted) hq1mem
      (fun k hk1 hk2 => by rw [hfin k hk1 hk2]; exact hpend k (by omega) (by omega))
    have e : ss + (j + 1) + n = ss + j + (n + 1) := by omega
    rw [e] at hq' hr'
    refine ⟨s', by rw [hstep]; exact hloop, ?_, ?_⟩
    · rw [hq', hq1, List.filter_filter]
      apply List.filter_congr
      intro kv hkv
      have := hge kv hkv
      by_cases hk : ss + j + (n + 1) ≤ kv.1
      · have hne : kv.1 ≠ ss + j := by omega
        simp [hk, hne]
      · simp [hk]
    · rw [hr', hr1, hq1,
        sorted_filter_split (ss + j) (ss + j + (n + 1)) (by omega) _ hsorted hge,
        List.map_append, List.append_assoc]
      congr 2
      · apply List.map_congr_left
        intro kv hkv
        obtain ⟨_, hk⟩ := List.mem_filter.mp hkv
        simp only [decide_eq_true_eq] at hk
        have hfe : finalizedEntry s.pending_log_entries ss sl kv.1 =
            some { pe with metadata := { pe.metadata with seqnum := ss + j } } := by
          unfold finalizedEntry
          rw [hk, Nat.add_sub_cancel_left, hpe]
          rfl
        rw [hfe]
      · apply List.map_congr_left
        intro kv hkv
        obtain ⟨hkv1, hlt⟩ := List.mem_filter.mp hkv
        obtain ⟨hm, hne⟩ := List.mem_filter.mp hkv1
        have hge' := hge kv hm
        simp only [ne_eq, decide_not, Bool.not_eq_true', decide_eq_false_iff_not] at hne
        simp only [decide_eq_true_eq] at hlt
        have hfe : finalizedEntry s1.pending_log_entries ss sl kv.1 =
            finalizedEntry s.pending_log_entries ss sl kv.1 := by
          unfold finalizedEntry
          rw [hfin (kv.1 - ss) (by omega) (by omega)]
        rw [hfe]

/-! ### The live set -/

theorem mapSet_keys_new {ν : Type} (k : Nat) (v : ν) :
    ∀ m : List (Nat × ν), mapFind m k = none →
      (mapSet m k v).map Prod.fst = m.map Prod.fst ++ [k] := by
  intro m
  induction m with
  | nil => intro _; rfl
  | cons hd tl ih =>
    intro h
    obtain ⟨a, b⟩ := hd
    by_cases hak : a = k
    · simp [mapFind, hak] at h
    · simp only [mapFind, if_neg hak] at h
      simp only [mapSet, if_neg hak, List.map_cons, ih h, List.cons_append]

theorem mapErase_keys {ν : Type} (k : Nat) (m : List (Nat × ν)) :
    (mapErase m k).map Prod.fst = (m.map Prod.fst).filter (fun x => decide (x ≠ k)) := by
  unfold mapErase
  rw [List.filter_map]
  rfl

theorem mem_keys_isSome {ν : Type} (k : Nat) :
    ∀ m : List (Nat × ν), k ∈ m.map Prod.fst → (mapFind m k).isSome := by
  intro m
  induction m with
  | nil => intro h; cases h
  | cons hd tl ih =>
    intro h
    obtain ⟨a, b⟩ := hd
    by_cases hak : a = k
    · simp [mapFind, hak]
    · simp only [mapFind, if_neg hak]
      simp only [List.map_cons, List.mem_cons] at h
      rcases h with h | h
      · exact absurd h.symm hak
      · exact ih h

theorem perm_filter_ne_head (keys : List Nat) (a : Nat) (r : List Nat)
    (hp : keys.Perm (a :: r)) (hn : (a :: r).Nodup) :
    (keys.filter (fun x => decide (x ≠ a))).Perm r := by
  have h1 := List.Perm.filter (fun x => decide (x ≠ a)) hp
  have h2 : (a :: r).filter (fun x => decide (x ≠ a)) = r := by
    rw [List.filter_cons_of_neg (by simp)]
    apply List.filter_eq_self.mpr
    intro x hx
    have : x ≠ a := fun e => (List.nodup_cons.mp hn).1 (e ▸ hx)
    simpa using this
  rw [h2] at h1
  exact h1

theorem shrinkLoop_inv (M P : Nat) :
    ∀ (ls : List Nat) (live : List (Nat × LogEntry)),
      ls.Pairwise (fun a b => a < b) → (live.map Prod.fst).Perm ls →
      (shrinkLoop M P ls live).1.Pairwise (fun a b => a < b) ∧
      ((shrinkLoop M P ls live).2.map Prod.fst).Perm (shrinkLoop M P ls live).1 ∧
      shrinkDchecks M P ls live = true ∧
      ∀ x ∈ (shrinkLoop M P ls live).1, x ∈ ls := by
  intro ls
  induction ls with
  | nil =>
    intro live h1 h2
    exact ⟨h1, h2, rfl, fun _ h => h⟩
  | cons front rest ih =>
    intro live h1 h2
    by_cases hc : (front :: rest).length > M ∧ front < P
    · have hnd : (front :: rest).Nodup :=
        List.Pairwise.imp (fun h => Nat.ne_of_lt h) h1
      have hperm : ((mapErase live front).map Prod.fst).Perm rest := by
        rw [mapErase_keys]
        exact perm_filter_ne_head _ front rest h2 hnd
      obtain ⟨i1, i2, i3, i4⟩ := ih (mapErase live front) (List.pairwise_cons.mp h1).2 hperm
      have hun : shrinkLoop M P (front :: rest) live =
          shrinkLoop M P rest (mapErase live front) := by
        rw [shrinkLoop, if_pos hc]
      rw [hun]
      refine ⟨i1, i2, ?_, fun x hx => List.mem_cons_of_mem _ (i4 x hx)⟩
      rw [shrinkDchecks, if_pos hc, i3, Bool.and_true]
      have hlen := List.Perm.length_eq hperm
      rw [List.length_map] at hlen
      simpa using hlen.symm
    · have hun : shrinkLoop M P (front :: rest) live = (front :: rest, live) := by
        rw [shrinkLoop, if_neg hc]
      rw [hun]
      refine ⟨h1, h2, ?_, fun _ h => h⟩
      rw [shrinkDchecks, if_neg hc]

theorem storageLoop_one (M ss sl n j : Nat) (s : LogStorage) :
    LogStorage.newLogsLoop M ss sl (n + 1) j s =
      (LogStorage.newLogsLoop M ss sl 1 j s).bind (LogStorage.newLogsLoop M ss sl n (j + 1)) := by
  cases hp : mapFind s.pending_log_entries (add64 sl j) with
  | none => simp only [LogStorage.newLogsLoop, hp, Option.bind]
  | some pe => simp only [LogStorage.newLogsLoop, hp, Option.bind]

theorem newLogsLoop_inv (M ss sl : Nat) :
    ∀ (n j : Nat) (s s' : LogStorage), LiveInv s → (∀ x ∈ s.live_seqnums, x < ss + j) →
      ss + j + n ≤ 2 ^ 64 → LogStorage.newLogsLoop M ss sl n j s = some s' →
      LiveInv s' ∧ LogStorage.newLogsDchecks M ss sl n j s = true ∧
        ∀ x ∈ s'.live_seqnums, x < ss + j + n := by
  intro n
  induction n with
  | zero =>
    intro j s s' hinv hlt _ h
    simp only [LogStorage.newLogsLoop, Option.some.injEq] at h
    subst h
    exact ⟨hinv, rfl, fun x hx => by have := hlt x hx; omega⟩
  | succ n ih =>
    intro j s s' hinv hlt hw h
    cases hp : mapFind s.pending_log_entries (add64 sl j) with
    | none =>
      simp only [LogStorage.newLogsLoop, hp] at h
      cases h
    | some pe =>
      obtain ⟨s1, hstep0, -, hl1, hs1, -⟩ := storageLoop_step M ss sl 0 j s pe hp
      have h1 : LogStorage.newLogsLoop M ss sl 1 j s = some s1 := by
        rw [hstep0]
        rfl
      rw [storageLoop_one, h1] at h
      simp only [Option.bind] at h
      have hadd : add64 ss j = ss + j := by
        unfold add64
        omega
      rw [hadd] at hl1 hs1
      have hnew : mapFind s.live_log_entries (ss + j) = none := by
        cases hf : mapFind s.live_log_entries (ss + j) with
        | none => rfl
        | some e =>
          have hk : ss + j ∈ s.live_log_entries.map Prod.fst :=
            mapFind_isSome_mem _ _ (by rw [hf]; rfl)
          have := hlt _ ((List.Perm.mem_iff hinv.2).mp hk)
          omega
      have hpw : (s.live_seqnums ++ [ss + j]).Pairwise (fun a b => a < b) := by
        apply List.pairwise_append.mpr
        refine ⟨hinv.1, List.pairwise_singleton _ _, ?_⟩
        intro a ha b hb
        rw [List.mem_singleton] at hb
        rw [hb]
        exact hlt a ha
      have hperm : ((mapSet s.live_log_entries (ss + j)
          { pe with metadata := { pe.metadata with seqnum := ss + j } }).map Prod.fst).Perm
          (s.live_seqnums ++ [ss + j]) := by
        rw [mapSet_keys_new _ _ _ hnew]
        exact List.Perm.append_right _ hinv.2
      obtain ⟨k1, k2, k3, k4⟩ := shrinkLoop_inv M s.persisted_seqnum_position _ _ hpw hperm
      have hinv1 : LiveInv s1 := ⟨by rw [hs1]; exact k1, by rw [hl1, hs1]; exact k2⟩
      have hlt1 : ∀ x ∈ s1.live_seqnums, x < ss + (j + 1) := by
        rw [hs1]
        intro x hx
        rcases List.mem_append.mp (k4 x hx) with hx' | hx'
        · have := hlt x hx'
          omega
        · rw [List.mem_singleton] at hx'
          omega
      obtain ⟨r1, r2, r3⟩ := ih (j + 1) s1 s' hinv1 hlt1 (by omega) h
      refine ⟨r1, ?_, fun x hx => by have := r3 x hx; omega⟩
      have hlenchk : (s.live_seqnums ++ [ss + j]).length =
          (mapSet s.live_log_entries (ss + j)
            { pe with metadata := { pe.metadata with seqnum := ss + j } }).length := by
        have := List.Perm.length_eq hperm
        rw [List.length_map] at this
        exact this.symm
      have hback : (match s.live_seqnums.getLast? with
          | none => true
          | some back => decide (ss + j > back)) = true := by
        cases hlast : s.live_seqnums.getLast? with
        | none => rfl
        | some back =>
          have := hlt back (List.mem_of_getLast?_eq_some hlast)
          simpa using this
      simp only [LogStorage.newLogsDchecks, hp, h1, r2, hadd, k3, Bool.and_true, hback,
        hlenchk, decide_True]

theorem LiveInv_Shrink (M : Nat) (s : LogStorage) (h : LiveInv s) :
    LiveInv (LogStorage.ShrinkLiveEntriesIfNeeded M s) ∧
      shrinkDchecks M s.persisted_seqnum_position s.live_seqnums s.live_log_entries = true := by
  obtain ⟨k1, k2, k3, -⟩ := shrinkLoop_inv M s.persisted_seqnum_position _ _ h.1 h.2
  exact ⟨⟨k1, k2⟩, k3⟩

theorem LiveInv_OnNewLogs (M : Nat) (s s' : LogStorage) (ms ss sl delta shard : Nat)
    (hinv : LiveInv s) (hw : ss + delta ≤ 2 ^ 64) (hasc : ∀ x ∈ s.live_seqnums, x < ss)
    (h : LogStorage.OnNewLogs M s ms ss sl delta shard = some s') :
    LiveInv s' ∧
      LogStorage.newLogsDchecks M ss sl delta 0
        { s with
          pending_read_requests :=
            (failPastReads ss s.pending_read_requests s.pending_read_results).1
          pending_read_results :=
            (failPastReads ss s.pending_read_requests s.pending_read_results).2 } = true := by
  obtain ⟨s1, hloop, -, hl, hs, -⟩ := OnNewLogs_loop M s s' ms ss sl delta shard h
  obtain ⟨r1, r2, -⟩ := newLogsLoop_inv M ss sl delta 0
    { s with
      pending_read_requests :=
        (failPastReads ss s.pending_read_requests s.pending_read_results).1
      pending_read_results :=
        (failPastReads ss s.pending_read_requests s.pending_read_results).2 }
    s1 hinv (fun x hx => by have := hasc x hx; omega) (by omega) hloop
  refine ⟨⟨by rw [hs]; exact r1.1, by rw [hl, hs]; exact r1.2⟩, r2⟩

theorem ReadAt_live (s : LogStorage) (request : SharedLogMessage) :
    (s.ReadAt request).live_seqnums = s.live_seqnums ∧
      (s.ReadAt request).live_log_entries = s.live_log_entries := by
  by_cases h : JoinTwo32 request.logspace_id request.seqnum_lowhalf ≥ s.seqnum_position
  · simp only [LogStorage.ReadAt, h, if_true, and_self]
  · simp only [LogStorage.ReadAt, h, if_false, and_self]

theorem LiveInv_step (M : Nat) (s s' : LogStorage) (op : StorageOp) (hinv : LiveInv s)
    (hasc : ascendingNewLogs M s [op] = true) (h : storageStep M s op = some s') :
    LiveInv s' := by
  cases op with
  | store md tags data =>
    simp only [storageStep, Option.map_eq_some', Prod.exists, exists_and_right,
      exists_eq_right] at h
    obtain ⟨b, hb⟩ := h
    obtain ⟨-, hl, hs, -⟩ := Store_frame s s' md tags data b hb
    exact ⟨by rw [hs]; exact hinv.1, by rw [hl, hs]; exact hinv.2⟩
  | readAt request =>
    simp only [storageStep, Option.some.injEq] at h
    subst h
    obtain ⟨hs, hl⟩ := ReadAt_live s request
    exact ⟨by rw [hs]; exact hinv.1, by rw [hl, hs]; exact hinv.2⟩
  | newLogs ms ss sl delta shard =>
    simp only [storageStep] at h
    simp only [ascendingNewLogs, storageStep, h, Bool.and_true, decide_eq_true_eq] at hasc
    exact (LiveInv_OnNewLogs M s s' ms ss sl delta shard hinv hasc.1 hasc.2 h).1
  | metaLogApplied p =>
    simp only [storageStep, Option.some.injEq] at h
    subst h
    unfold LogStorage.OnMetaLogApplied
    split
    · split
      · exact hinv
      · exact hinv
    · exact hinv
  | entriesPersisted new_position =>
    simp only [storageStep, Option.some.injEq] at h
    subst h
    exact (LiveInv_Shrink M { s with persisted_seqnum_position := new_position } hinv).1
  | shrink =>
    simp only [storageStep, Option.some.injEq] at h
    subst h
    exact (LiveInv_Shrink M s hinv).1

theorem LiveInv_run (M : Nat) :
    ∀ (ops : List StorageOp) (s s' : LogStorage), LiveInv s →
      ascendingNewLogs M s ops = true → storageRun M s ops = some s' → LiveInv s' := by
  intro ops
  induction ops with
  | nil =>
    intro s s' hinv _ h
    simp only [storageRun, Option.some.injEq] at h
    subst h
    exact hinv
  | cons op ops ih =>
    intro s s' hinv hasc h
    cases hst : storageStep M s op with
    | none =>
      simp only [storageRun, hst] at h
      cases h
    | some s1 =>
      simp only [storageRun, hst] at h
      simp only [ascendingNewLogs, hst, Bool.and_eq_true] at hasc
      have hone : ascendingNewLogs M s [op] = true := by
        simp only [ascendingNewLogs, hst, Bool.and_true]
        exact hasc.1
      exact ih s1 s' (LiveInv_step M s s1 op hinv hone hst) hasc.2 h

theorem LiveInv_create (v : View) (storage_id sequencer_id : Nat) (s : LogStorage)
    (h : LogStorage.create v storage_id sequencer_id = some s) : LiveInv s := by
  unfold LogStorage.create at h
  cases hg : v.GetStorageNode storage_id with
  | none =>
    simp only [hg] at h
    cases h
  | some node =>
    simp only [hg, Option.some.injEq] at h
    subst h
    exact ⟨List.Pairwise.nil, List.Perm.refl _⟩

theorem LiveInv_keys (s : LogStorage) (h : LiveInv s) :
    (∀ k, k ∈ s.live_seqnums ↔ (mapFind s.live_log_entries k).isSome) ∧
      s.live_seqnums.length = s.live_log_entries.length := by
  refine ⟨fun k => ⟨fun hk => mem_keys_isSome k _ ((List.Perm.mem_iff h.2).mpr hk),
    fun hk => (List.Perm.mem_iff h.2).mp (mapFind_isSome_mem _ _ hk)⟩, ?_⟩
  have := List.Perm.length_eq h.2
  rw [List.length_map] at this
  exact this.symm

theorem grabLoop_isSome (live : List (Nat × LogEntry)) (l : List Nat) (acc : List LogEntry)
    (h : ∀ x ∈ l, (mapFind live x).isSome) : (grabLoop live l acc).isSome := by
  obtain ⟨es, he, -⟩ := grabLoop_spec live l acc h
  rw [he]
  rfl

theorem Grab_isSome (s : LogStorage) (h : LiveInv s) (out : List LogEntry) (pos : Nat) :
    (s.GrabLogEntriesForPersistence out pos).isSome := by
  unfold LogStorage.GrabLogEntriesForPersistence
  cases s.live_seqnums.getLast? with
  | none => rfl
  | some back =>
    simp only
    split
    · rfl
    · have := grabLoop_isSome s.live_log_entries
        (s.live_seqnums.dropWhile (fun x => decide (x < s.persisted_seqnum_position))) []
        (fun x hx => ((LiveInv_keys s h).1 x).mp
          ((List.dropWhile_sublist _).subset hx))
      obtain ⟨es, hes⟩ := Option.isSome_iff_exists.mp this
      rw [hes]
      rfl

/-! ### Monotonicity of the committed metalog position -/

theorem upperMedian_raise (mp : List (Nat × Nat)) (sid old pos a b : Nat)
    (hold : mapFind mp sid = some old) (hlt : old < pos)
    (ha : upperMedian (mp.map Prod.snd) = some a)
    (hb : upperMedian ((mapSet mp sid pos).map Prod.snd) = some b) : a ≤ b := by
  by_contra hba
  obtain ⟨a1, _⟩ := upperMedian_counts _ _ ha
  obtain ⟨_, b2⟩ := upperMedian_counts _ _ hb
  obtain ⟨hl, hk⟩ := countP_mapSet (fun x => decide (x ≤ b)) pos mp sid old hold
  have hmono : (mp.map Prod.snd).countP (fun x => decide (x ≤ b)) ≤
      (mp.map Prod.snd).countP (fun x => decide (x < a)) := by
    apply List.countP_mono_left
    intro x _ hx
    simp only [decide_eq_true_eq] at hx ⊢
    omega
  rw [hl] at b2
  by_cases h1 : pos ≤ b
  · have h2 : old ≤ b := by omega
    simp only [h1, h2, decide_True, if_true] at hk
    omega
  · by_cases h2 : old ≤ b
    · simp only [h1, h2, decide_True, decide_False, if_true, Bool.false_eq_true,
        if_false] at hk
      omega
    · simp only [h1, h2, decide_False, Bool.false_eq_true, if_false] at hk
      omega

theorem mem_values_of_mem {κ : Type} (mp : List (κ × Nat)) (kv : κ × Nat) (h : kv ∈ mp) :
    kv.2 ∈ mp.map Prod.snd :=
  List.mem_map.mpr ⟨kv, h, rfl⟩

theorem ReplicaBound_create (v : View) (q : Sequencer) (m : MetaLogPrimary)
    (h : MetaLogPrimary.create v q = some m) : ReplicaBound m := by
  unfold MetaLogPrimary.create at h
  cases hids : v.GetStorageShardIds q.node_id with
  | none => simp [hids] at h
  | some shard_ids =>
    simp only [hids] at h
    cases hinit : initShards v q.node_id shard_ids ([], []) with
    | none => simp [hinit] at h
    | some r =>
      obtain ⟨sp, lc⟩ := r
      simp only [hinit, Option.some.injEq] at h
      subst h
      obtain ⟨_, _, h3⟩ := initReplicas_spec q.replica_sequencer_nodes []
      refine ⟨fun kv hkv => ?_, Nat.le_refl _⟩
      have := h3 (by simp) kv.2 (mem_values_of_mem _ kv hkv)
      show kv.2 ≤ 0
      omega

theorem MarkNextCut_position (v : View) (q : Sequencer) (m m' : MetaLogPrimary)
    (out : Option MetaLogProto) (h : MarkNextCut v q m = some (m', out)) :
    m.metalog_position ≤ m'.metalog_position := by
  unfold MarkNextCut at h
  cases hemp : m.dirty_shards.isEmpty with
  | true =>
    simp only [hemp, if_true, Option.some.injEq, Prod.mk.injEq] at h
    obtain ⟨rfl, _⟩ := h
    exact Nat.le_refl _
  | false =>
    simp only [hemp, Bool.false_eq_true, if_false] at h
    cases hloop : cutLoop v q m.dirty_shards
        (m, { start_seqnum := LowHalf64 m.seqnum_position
              shard_ids := [], shard_starts := [], shard_deltas := [] }, 0) with
    | none => simp [hloop] at h
    | some r =>
      obtain ⟨m1, nl, total⟩ := r
      simp only [hloop, ProvideMetaLog, Option.some.injEq, Prod.mk.injEq] at h
      obtain ⟨hm, _⟩ := h
      obtain ⟨_, _, h3⟩ := cutLoop_frame v q _ _ _ _ _ _ _ hloop
      subst hm
      rw [h3]
      exact Nat.le_succ _

theorem ReplicaBound_UpdateReplicaProgress (q : Sequencer) (m m' : MetaLogPrimary)
    (sid pos : Nat) (hi : MedInv q m) (hb : ReplicaBound m)
    (h : UpdateReplicaProgress q m sid pos = some m') :
    ReplicaBound m' ∧ m.replicated_metalog_position ≤ m'.replicated_metalog_position ∧
      m'.metalog_position = m.metalog_position ∧
      (pos ≤ (mapFind m.metalog_progresses sid).getD 0 → m' = m) := by
  obtain ⟨hmem, hle, hcase⟩ := UpdateReplicaProgress_spec q m m' sid pos h
  have hkey := hi.keys sid hmem
  have htouch := mapTouch_of_isSome m.metalog_progresses sid 0 hkey
  rw [htouch] at hcase
  obtain ⟨old, hold⟩ := Option.isSome_iff_exists.mp hkey
  rcases hcase with rfl | ⟨hlt, hupd⟩
  · exact ⟨hb, Nat.le_refl _, rfl, fun _ => rfl⟩
  · have hlt' : old < pos := by
      rw [hold] at hlt
      exact hlt
    have hne : m.metalog_progresses ≠ [] := by
      intro he
      rw [he] at hold
      simp [mapFind] at hold
    have hvals : ∀ kv ∈ mapSet m.metalog_progresses sid pos, kv.2 ≤ m.metalog_position := by
      intro kv hkv
      rcases mem_values_mapSet m.metalog_progresses sid pos kv.2
        (mem_values_of_mem _ kv hkv) with e | hin
      · omega
      · obtain ⟨kv', hkv', e⟩ := List.mem_map.mp hin
        have := hb.1 kv' hkv'
        omega
    have hnot : ¬ pos ≤ (mapFind m.metalog_progresses sid).getD 0 := by
      rw [hold]
      simp only [Option.getD_some]
      omega
    rcases UpdateMetaLogReplicatedPosition_spec _ m' hupd with ⟨rfl, _⟩ | ⟨r, hr, rfl⟩
    · exact ⟨⟨hvals, hb.2⟩, Nat.le_refl _, rfl, fun hc => absurd hc hnot⟩
    · have hr' : upperMedian ((mapSet m.metalog_progresses sid pos).map Prod.snd) = some r := hr
      have hmono := upperMedian_raise m.metalog_progresses sid old pos _ r hold hlt'
        (hi.median hne) hr'
      have hrle : r ≤ m.metalog_position := by
        obtain ⟨kv, hkv, e⟩ := List.mem_map.mp (upperMedian_mem _ r hr')
        have := hvals kv hkv
        omega
      exact ⟨⟨hvals, hrle⟩, hmono, rfl, fun hc => absurd hc hnot⟩

theorem ReplicaBound_step (v : View) (q : Sequencer) (m m' : MetaLogPrimary) (op : Op)
    (out : Option MetaLogProto) (hi : MedInv q m) (hb : ReplicaBound m)
    (hs : step v q m op = some (m', out)) :
    ReplicaBound m' ∧ m.replicated_metalog_position ≤ m'.replicated_metalog_position := by
  cases op with
  | block s =>
    simp only [step, Option.some.injEq, Prod.mk.injEq] at hs
    obtain ⟨rfl, _⟩ := hs
    rcases BlockShard_state m s with ⟨he, _⟩ | ⟨_, _, he⟩ <;> rw [he]
    · exact ⟨hb, Nat.le_refl _⟩
    · exact ⟨hb, Nat.le_refl _⟩
  | unblock s =>
    simp only [step, Option.some.injEq, Prod.mk.injEq] at hs
    obtain ⟨rfl, _⟩ := hs
    rcases UnblockShard_state m s with he | ⟨_, he⟩ <;> rw [he]
    · exact ⟨hb, Nat.le_refl _⟩
    · exact ⟨hb, Nat.le_refl _⟩
  | storageProgress id p =>
    simp only [step] at hs
    cases hu : UpdateStorageProgress v q m id p with
    | none => simp [hu] at hs
    | some m1 =>
      simp only [hu, Option.some.injEq, Prod.mk.injEq] at hs
      obtain ⟨rfl, _⟩ := hs
      obtain ⟨gs, hl⟩ := UpdateStorageProgress_loop v q m m1 id p hu
      rw [storageProgressLoop_frame v q id gs p m m1 hl]
      exact ⟨hb, Nat.le_refl _⟩
  | replicaProgress id p =>
    simp only [step] at hs
    cases hu : UpdateReplicaProgress q m id p with
    | none => simp [hu] at hs
    | some m1 =>
      simp only [hu, Option.some.injEq, Prod.mk.injEq] at hs
      obtain ⟨rfl, _⟩ := hs
      obtain ⟨r1, r2, _⟩ := ReplicaBound_UpdateReplicaProgress q m m1 id p hi hb hu
      exact ⟨r1, r2⟩
  | markNextCut =>
    obtain ⟨h1, h2, _, _⟩ := MarkNextCut_frame v q m m' out hs
    have h3 := MarkNextCut_position v q m m' out hs
    refine ⟨⟨fun kv hkv => ?_, ?_⟩, by rw [h2]⟩
    · rw [h1] at hkv
      exact le_trans (hb.1 kv hkv) h3
    · rw [h2]
      exact le_trans hb.2 h3

theorem ReplicaBound_run (v : View) (q : Sequencer) (ops : List Op) :
    ∀ (m m' : MetaLogPrimary) (es : List MetaLogProto), MedInv q m → ReplicaBound m →
      run v q m ops = some (m', es) →
      ReplicaBound m' ∧ m.replicated_metalog_position ≤ m'.replicated_metalog_position := by
  induction ops with
  | nil =>
    intro m m' es _ hb hr
    simp only [run, Option.some.injEq, Prod.mk.injEq] at hr
    obtain ⟨rfl, _⟩ := hr
    exact ⟨hb, Nat.le_refl _⟩
  | cons op ops ih =>
    intro m m' es hi hb hr
    obtain ⟨m1, out, es1, hs, hr1, _⟩ := run_cons v q m m' op ops es hr
    obtain ⟨b1, l1⟩ := ReplicaBound_step v q m m1 op out hi hb hs
    obtain ⟨b2, l2⟩ := ih m1 m' es1 (MedInv_step v q m m1 op out hi hs) b1 hr1
    exact ⟨b2, le_trans l1 l2⟩

theorem ReplicaBound_of_Reachable (v : View) (q : Sequencer) (m : MetaLogPrimary)
    (h : Reachable v q m) : ReplicaBound m := by
  obtain ⟨m0, ops, es, hc, hr⟩ := h
  exact (ReplicaBound_run v q ops m0 m es (MedInv_create v q m0 hc)
    (ReplicaBound_create v q m0 hc) hr).1

theorem UpdateReplicaProgress_total (q : Sequencer) (m : MetaLogPrimary) (sid pos : Nat)
    (hsid : sid ∈ q.replica_sequencer_nodes) (hpos : pos ≤ m.metalog_position) :
    ∃ m', UpdateReplicaProgress q m sid pos = some m' := by
  have h1 : q.IsReplicaSequencerNode sid = true := by
    simpa [Sequencer.IsReplicaSequencerNode] using hsid
  have h2 : ¬ pos > m.metalog_position := by omega
  unfold UpdateReplicaProgress
  simp only [h1, not_true_eq_false, if_false, h2]
  split
  · unfold UpdateMetaLogReplicatedPosition
    simp only
    split
    · exact ⟨_, rfl⟩
    · split
      · exact ⟨_, rfl⟩
      · rename_i hemp
        have hne : (mapSet (mapTouch m.metalog_progresses sid 0) sid pos).map Prod.snd ≠ [] := by
          intro he
          apply hemp
          simpa using he
        obtain ⟨x, hx⟩ := upperMedian_isSome _ hne
        unfold upperMedian at hx
        simp only [List.length_insertionSort, hx]
        exact ⟨_, rfl⟩
  · exact ⟨_, rfl⟩

/-! ### Shards blocked while dirty -/

theorem getD_mapTouch (sp : List ((Nat × Nat) × Nat)) (k0 k : Nat × Nat) :
    (mapFind (mapTouch sp k0 0) k).getD 0 = (mapFind sp k).getD 0 := by
  rw [mapFind_mapTouch]
  by_cases h : k0 = k
  · subst h
    simp
  · simp [h]

theorem progressAt_step (v : View) (q : Sequencer) (storage_id : Nat)
    (m m' : MetaLogPrimary) (g p : Nat)
    (hs : storageProgressStep v q storage_id m g p = some m') (k : Nat × Nat) :
    (mapFind m.shard_progrsses k).getD 0 ≤ (mapFind m'.shard_progrsses k).getD 0 ∧
    ((LowHalf32 g, storage_id) ≠ k →
      (mapFind m'.shard_progrsses k).getD 0 = (mapFind m.shard_progrsses k).getD 0) := by
  rcases storageProgressStep_cases v q storage_id m m' g p hs with
    rfl | ⟨_, rfl⟩ | ⟨_, sp, cur, cut', hsp, hp, _, _, hcase⟩
  · exact ⟨Nat.le_refl _, fun _ => rfl⟩
  · have e := getD_mapTouch m.shard_progrsses (LowHalf32 g, storage_id) k
    exact ⟨Nat.le_of_eq e.symm, fun _ => e⟩
  · have hm' : m'.shard_progrsses = sp := by
      rcases hcase with ⟨_, rfl⟩ | ⟨_, rfl⟩ <;> rfl
    rw [hm', hsp]
    by_cases hk : (LowHalf32 g, storage_id) = k
    · subst hk
      rw [mapFind_mapSet_self]
      exact ⟨Nat.le_of_lt hp, fun hne => absurd rfl hne⟩
    · rw [mapFind_mapSet_ne _ _ hk, getD_mapTouch]
      exact ⟨Nat.le_refl _, fun _ => rfl⟩

theorem progressAt_loop (v : View) (q : Sequencer) (storage_id : Nat) (k : Nat × Nat) :
    ∀ (gs ps : List Nat) (m m' : MetaLogPrimary),
      storageProgressLoop v q storage_id gs ps m = some m' →
      (mapFind m.shard_progrsses k).getD 0 ≤ (mapFind m'.shard_progrsses k).getD 0 := by
  intro gs
  induction gs with
  | nil =>
    intro ps m m' h
    simp only [storageProgressLoop, Option.some.injEq] at h
    subst h
    exact Nat.le_refl _
  | cons g gs ih =>
    intro ps m m' h
    cases ps with
    | nil =>
      simp only [storageProgressLoop, Option.some.injEq] at h
      subst h
      exact Nat.le_refl _
    | cons p ps =>
      cases hst : storageProgressStep v q storage_id m g p with
      | none =>
        simp only [storageProgressLoop, hst] at h
        cases h
      | some mid =>
        simp only [storageProgressLoop, hst] at h
        exact le_trans (progressAt_step v q storage_id m mid g p hst k).1 (ih ps mid m' h)

theorem Settled_of_raise_step (v : View) (q : Sequencer) (s storage_id : Nat)
    (m m' : MetaLogPrimary) (g p : Nat)
    (hs : storageProgressStep v q storage_id m g p = some m')
    (hlt : (mapFind m.shard_progrsses (s, storage_id)).getD 0 <
      (mapFind m'.shard_progrsses (s, storage_id)).getD 0) : Settled v q s m' := by
  rcases storageProgressStep_cases v q storage_id m m' g p hs with
    rfl | ⟨_, rfl⟩ | ⟨_, sp, cur, cut', hsp, hp, hcur, hcut, hcase⟩
  · exact absurd hlt (Nat.lt_irrefl _)
  · have e := getD_mapTouch m.shard_progrsses (LowHalf32 g, storage_id) (s, storage_id)
    have hlt' : (mapFind m.shard_progrsses (s, storage_id)).getD 0 <
        (mapFind (mapTouch m.shard_progrsses (LowHalf32 g, storage_id) 0)
          (s, storage_id)).getD 0 := hlt
    omega
  · have hss : LowHalf32 g = s := by
      by_contra hne
      have := (progressAt_step v q storage_id m m' g p hs (s, storage_id)).2
        (fun e => hne (congrArg Prod.fst e))
      omega
    rcases hcase with ⟨_, rfl⟩ | ⟨hle, rfl⟩
    · intro cut pos _ _ hnd
      exact absurd ((mem_setInsert _ _ _).mpr (Or.inr hss.symm)) hnd
    · intro cut pos hc hpos _
      have hc' : mapFind m.last_cut s = some cut := hc
      rw [← hss, hcut] at hc'
      have hpos' : GetShardReplicatedPosition v q { m with shard_progrsses := sp } s =
          some pos := hpos
      rw [← hss, hcur] at hpos'
      cases hc'
      cases hpos'
      exact hle

theorem Settled_of_raise_loop (v : View) (q : Sequencer) (s storage_id : Nat) :
    ∀ (gs ps : List Nat) (m m' : MetaLogPrimary), Inv v q m →
      storageProgressLoop v q storage_id gs ps m = some m' →
      (mapFind m.shard_progrsses (s, storage_id)).getD 0 <
        (mapFind m'.shard_progrsses (s, storage_id)).getD 0 → Settled v q s m' := by
  intro gs
  induction gs with
  | nil =>
    intro ps m m' _ h hlt
    simp only [storageProgressLoop, Option.some.injEq] at h
    subst h
    exact absurd hlt (Nat.lt_irrefl _)
  | cons g gs ih =>
    intro ps m m' hinv h hlt
    cases ps with
    | nil =>
      simp only [storageProgressLoop, Option.some.injEq] at h
      subst h
      exact absurd hlt (Nat.lt_irrefl _)
    | cons p ps =>
      cases hst : storageProgressStep v q storage_id m g p with
      | none =>
        simp only [storageProgressLoop, hst] at h
        cases h
      | some mid =>
        simp only [storageProgressLoop, hst] at h
        have hinv' := Inv_storageProgressStep v q storage_id m mid g p hinv hst
        by_cases hraise : (mapFind m.shard_progrsses (s, storage_id)).getD 0 <
            (mapFind mid.shard_progrsses (s, storage_id)).getD 0
        · exact Settled_storageProgressLoop v q s storage_id gs ps mid m' hinv'
            (Settled_of_raise_step v q s storage_id m mid g p hst hraise) h
        · have := (progressAt_step v q storage_id m mid g p hst (s, storage_id)).1
          exact ih ps mid m' hinv' h (by omega)

theorem Settled_of_raise (v : View) (q : Sequencer) (s : Nat) (m m' : MetaLogPrimary)
    (op : Op) (out : Option MetaLogProto) (hinv : Inv v q m)
    (hs : step v q m op = some (m', out)) (hr : raisesShard v q s m op = true) :
    Settled v q s m' := by
  cases op with
  | storageProgress id p =>
    simp only [step] at hs
    cases hu : UpdateStorageProgress v q m id p with
    | none => simp [hu] at hs
    | some m1 =>
      simp only [hu, Option.some.injEq, Prod.mk.injEq] at hs
      obtain ⟨rfl, _⟩ := hs
      simp only [raisesShard, hu, decide_eq_true_eq] at hr
      obtain ⟨gs, hl⟩ := UpdateStorageProgress_loop v q m m1 id p hu
      exact Settled_of_raise_loop v q s id gs p m m1 hinv hl hr
  | block x => simp [raisesShard] at hr
  | unblock x => simp [raisesShard] at hr
  | replicaProgress id p => simp [raisesShard] at hr
  | markNextCut => simp [raisesShard] at hr

theorem Stale_step_progress (v : View) (q : Sequencer) (s storage_id : Nat)
    (m m' : MetaLogPrimary) (g p : Nat) (hinv : Inv v q m) (hstale : Stale v q s m)
    (hs : storageProgressStep v q storage_id m g p = some m')
    (hno : ¬ (mapFind m.shard_progrsses (s, storage_id)).getD 0 <
      (mapFind m'.shard_progrsses (s, storage_id)).getD 0) : Stale v q s m' := by
  obtain ⟨hnd, cut, pos, hcut, hpos, hlt⟩ := hstale
  rcases storageProgressStep_cases v q storage_id m m' g p hs with
    rfl | ⟨_, rfl⟩ | ⟨_, sp, cur, cut', hsp, hp, hcur, hcut', hcase⟩
  · exact ⟨hnd, cut, pos, hcut, hpos, hlt⟩
  · refine ⟨hnd, cut, pos, hcut, ?_, hlt⟩
    exact GetShardReplicatedPosition_congr_present v q m
      { m with shard_progrsses := mapTouch m.shard_progrsses (LowHalf32 g, storage_id) 0 }
      (fun k hk => mapFind_mapTouch_present _ _ _ _ hk) s pos hpos
  · have hss : LowHalf32 g ≠ s := by
      intro e
      apply hno
      have hm' : m'.shard_progrsses = sp := by
        rcases hcase with ⟨_, rfl⟩ | ⟨_, rfl⟩ <;> rfl
      rw [hm', hsp, ← e, mapFind_mapSet_self]
      exact hp
    have hsame : GetShardReplicatedPosition v q { m with shard_progrsses := sp } s =
        GetShardReplicatedPosition v q m s := by
      apply GetShardReplicatedPosition_congr_shard
      intro n
      have hne : (LowHalf32 g, storage_id) ≠ (s, n) := by
        intro e
        exact hss (congrArg Prod.fst e)
      show mapFind sp (s, n) = mapFind m.shard_progrsses (s, n)
      rw [hsp, mapFind_mapSet_ne _ _ hne, mapFind_mapTouch]
      simp [hne]
    rcases hcase with ⟨_, rfl⟩ | ⟨_, rfl⟩
    · refine ⟨?_, cut, pos, hcut, by rw [← hpos]; exact hsame, hlt⟩
      intro hmem
      rcases (mem_setInsert _ _ _).mp hmem with h1 | h1
      · exact hnd h1
      · exact hss h1.symm
    · exact ⟨hnd, cut, pos, hcut, by rw [← hpos]; exact hsame, hlt⟩

theorem Stale_loop (v : View) (q : Sequencer) (s storage_id : Nat) :
    ∀ (gs ps : List Nat) (m m' : MetaLogPrimary), Inv v q m → Stale v q s m →
      storageProgressLoop v q storage_id gs ps m = some m' →
      ¬ (mapFind m.shard_progrsses (s, storage_id)).getD 0 <
        (mapFind m'.shard_progrsses (s, storage_id)).getD 0 → Stale v q s m' := by
  intro gs
  induction gs with
  | nil =>
    intro ps m m' _ hstale h _
    simp only [storageProgressLoop, Option.some.injEq] at h
    subst h
    exact hstale
  | cons g gs ih =>
    intro ps m m' hinv hstale h hno
    cases ps with
    | nil =>
      simp only [storageProgressLoop, Option.some.injEq] at h
      subst h
      exact hstale
    | cons p ps =>
      cases hst : storageProgressStep v q storage_id m g p with
      | none =>
        simp only [storageProgressLoop, hst] at h
        cases h
      | some mid =>
        simp only [storageProgressLoop, hst] at h
        have hinv' := Inv_storageProgressStep v q storage_id m mid g p hinv hst
        have h1 := (progressAt_step v q storage_id m mid g p hst (s, storage_id)).1
        have h2 := progressAt_loop v q storage_id (s, storage_id) gs ps mid m' h
        exact ih ps mid m' hinv'
          (Stale_step_progress v q s storage_id m mid g p hinv hstale hst (by omega)) h
          (by omega)

theorem Stale_step (v : View) (q : Sequencer) (s : Nat) (m m' : MetaLogPrimary) (op : Op)
    (out : Option MetaLogProto) (hinv : Inv v q m) (hstale : Stale v q s m)
    (hno : raisesShard v q s m op = false)
    (hs : step v q m op = some (m', out)) : Stale v q s m' := by
  obtain ⟨hnd, cut, pos, hcut, hpos, hlt⟩ := hstale
  cases op with
  | block x =>
    simp only [step, Option.some.injEq, Prod.mk.injEq] at hs
    obtain ⟨rfl, _⟩ := hs
    rcases BlockShard_state m x with ⟨he, _⟩ | ⟨_, _, he⟩ <;> rw [he]
    · exact ⟨hnd, cut, pos, hcut, hpos, hlt⟩
    · exact ⟨fun hmem => hnd ((mem_setErase _ _ _).mp hmem).1, cut, pos, hcut, hpos, hlt⟩
  | unblock x =>
    simp only [step, Option.some.injEq, Prod.mk.injEq] at hs
    obtain ⟨rfl, _⟩ := hs
    rcases UnblockShard_state m x with he | ⟨_, he⟩ <;> rw [he]
    · exact ⟨hnd, cut, pos, hcut, hpos, hlt⟩
    · exact ⟨hnd, cut, pos, hcut, hpos, hlt⟩
  | storageProgress id p =>
    simp only [step] at hs
    cases hu : UpdateStorageProgress v q m id p with
    | none => simp [hu] at hs
    | some m1 =>
      simp only [hu, Option.some.injEq, Prod.mk.injEq] at hs
      obtain ⟨rfl, _⟩ := hs
      simp only [raisesShard, hu, decide_eq_false_iff_not] at hno
      obtain ⟨gs, hl⟩ := UpdateStorageProgress_loop v q m m1 id p hu
      exact Stale_loop v q s id gs p m m1 hinv ⟨hnd, cut, pos, hcut, hpos, hlt⟩ hl hno
  | replicaProgress id p =>
    simp only [step] at hs
    cases hu : UpdateReplicaProgress q m id p with
    | none => simp [hu] at hs
    | some m1 =>
      simp only [hu, Option.some.injEq, Prod.mk.injEq] at hs
      obtain ⟨mp, r, he⟩ := UpdateReplicaProgress_cases q m m1 id p hu
      rw [← hs.1, he]
      exact ⟨hnd, cut, pos, hcut, hpos, hlt⟩
  | markNextCut =>
    have hs' : MarkNextCut v q m = some (m', out) := hs
    by_cases hd : m.dirty_shards = []
    · have : MarkNextCut v q m = some (m, none) := by simp [MarkNextCut, hd]
      rw [this] at hs'
      cases hs'
      exact ⟨hnd, cut, pos, hcut, hpos, hlt⟩
    · obtain ⟨lc, hc, hfind⟩ :=
        MarkNextCut_of_dirty v q m hd hinv.nodup (Inv_cut_ready v q m hinv)
      rw [hc] at hs'
      simp only [Option.some.injEq, Prod.mk.injEq] at hs'
      obtain ⟨rfl, _⟩ := hs'
      refine ⟨fun hmem => List.not_mem_nil _ hmem, cut, pos, ?_, hpos, hlt⟩
      show mapFind lc s = some cut
      rw [hfind s, if_neg hnd]
      exact hcut

theorem Stale_run (v : View) (q : Sequencer) (s : Nat) (ops : List Op) :
    ∀ (m m' : MetaLogPrimary) (es : List MetaLogProto), Inv v q m → Stale v q s m →
      noRaise v q s m ops = true → run v q m ops = some (m', es) → Stale v q s m' := by
  induction ops with
  | nil =>
    intro m m' es _ hstale _ hr
    simp only [run, Option.some.injEq, Prod.mk.injEq] at hr
    exact hr.1 ▸ hstale
  | cons op ops ih =>
    intro m m' es hinv hstale hno hr
    obtain ⟨m1, out, es1, hs, hr1, _⟩ := run_cons v q m m' op ops es hr
    simp only [noRaise, hs, Bool.and_eq_true, Bool.not_eq_true'] at hno
    exact ih m1 m' es1 (Inv_step v q m m1 op out hinv hs)
      (Stale_step v q s m m1 op out hinv hstale hno.1 hs) hno.2 hr1

theorem Stale_of_block (v : View) (q : Sequencer) (s : Nat) (m : MetaLogPrimary)
    (hinv : Inv v q m) (hd : s ∈ m.dirty_shards) : Stale v q s (BlockShard m s).1 := by
  have hu := hinv.dirty_unblocked s hd
  have hk := hinv.unblocked_known s hu
  obtain ⟨cut, hcut⟩ := Option.isSome_iff_exists.mp hk
  obtain ⟨pos, hpos⟩ := Option.isSome_iff_exists.mp (hinv.known_pos s hk)
  have hlt := hinv.dirty_gt s hd cut pos hcut hpos
  rcases BlockShard_state m s with ⟨_, hwhy⟩ | ⟨_, _, he⟩
  · rcases hwhy with h1 | h1
    · rw [h1] at hk
      cases hk
    · exact absurd hu h1
  · rw [he]
    exact ⟨fun hmem => ((mem_setErase _ _ _).mp hmem).2 rfl, cut, pos, hcut, hpos, hlt⟩

/-! ## Claims -/

/-- C1: in a state whose `dirty_shards` is non-empty (a set: no shard twice, each a known
shard whose replicated position can be read), `MarkNextCut` returns one `NEW_LOGS` entry
whose `shard_ids` are exactly `dirty_shards` in iteration order; at every index the parallel
`shard_start` is `last_cut[s]` before the call and the parallel `shard_delta` is
`GetShardReplicatedPosition(s) - last_cut[s]` before the call (the `uint32_t` difference,
which is the plain difference whenever `last_cut[s]` does not exceed the position). -/
theorem C1_MarkNextCut_lists_dirty_shards (v : View) (q : Sequencer) (m : MetaLogPrimary)
    (hne : m.dirty_shards ≠ []) (hnodup : m.dirty_shards.Nodup)
    (hknown : ∀ s ∈ m.dirty_shards, (mapFind m.last_cut s).isSome ∧
      (GetShardReplicatedPosition v q m s).isSome) :
    ∃ m' e, MarkNextCut v q m = some (m', some e) ∧
      e.type = MetaLogType.NEW_LOGS ∧
      e.new_logs_proto.shard_ids = m.dirty_shards ∧
      e.new_logs_proto.shard_starts.length = m.dirty_shards.length ∧
      e.new_logs_proto.shard_deltas.length = m.dirty_shards.length ∧
      ∀ (i s : Nat), m.dirty_shards[i]? = some s →
        ∃ cut pos, mapFind m.last_cut s = some cut ∧
          GetShardReplicatedPosition v q m s = some pos ∧
          e.new_logs_proto.shard_starts[i]? = some cut ∧
          e.new_logs_proto.shard_deltas[i]? = some (sub32 pos cut) ∧
          (cut ≤ pos → e.new_logs_proto.shard_deltas[i]? = some (pos - cut)) := by
  obtain ⟨lc, hcut, _⟩ := MarkNextCut_of_dirty v q m hne hnodup hknown
  refine ⟨_, _, hcut, rfl, rfl, by simp [cutStarts], by simp [cutDeltas], ?_⟩
  intro i s his
  have hmem : s ∈ m.dirty_shards := List.getElem?_mem his
  obtain ⟨h1, h2⟩ := hknown s hmem
  obtain ⟨cut, hc⟩ := Option.isSome_iff_exists.mp h1
  obtain ⟨pos, hp⟩ := Option.isSome_iff_exists.mp h2
  have hd : (cutDeltas v q m)[i]? = some (sub32 pos cut) := by
    simp [cutDeltas, List.getElem?_map, his, hc, hp]
  refine ⟨cut, pos, hc, hp, by simp [cutStarts, List.getElem?_map, his, hc], hd, ?_⟩
  intro hle
  rw [← sub32_eq_sub hle (GetShardReplicatedPosition_le v q m s pos hp)]
  exact hd

/-- C1, at the example: the cut of `exampleDirty` lists shards `[0, 1]` with starts `[0, 0]`
and deltas `[2, 4]`. -/
theorem C1_MarkNextCut_lists_dirty_shards_witness :
    exampleDirty.dirty_shards ≠ [] ∧
    ∃ m' e, MarkNextCut exampleView exampleSequencer exampleDirty = some (m', some e) ∧
      e.type = MetaLogType.NEW_LOGS ∧
      e.new_logs_proto.shard_ids = exampleDirty.dirty_shards ∧
      e.new_logs_proto.shard_starts.length = exampleDirty.dirty_shards.length ∧
      e.new_logs_proto.shard_deltas.length = exampleDirty.dirty_shards.length ∧
      ∀ (i s : Nat), exampleDirty.dirty_shards[i]? = some s →
        ∃ cut pos, mapFind exampleDirty.last_cut s = some cut ∧
          GetShardReplicatedPosition exampleView exampleSequencer exampleDirty s = some pos ∧
          e.new_logs_proto.shard_starts[i]? = some cut ∧
          e.new_logs_proto.shard_deltas[i]? = some (sub32 pos cut) ∧
          (cut ≤ pos → e.new_logs_proto.shard_deltas[i]? = some (pos - cut)) :=
  ⟨by decide,
   C1_MarkNextCut_lists_dirty_shards exampleView exampleSequencer exampleDirty
     (by decide) (by decide) (by decide)⟩

/-- C2: whenever `MarkNextCut` returns an entry, its `start_seqnum` is the low 32 bits of
`seqnum_position` before the call, and `start_seqnum` plus the sum of its `shard_delta`s is,
in `uint32_t` arithmetic, the low 32 bits of `seqnum_position` after the call; the same holds
with the loop's accumulator `total_delta` in place of the sum, which is the comparison of the
final `DCHECK_EQ`.  Without wrap-around the sum is the plain sum. -/
theorem C2_MarkNextCut_seqnum_accounting (v : View) (q : Sequencer)
    (m m' : MetaLogPrimary) (e : MetaLogProto)
    (h : MarkNextCut v q m = some (m', some e)) :
    e.new_logs_proto.start_seqnum = LowHalf64 m.seqnum_position ∧
    (e.new_logs_proto.start_seqnum + e.new_logs_proto.shard_deltas.sum) % 2 ^ 32 =
      LowHalf64 m'.seqnum_position ∧
    (∃ m1 total_delta,
      cutLoop v q m.dirty_shards (m, emptyNewLogs m, 0) =
        some (m1, e.new_logs_proto, total_delta) ∧
      add32 e.new_logs_proto.start_seqnum total_delta = LowHalf64 m'.seqnum_position) ∧
    (e.new_logs_proto.start_seqnum + e.new_logs_proto.shard_deltas.sum < 2 ^ 32 →
      e.new_logs_proto.start_seqnum + e.new_logs_proto.shard_deltas.sum =
        LowHalf64 m'.seqnum_position) := by
  unfold MarkNextCut at h
  cases hemp : m.dirty_shards.isEmpty with
  | true => simp [hemp] at h
  | false =>
    simp only [hemp, Bool.false_eq_true, if_false] at h
    cases hloop : cutLoop v q m.dirty_shards
        (m, { start_seqnum := LowHalf64 m.seqnum_position
              shard_ids := [], shard_starts := [], shard_deltas := [] }, 0) with
    | none => simp [hloop] at h
    | some r =>
      obtain ⟨m1, nl, total⟩ := r
      simp only [hloop, ProvideMetaLog, Option.some.injEq, Prod.mk.injEq] at h
      obtain ⟨hm, he⟩ := h
      obtain ⟨h1, h2, h3⟩ := cutLoop_frame v q _ _ _ _ _ _ _ hloop
      subst he
      subst hm
      have hsp : m1.seqnum_position = m.seqnum_position := by rw [h3]
      simp only [List.sum_nil, Nat.add_zero, Nat.zero_add] at h2
      simp only at h1
      have key : (nl.start_seqnum + nl.shard_deltas.sum) % 2 ^ 32 =
          LowHalf64 (m1.seqnum_position + nl.shard_deltas.sum) := by
        rw [h1, hsp]
        unfold LowHalf64
        omega
      refine ⟨h1, key, ⟨m1, total, hloop, ?_⟩, ?_⟩
      · show add32 nl.start_seqnum total = LowHalf64 (m1.seqnum_position + nl.shard_deltas.sum)
        rw [← key]
        unfold add32
        omega
      · intro hlt
        show nl.start_seqnum + nl.shard_deltas.sum =
          LowHalf64 (m1.seqnum_position + nl.shard_deltas.sum)
        rw [← key]
        exact (Nat.mod_eq_of_lt hlt).symm

/-- C2, at the example: the cut of `exampleDirty` starts at seqnum 0 and moves
`seqnum_position` by `2 + 4`. -/
theorem C2_MarkNextCut_seqnum_accounting_witness :
    ∃ m' e, MarkNextCut exampleView exampleSequencer exampleDirty = some (m', some e) ∧
      e.new_logs_proto.start_seqnum = 0 ∧ e.new_logs_proto.shard_deltas = [2, 4] ∧
      LowHalf64 m'.seqnum_position = 6 ∧
      (e.new_logs_proto.start_seqnum + e.new_logs_proto.shard_deltas.sum) % 2 ^ 32 =
        LowHalf64 m'.seqnum_position :=
  ⟨_, _, rfl, rfl, rfl, rfl,
    (C2_MarkNextCut_seqnum_accounting exampleView exampleSequencer exampleDirty _ _ rfl).2.1⟩

/-- C3: in every state reachable from construction through `BlockShard`, `UnblockShard`,
`UpdateStorageProgress`, `UpdateReplicaProgress` and `MarkNextCut`, every dirty shard has a
replicated position strictly greater than `last_cut[shard]` (the `DCHECK_GT` holds);
`MarkNextCut` does not abort there, and every `shard_delta` of an entry it returns is the
plain difference `position - last_cut[shard]`, hence strictly positive. -/
theorem C3_dirty_shard_delta_positive (v : View) (q : Sequencer) (m : MetaLogPrimary)
    (h : Reachable v q m) :
    (∀ s ∈ m.dirty_shards, ∃ cut pos, mapFind m.last_cut s = some cut ∧
      GetShardReplicatedPosition v q m s = some pos ∧ cut < pos) ∧
    (∃ r, MarkNextCut v q m = some r) ∧
    (∀ m' e, MarkNextCut v q m = some (m', some e) →
      (∀ d ∈ e.new_logs_proto.shard_deltas, 0 < d) ∧
      ∀ (i s : Nat), m.dirty_shards[i]? = some s →
        ∃ cut pos, mapFind m.last_cut s = some cut ∧
          GetShardReplicatedPosition v q m s = some pos ∧ cut < pos ∧
          e.new_logs_proto.shard_deltas[i]? = some (pos - cut)) := by
  have hinv := Inv_of_Reachable v q m h
  have hd : ∀ s ∈ m.dirty_shards, ∃ cut pos, mapFind m.last_cut s = some cut ∧
      GetShardReplicatedPosition v q m s = some pos ∧ cut < pos := by
    intro s hs
    obtain ⟨h1, h2⟩ := Inv_cut_ready v q m hinv s hs
    obtain ⟨cut, hc⟩ := Option.isSome_iff_exists.mp h1
    obtain ⟨pos, hp⟩ := Option.isSome_iff_exists.mp h2
    exact ⟨cut, pos, hc, hp, hinv.dirty_gt s hs cut pos hc hp⟩
  have hdelta : ∀ s ∈ m.dirty_shards, ∀ cut pos, mapFind m.last_cut s = some cut →
      GetShardReplicatedPosition v q m s = some pos →
      sub32 ((GetShardReplicatedPosition v q m s).getD 0) ((mapFind m.last_cut s).getD 0) =
        pos - cut ∧ cut < pos := by
    intro s hs cut pos hc hp
    have hlt := hinv.dirty_gt s hs cut pos hc hp
    rw [hc, hp]
    exact ⟨sub32_eq_sub (Nat.le_of_lt hlt) (GetShardReplicatedPosition_le v q m s pos hp), hlt⟩
  refine ⟨hd, MarkNextCut_total v q m hinv, ?_⟩
  intro m' e hcut
  obtain ⟨_, _, hdl, _⟩ := MarkNextCut_entry v q m m' e hinv hcut
  rw [hdl]
  constructor
  · intro d hdm
    simp only [cutDeltas, List.mem_map] at hdm
    obtain ⟨s, hs, rfl⟩ := hdm
    obtain ⟨cut, pos, hc, hp, _⟩ := hd s hs
    obtain ⟨he, hlt⟩ := hdelta s hs cut pos hc hp
    rw [he]
    omega
  · intro i s his
    have hs : s ∈ m.dirty_shards := List.getElem?_mem his
    obtain ⟨cut, pos, hc, hp, hlt⟩ := hd s hs
    refine ⟨cut, pos, hc, hp, hlt, ?_⟩
    simp only [cutDeltas, List.getElem?_map, his, Option.map_some']
    rw [(hdelta s hs cut pos hc hp).1]

/-- C3, at the example: `exampleDirty` is reachable and its cut has positive deltas. -/
theorem C3_dirty_shard_delta_positive_witness :
    Reachable exampleView exampleSequencer exampleDirty ∧
    ∀ m' e, MarkNextCut exampleView exampleSequencer exampleDirty = some (m', some e) →
      ∀ d ∈ e.new_logs_proto.shard_deltas, 0 < d :=
  ⟨exampleDirty_reachable, fun m' e hcut =>
    ((C3_dirty_shard_delta_positive exampleView exampleSequencer exampleDirty
      exampleDirty_reachable).2.2 m' e hcut).1⟩

/-- C4: in every reachable state `dirty_shards` is a subset of `unblocked_shards`;
`UpdateStorageProgress` leaves `unblocked_shards` alone and marks dirty only shards that are
unblocked, `BlockShard(s)` leaves `s` not dirty, and an entry returned by `MarkNextCut` lists
only shards that are unblocked at the time of the cut. -/
theorem C4_dirty_subset_unblocked (v : View) (q : Sequencer) (m : MetaLogPrimary)
    (h : Reachable v q m) :
    (∀ s ∈ m.dirty_shards, s ∈ m.unblocked_shards) ∧
    (∀ storage_id progress m', UpdateStorageProgress v q m storage_id progress = some m' →
      m'.unblocked_shards = m.unblocked_shards ∧
      ∀ s ∈ m'.dirty_shards, s ∈ m.unblocked_shards) ∧
    (∀ s, s ∉ (BlockShard m s).1.dirty_shards) ∧
    (∀ m' e, MarkNextCut v q m = some (m', some e) →
      ∀ s ∈ e.new_logs_proto.shard_ids, s ∈ m.unblocked_shards) := by
  have hinv := Inv_of_Reachable v q m h
  refine ⟨hinv.dirty_unblocked, ?_, ?_, ?_⟩
  · intro storage_id progress m' hu
    obtain ⟨gs, hl⟩ := UpdateStorageProgress_loop v q m m' storage_id progress hu
    obtain ⟨h1, _, h3⟩ := storageProgressLoop_sets v q storage_id gs progress m m' hl
    refine ⟨h1, ?_⟩
    intro s hs
    rcases h3 s hs with hd | hu'
    · exact hinv.dirty_unblocked s hd
    · exact hu'
  · intro s hd
    rcases BlockShard_state m s with ⟨he, hwhy⟩ | ⟨_, _, he⟩
    · rw [he] at hd
      have hu := hinv.dirty_unblocked s hd
      rcases hwhy with hnone | hnu
      · have hk := hinv.unblocked_known s hu
        rw [hnone] at hk
        cases hk
      · exact hnu hu
    · rw [he] at hd
      simp [mem_setErase] at hd
  · intro m' e hcut s hs
    obtain ⟨hids, _⟩ := MarkNextCut_entry v q m m' e hinv hcut
    rw [hids] at hs
    exact hinv.dirty_unblocked s hs

/-- C4, at the example: the dirty shards `[0, 1]` of `exampleDirty` are both unblocked. -/
theorem C4_dirty_subset_unblocked_witness :
    Reachable exampleView exampleSequencer exampleDirty ∧
    ∀ s ∈ exampleDirty.dirty_shards, s ∈ exampleDirty.unblocked_shards :=
  ⟨exampleDirty_reachable,
    (C4_dirty_subset_unblocked exampleView exampleSequencer exampleDirty
      exampleDirty_reachable).1⟩

/-- C5: for a sequencer with at least one replica, in every reachable state
`replicated_metalog_position` is the element at index `n / 2` of the recorded replica
progresses sorted ascending (the upper median): progresses `{5, 7, 9}` give 7 and
`{5, 7, 9, 10}` give 9.  It also holds after an `UpdateReplicaProgress` that starts with
`replicated_metalog_position` equal to `metalog_position`, where
`UpdateMetaLogReplicatedPosition` returns early. -/
theorem C5_replicated_position_is_upper_median (v : View) (q : Sequencer) (m : MetaLogPrimary)
    (hrep : q.replica_sequencer_nodes ≠ []) (h : Reachable v q m) :
    ((m.metalog_progresses.map Prod.snd).insertionSort (fun a b => a ≤ b))[
        m.metalog_progresses.length / 2]? = some m.replicated_metalog_position ∧
    ((m.metalog_progresses.map Prod.snd).Perm [5, 7, 9] →
      m.replicated_metalog_position = 7) ∧
    ((m.metalog_progresses.map Prod.snd).Perm [5, 7, 9, 10] →
      m.replicated_metalog_position = 9) ∧
    (∀ sid pos m', m.replicated_metalog_position = m.metalog_position →
      UpdateReplicaProgress q m sid pos = some m' →
      ((m'.metalog_progresses.map Prod.snd).insertionSort (fun a b => a ≤ b))[
        m'.metalog_progresses.length / 2]? = some m'.replicated_metalog_position) := by
  have hinv := MedInv_of_Reachable v q m h
  obtain ⟨r, hr⟩ := List.exists_mem_of_ne_nil _ hrep
  have hne : ∀ m1 : MetaLogPrimary, MedInv q m1 → m1.metalog_progresses ≠ [] := by
    intro m1 h1 he
    have := h1.keys r hr
    rw [he] at this
    simp [mapFind] at this
  have hmed := hinv.median (hne m hinv)
  refine ⟨by simpa [upperMedian] using hmed, ?_, ?_, ?_⟩
  · intro hp
    rw [upperMedian_perm _ _ hp] at hmed
    have : upperMedian [5, 7, 9] = some 7 := by decide
    rw [this] at hmed
    exact (Option.some.inj hmed).symm
  · intro hp
    rw [upperMedian_perm _ _ hp] at hmed
    have : upperMedian [5, 7, 9, 10] = some 9 := by decide
    rw [this] at hmed
    exact (Option.some.inj hmed).symm
  · intro sid pos m' _ hu
    have hinv' := MedInv_UpdateReplicaProgress q m m' sid pos hinv hu
    simpa [upperMedian] using hinv'.median (hne m' hinv')

/-- C5, at the example: after the cut all three backups acknowledged position 1, the last
one on the early-return path; the committed position is the median 1 of `{1, 1, 1}`. -/
theorem C5_replicated_position_is_upper_median_witness :
    exampleSequencer.replica_sequencer_nodes ≠ [] ∧
    Reachable exampleView exampleSequencer exampleCommitted ∧
    exampleCommitted.metalog_progresses.map Prod.snd = [1, 1, 1] ∧
    exampleCommitted.replicated_metalog_position = 1 ∧
    ((exampleCommitted.metalog_progresses.map Prod.snd).insertionSort (fun a b => a ≤ b))[
        exampleCommitted.metalog_progresses.length / 2]? =
      some exampleCommitted.replicated_metalog_position :=
  ⟨by decide, exampleCommitted_reachable, rfl, rfl,
    (C5_replicated_position_is_upper_median exampleView exampleSequencer exampleCommitted
      (by decide) exampleCommitted_reachable).1⟩

/-- C6: for a shard with at least one storage node, every one of which has a recorded
`uint32_t` progress, `GetShardReplicatedPosition` returns the minimum of the progresses
recorded in `shard_progrsses_` for that shard: a lower bound of all of them that one of
them attains. -/
theorem C6_GetShardReplicatedPosition_is_min (v : View) (q : Sequencer) (m : MetaLogPrimary)
    (shard : Nat) (st : StorageShard)
    (hshard : v.GetStorageShard (JoinTwo16 q.node_id shard) = some st)
    (hnodes : st.storage_nodes ≠ [])
    (hrec : ∀ n ∈ st.storage_nodes, ∃ p, mapFind m.shard_progrsses (shard, n) = some p ∧
      p ≤ UINT32_MAX) :
    ∃ r, GetShardReplicatedPosition v q m shard = some r ∧
      (∀ n ∈ st.storage_nodes, ∀ p, mapFind m.shard_progrsses (shard, n) = some p → r ≤ p) ∧
      (∃ n ∈ st.storage_nodes, mapFind m.shard_progrsses (shard, n) = some r) := by
  obtain ⟨r, hr, _, hlow, hatt⟩ := minProgress_spec m.shard_progrsses shard st.storage_nodes
    (fun n hn => by obtain ⟨p, hp, _⟩ := hrec n hn; simp [hp]) UINT32_MAX
  refine ⟨r, by simp [GetShardReplicatedPosition, hshard, hr], hlow, ?_⟩
  rcases hatt with heq | hex
  · obtain ⟨n, hn⟩ := List.exists_mem_of_ne_nil _ hnodes
    obtain ⟨p, hp, hple⟩ := hrec n hn
    have hrp := hlow n hn p hp
    have : p = r := by omega
    exact ⟨n, hn, by rw [hp, this]⟩
  · exact hex

/-- C6, at the example: shard 0 of `exampleDirty` is at `min 3 2 = 2`. -/
theorem C6_GetShardReplicatedPosition_is_min_witness :
    GetShardReplicatedPosition exampleView exampleSequencer exampleDirty 0 = some 2 ∧
    ∃ r, GetShardReplicatedPosition exampleView exampleSequencer exampleDirty 0 = some r ∧
      (∀ n ∈ [10, 11], ∀ p, mapFind exampleDirty.shard_progrsses (0, n) = some p → r ≤ p) ∧
      (∃ n ∈ [10, 11], mapFind exampleDirty.shard_progrsses (0, n) = some r) :=
  ⟨rfl, C6_GetShardReplicatedPosition_is_min exampleView exampleSequencer exampleDirty 0
    { shard_id := JoinTwo16 1 0, storage_nodes := [10, 11] } rfl (by decide) (by decide)⟩

/-- C7, as stated, fails: in `exampleReadmitted`, reached by blocking shard 0 while it was
dirty and unblocking it again, shard 0 is unblocked and its replicated position 2 exceeds
`last_cut[0] = 0`, yet it is not in `dirty_shards`. -/
theorem C7_unblocked_shard_ahead_not_dirty :
    ¬ (∀ (v : View) (q : Sequencer) (m : MetaLogPrimary), Reachable v q m →
        ∀ s ∈ m.unblocked_shards, ∀ cut pos, mapFind m.last_cut s = some cut →
          GetShardReplicatedPosition v q m s = some pos → cut < pos →
          s ∈ m.dirty_shards) := by
  intro hall
  have := hall exampleView exampleSequencer exampleReadmitted exampleReadmitted_reachable
    0 (by decide) 0 2 rfl rfl (by decide)
  exact absurd this (by decide)

/-- C7, amended: let `s` be a shard with at least one storage node. (a) Take a state `m1`
that is either the constructed state or the result of a call, from a reachable state, that
raised a recorded progress of `s`; in every state reached from `m1` by a run that never calls
`BlockShard(s)` while `s` is dirty, if the replicated position of `s` strictly exceeds
`last_cut[s]` then `s` is in `dirty_shards` (being dirty, it is unblocked), and the next
`MarkNextCut` lists it. (b) The exception is exact: after `BlockShard(s)` on a reachable
state in which `s` is dirty, in every state reached by a run in which no call raises a
recorded progress of `s`, shard `s` is not in `dirty_shards` although its replicated position
strictly exceeds `last_cut[s]`, whether or not it was unblocked again. -/
theorem C7_unblocked_shard_ahead_is_dirty (v : View) (q : Sequencer) (s : Nat)
    (st : StorageShard)
    (hst : v.GetStorageShard (JoinTwo16 q.node_id s) = some st)
    (hnodes : st.storage_nodes ≠ []) :
    (∀ (m1 m : MetaLogPrimary) (ops : List Op) (es : List MetaLogProto),
      (MetaLogPrimary.create v q = some m1 ∨
        ∃ mprev op out, Reachable v q mprev ∧ step v q mprev op = some (m1, out) ∧
          raisesShard v q s mprev op = true) →
      run v q m1 ops = some (m, es) → blocksOnlyClean v q s m1 ops = true →
      ∀ cut pos, mapFind m.last_cut s = some cut →
        GetShardReplicatedPosition v q m s = some pos → cut < pos →
        s ∈ m.dirty_shards ∧
        ∃ m' e, MarkNextCut v q m = some (m', some e) ∧ s ∈ e.new_logs_proto.shard_ids) ∧
    (∀ (m1 m : MetaLogPrimary) (ops : List Op) (es : List MetaLogProto),
      Reachable v q m1 → s ∈ m1.dirty_shards →
      run v q (BlockShard m1 s).1 ops = some (m, es) →
      noRaise v q s (BlockShard m1 s).1 ops = true →
      s ∉ m.dirty_shards ∧
      ∃ cut pos, mapFind m.last_cut s = some cut ∧
        GetShardReplicatedPosition v q m s = some pos ∧ cut < pos) := by
  constructor
  · intro m1 m ops es hstart hrun hclean cut pos hcut hpos hlt
    have hstart' : Inv v q m1 ∧ Settled v q s m1 := by
      rcases hstart with hcreate | ⟨mprev, op, out, hreach, hstep, hraise⟩
      · exact ⟨Inv_create v q m1 hcreate, Settled_create v q s m1 st hst hnodes hcreate⟩
      · have hinvp := Inv_of_Reachable v q mprev hreach
        exact ⟨Inv_step v q mprev m1 op out hinvp hstep,
          Settled_of_raise v q s mprev m1 op out hinvp hstep hraise⟩
    have hinv := Inv_run v q ops m1 m es hstart'.1 hrun
    have hset := Settled_run v q s ops m1 m es hstart'.1 hstart'.2 hclean hrun
    have hd : s ∈ m.dirty_shards := by
      by_contra hnd
      have := hset cut pos hcut hpos hnd
      omega
    refine ⟨hd, ?_⟩
    have hne : m.dirty_shards ≠ [] := List.ne_nil_of_mem hd
    obtain ⟨lc, hc, _⟩ := MarkNextCut_of_dirty v q m hne hinv.nodup (Inv_cut_ready v q m hinv)
    exact ⟨_, _, hc, hd⟩
  · intro m1 m ops es hreach hd hrun hno
    have hinv1 := Inv_of_Reachable v q m1 hreach
    exact Stale_run v q s ops (BlockShard m1 s).1 m es (Inv_BlockShard v q m1 s hinv1)
      (Stale_of_block v q s m1 hinv1 hd) hno hrun

/-- C7 amended, at the example: (a) from `exampleReadmitted`, where shard 0 was blocked while
dirty and unblocked again, storage node 11 reports progress 3 for shard 0; the report raises
the recorded progress, and in the resulting state shard 0 is unblocked, at position 3 past
`last_cut` 0, and dirty again. (b) Blocking shard 0 in `exampleDirty`, where it is dirty, and
unblocking it gives `exampleReadmitted`, where shard 0 is at position 2 past `last_cut` 0 and
not dirty. -/
theorem C7_unblocked_shard_ahead_is_dirty_witness :
    (∃ m1 out,
      step exampleView exampleSequencer exampleReadmitted (Op.storageProgress 11 [3, 5]) =
        some (m1, out) ∧
      raisesShard exampleView exampleSequencer 0 exampleReadmitted
        (Op.storageProgress 11 [3, 5]) = true ∧
      0 ∈ m1.unblocked_shards ∧
      GetShardReplicatedPosition exampleView exampleSequencer m1 0 = some 3 ∧
      mapFind m1.last_cut 0 = some 0 ∧
      0 ∈ m1.dirty_shards) ∧
    (0 ∈ exampleDirty.dirty_shards ∧
      run exampleView exampleSequencer (BlockShard exampleDirty 0).1 [Op.unblock 0] =
        some (exampleReadmitted, []) ∧
      0 ∈ exampleReadmitted.unblocked_shards ∧
      0 ∉ exampleReadmitted.dirty_shards ∧
      ∃ cut pos, mapFind exampleReadmitted.last_cut 0 = some cut ∧
        GetShardReplicatedPosition exampleView exampleSequencer exampleReadmitted 0 =
          some pos ∧ cut < pos) :=
  ⟨⟨_, _, rfl, rfl, by decide, rfl, rfl,
      ((C7_unblocked_shard_ahead_is_dirty exampleView exampleSequencer 0
        { shard_id := JoinTwo16 1 0, storage_nodes := [10, 11] } rfl (by decide)).1
        _ _ [] [] (Or.inr ⟨exampleReadmitted, Op.storageProgress 11 [3, 5], _,
          exampleReadmitted_reachable, rfl, rfl⟩) rfl rfl 0 3 rfl rfl (by decide)).1⟩,
    by decide, rfl, by decide,
    (C7_unblocked_shard_ahead_is_dirty exampleView exampleSequencer 0
      { shard_id := JoinTwo16 1 0, storage_nodes := [10, 11] } rfl (by decide)).2
      exampleDirty exampleReadmitted [Op.unblock 0] [] exampleDirty_reachable (by decide)
      rfl rfl⟩

/-- C8: from a reachable state, (i) a call that returns an entry listing shard `s` leaves
`last_cut[s] = shard_start + shard_delta` of that entry, and a call that returns no entry, or
an entry that does not list `s`, leaves `last_cut[s]` unchanged; (ii) in the sequence of
entries returned along any run, if two entries both list `s` and no entry between them lists
`s`, the later entry's `shard_start` for `s` is the earlier entry's `shard_start` plus
`shard_delta` for `s`, so the ranges cut for `s` are contiguous and do not overlap. -/
theorem C8_successive_cuts_contiguous (v : View) (q : Sequencer) (m0 : MetaLogPrimary)
    (s : Nat) (hreach : Reachable v q m0) :
    (∀ op m1 out, step v q m0 op = some (m1, out) →
      (∀ e, out = some e → s ∈ e.new_logs_proto.shard_ids →
        ∃ a d, entryStart e s = some a ∧ entryDelta e s = some d ∧
          mapFind m1.last_cut s = some (a + d)) ∧
      ((∀ e, out = some e → s ∉ e.new_logs_proto.shard_ids) →
        mapFind m1.last_cut s = mapFind m0.last_cut s)) ∧
    (∀ ops m es, run v q m0 ops = some (m, es) →
      ∀ pre e1 mid e2 post, es = pre ++ e1 :: (mid ++ e2 :: post) →
        s ∈ e1.new_logs_proto.shard_ids → s ∈ e2.new_logs_proto.shard_ids →
        (∀ x ∈ mid, s ∉ x.new_logs_proto.shard_ids) →
        ∃ a d, entryStart e1 s = some a ∧ entryDelta e1 s = some d ∧
          entryStart e2 s = some (a + d)) := by
  have hinv := Inv_of_Reachable v q m0 hreach
  constructor
  · intro op m1 out hs
    constructor
    · intro e he hmem
      subst he
      obtain ⟨a, d, _, h2, h3, h4⟩ := MarkNextCut_listed v q m0 m1 e s hinv
        (step_entry_is_cut v q m0 m1 op e hs) hmem
      exact ⟨a, d, h2, h3, h4⟩
    · intro hout
      exact step_last_cut_unlisted v q m0 m1 op out s hinv hs hout
  · intro ops m es hr
    exact (run_cuts_contiguous v q s ops m0 m es hinv hr).2

/-- C8, at the example: the two cuts of `exampleTwoCutsOps` list shard 0 with start 0 and
delta 2, then with start 2. -/
theorem C8_successive_cuts_contiguous_witness :
    Reachable exampleView exampleSequencer exampleInit ∧
    (∃ m, run exampleView exampleSequencer exampleInit exampleTwoCutsOps =
      some (m, [exampleFirstCut, exampleSecondCut])) ∧
    entryStart exampleFirstCut 0 = some 0 ∧ entryDelta exampleFirstCut 0 = some 2 ∧
    entryStart exampleSecondCut 0 = some 2 ∧
    ∃ a d, entryStart exampleFirstCut 0 = some a ∧ entryDelta exampleFirstCut 0 = some d ∧
      entryStart exampleSecondCut 0 = some (a + d) :=
  ⟨⟨exampleInit, [], [], rfl, rfl⟩, ⟨_, rfl⟩, rfl, rfl, rfl,
    (C8_successive_cuts_contiguous exampleView exampleSequencer exampleInit 0
      ⟨exampleInit, [], [], rfl, rfl⟩).2 exampleTwoCutsOps _
      [exampleFirstCut, exampleSecondCut] rfl [] exampleFirstCut [] exampleSecondCut [] rfl
      (by decide) (by decide) (by simp)⟩

/-- C9: with `dirty_shards` empty, `MarkNextCut` returns no entry and leaves the whole state
(among it `last_cut`, `dirty_shards`, `unblocked_shards`, the shard progresses and the
metalog and seqnum positions) unchanged. -/
theorem C9_MarkNextCut_empty (v : View) (q : Sequencer) (m : MetaLogPrimary)
    (h : m.dirty_shards = []) : MarkNextCut v q m = some (m, none) := by
  simp [MarkNextCut, h]

/-- C9, at the example: nothing is dirty right after construction. -/
theorem C9_MarkNextCut_empty_witness :
    exampleInit.dirty_shards = [] ∧
    MarkNextCut exampleView exampleSequencer exampleInit = some (exampleInit, none) :=
  ⟨rfl, C9_MarkNextCut_empty exampleView exampleSequencer exampleInit rfl⟩

/-- C10: for a known shard `s` (a key of `last_cut`) in a state whose dirty shards are all
unblocked, `BlockShard(s)` succeeds, leaves `s` in neither `unblocked_shards` nor
`dirty_shards`, changes no `last_cut` and returns `last_cut[s]`; a second `BlockShard(s)`
leaves the state reached by the first one unchanged and again returns success with the same
`last_cut[s]`. -/
theorem C10_BlockShard_idempotent (m : MetaLogPrimary) (s cut : Nat)
    (hknown : mapFind m.last_cut s = some cut)
    (hdirty : ∀ x ∈ m.dirty_shards, x ∈ m.unblocked_shards) :
    (BlockShard m s).2 = (true, cut) ∧
    s ∉ (BlockShard m s).1.unblocked_shards ∧
    s ∉ (BlockShard m s).1.dirty_shards ∧
    (BlockShard m s).1.last_cut = m.last_cut ∧
    BlockShard (BlockShard m s).1 s = ((BlockShard m s).1, true, cut) := by
  by_cases hu : s ∈ m.unblocked_shards
  · have hb : BlockShard m s =
        ({ m with dirty_shards := setErase m.dirty_shards s
                  unblocked_shards := setErase m.unblocked_shards s
                  blocking_change := true }, true, cut) := by
      unfold BlockShard
      simp only [hknown, hu, not_true_eq_false, if_false]
      by_cases hd : s ∈ m.dirty_shards
      · simp [hd]
      · have he : setErase m.dirty_shards s = m.dirty_shards := by
          unfold setErase
          rw [List.filter_eq_self]
          intro a ha
          have : a ≠ s := fun e => hd (e ▸ ha)
          simpa using this
        simp [hd, he]
    rw [hb]
    refine ⟨rfl, by simp [mem_setErase], by simp [mem_setErase], rfl, ?_⟩
    unfold BlockShard
    simp [hknown, mem_setErase]
  · have hb : BlockShard m s = (m, true, cut) := by
      unfold BlockShard
      simp [hknown, hu]
    rw [hb]
    exact ⟨rfl, hu, fun hd => hu (hdirty s hd), rfl, hb⟩

/-- C10, at the example: blocking the dirty shard 0 of `exampleDirty`. -/
theorem C10_BlockShard_idempotent_witness :
    mapFind exampleDirty.last_cut 0 = some 0 ∧
    (BlockShard exampleDirty 0).2 = (true, 0) ∧
    (BlockShard exampleDirty 0).1.unblocked_shards = [1] ∧
    (BlockShard exampleDirty 0).1.dirty_shards = [1] ∧
    BlockShard (BlockShard exampleDirty 0).1 0 = ((BlockShard exampleDirty 0).1, true, 0) :=
  ⟨rfl, (C10_BlockShard_idempotent exampleDirty 0 0 rfl (by decide)).1, rfl, rfl,
    (C10_BlockShard_idempotent exampleDirty 0 0 rfl (by decide)).2.2.2.2⟩

/-- C11, as stated, fails: in `exampleBlocked` shard 0 is known with `last_cut[0] = 2`; the
first `UnblockShard(0)` succeeds with output 2, the second one directly after it returns
`false` with output 0. -/
theorem C11_second_UnblockShard_fails :
    ¬ (∀ (v : View) (q : Sequencer) (m : MetaLogPrimary) (s cut : Nat), Reachable v q m →
        mapFind m.last_cut s = some cut →
        (UnblockShard (UnblockShard m s).1 s).1 = (UnblockShard m s).1 ∧
        (UnblockShard (UnblockShard m s).1 s).2 = (UnblockShard m s).2 ∧
        (UnblockShard (UnblockShard m s).1 s).2 = (true, cut)) := by
  intro hall
  have h := (hall exampleView exampleSequencer exampleBlocked 0 2 exampleBlocked_reachable
    rfl).2.2
  have h2 : (UnblockShard (UnblockShard exampleBlocked 0).1 0).2 = (false, 0) := rfl
  rw [h2] at h
  exact absurd h (by decide)

/-- C11, amended: for every state and every known shard `s`, a second `UnblockShard(s)`
directly after a first leaves the sequencer state unchanged, and it reports failure
(`false`, output 0) because `s` is then already unblocked.  The first call succeeds with
output `last_cut[s]` when `s` was blocked before it, and fails in the same way, changing
nothing, when `s` was already unblocked. -/
theorem C11_UnblockShard_repeated (m : MetaLogPrimary) (s cut : Nat)
    (hknown : mapFind m.last_cut s = some cut) :
    (UnblockShard (UnblockShard m s).1 s).1 = (UnblockShard m s).1 ∧
    (UnblockShard (UnblockShard m s).1 s).2 = (false, 0) ∧
    s ∈ (UnblockShard m s).1.unblocked_shards ∧
    (s ∉ m.unblocked_shards → (UnblockShard m s).2 = (true, cut)) ∧
    (s ∈ m.unblocked_shards → UnblockShard m s = (m, false, 0)) := by
  by_cases hu : s ∈ m.unblocked_shards
  · have h1 : UnblockShard m s = (m, false, 0) := by
      unfold UnblockShard
      simp [hknown, hu]
    rw [h1]
    exact ⟨by rw [h1], by rw [h1], hu, fun h => absurd hu h, fun _ => rfl⟩
  · have h1 : UnblockShard m s =
        ({ m with unblocked_shards := setInsert m.unblocked_shards s
                  blocking_change := true }, true, cut) := by
      unfold UnblockShard
      simp [hknown, hu]
    have hmem : s ∈ setInsert m.unblocked_shards s := (mem_setInsert _ _ _).mpr (Or.inr rfl)
    have h2 : UnblockShard { m with unblocked_shards := setInsert m.unblocked_shards s
                                    blocking_change := true } s =
        ({ m with unblocked_shards := setInsert m.unblocked_shards s
                  blocking_change := true }, false, 0) := by
      unfold UnblockShard
      simp [hknown, hmem]
    rw [h1]
    exact ⟨by rw [h2], by rw [h2], hmem, fun _ => rfl, fun h => absurd h hu⟩

/-- C11 amended, at the example: unblocking shard 0 of `exampleBlocked` twice. -/
theorem C11_UnblockShard_repeated_witness :
    mapFind exampleBlocked.last_cut 0 = some 2 ∧
    (UnblockShard exampleBlocked 0).2 = (true, 2) ∧
    (UnblockShard (UnblockShard exampleBlocked 0).1 0).1 = (UnblockShard exampleBlocked 0).1 ∧
    (UnblockShard (UnblockShard exampleBlocked 0).1 0).2 = (false, 0) :=
  ⟨rfl, rfl, (C11_UnblockShard_repeated exampleBlocked 0 2 rfl).1,
    (C11_UnblockShard_repeated exampleBlocked 0 2 rfl).2.1⟩

/-- C12: for a shard id that is not a key of `last_cut`, `BlockShard` and `UnblockShard` both
return `false`, set the `last_cut` output to 0 and leave the whole state (among it
`unblocked_shards`, `dirty_shards`, `last_cut` and `blocking_change`) unchanged. -/
theorem C12_unknown_shard_rejected (m : MetaLogPrimary) (s : Nat)
    (hunknown : mapFind m.last_cut s = none) :
    BlockShard m s = (m, false, 0) ∧ UnblockShard m s = (m, false, 0) := by
  constructor
  · unfold BlockShard
    simp [hunknown]
  · unfold UnblockShard
    simp [hunknown]

/-- C12, at the example: shard 7 is not a shard of `exampleView`. -/
theorem C12_unknown_shard_rejected_witness :
    mapFind exampleDirty.last_cut 7 = none ∧
    BlockShard exampleDirty 7 = (exampleDirty, false, 0) ∧
    UnblockShard exampleDirty 7 = (exampleDirty, false, 0) :=
  ⟨rfl, C12_unknown_shard_rejected exampleDirty 7 rfl⟩

/-- C13: a freshly constructed producer has no pending localid at or above `next_localid`;
in a producer state `p` with that property, and short of the wrap-around of the 64-bit
counter, `LocalAppend` returns `next_localid` as the localid, increases `next_localid` by
exactly one, records `caller_data` under that localid, which was not pending before, keeps
every other pending append and reports the current `seqnum_position`.  Along any sequence of
calls from `p` the localids returned by the `LocalAppend` calls are the consecutive numbers
starting at `p.next_localid`, hence pairwise distinct. -/
theorem C13_LocalAppend_localids (p : LogProducer) (hinv : ProducerInv p) :
    (∀ a b c d e, ProducerInv (LogProducer.create a b c d e)) ∧
    (∀ caller_data, p.next_localid + 1 < 2 ^ 64 →
      (p.LocalAppend caller_data).2.1 = p.next_localid ∧
      (p.LocalAppend caller_data).1.next_localid = p.next_localid + 1 ∧
      mapFind p.pending_appends p.next_localid = none ∧
      mapFind (p.LocalAppend caller_data).1.pending_appends p.next_localid = some caller_data ∧
      (∀ k, k ≠ p.next_localid →
        mapFind (p.LocalAppend caller_data).1.pending_appends k = mapFind p.pending_appends k) ∧
      (p.LocalAppend caller_data).2.2 = p.seqnum_position) ∧
    (∀ ops p' ids, producerRun p ops = some (p', ids) →
      p.next_localid + ids.length < 2 ^ 64 →
      ids = List.range' p.next_localid ids.length ∧ ids.Nodup ∧
      p'.next_localid = p.next_localid + ids.length) := by
  refine ⟨ProducerInv_create, ?_, ?_⟩
  · intro cd hlt
    refine ⟨rfl, Nat.mod_eq_of_lt hlt, ?_, ?_, ?_, rfl⟩
    · cases hf : mapFind p.pending_appends p.next_localid with
      | none => rfl
      | some x =>
        have := hinv p.next_localid (by simp [hf])
        omega
    · exact mapFind_mapSet_self _ _ _
    · intro k hk
      exact mapFind_mapSet_ne _ _ (fun e => hk e.symm)
  · intro ops p' ids hr hlt
    obtain ⟨h1, h2, _⟩ := producerRun_ids ops p p' ids hinv hr hlt
    refine ⟨h1, ?_, h2⟩
    rw [h1]
    exact List.nodup_range' _ _

/-- C13, at the example: three appends on `exampleProducer`, with a metalog in between,
return the localids `3‖7`, `3‖8`, `3‖9`. -/
theorem C13_LocalAppend_localids_witness :
    ProducerInv exampleProducer ∧
    (∃ p', producerRun exampleProducer exampleProducerOps =
      some (p', [JoinTwo32 3 7, JoinTwo32 3 8, JoinTwo32 3 9])) ∧
    [JoinTwo32 3 7, JoinTwo32 3 8, JoinTwo32 3 9] =
      List.range' exampleProducer.next_localid 3 :=
  ⟨ProducerInv_create 0 1 3 0 7, ⟨_, rfl⟩,
    ((C13_LocalAppend_localids exampleProducer (ProducerInv_create 0 1 3 0 7)).2.2
      exampleProducerOps _ [JoinTwo32 3 7, JoinTwo32 3 8, JoinTwo32 3 9] rfl
      (by decide)).1⟩

/-- C14: if every localid `start_localid + i`, `i < delta`, is pending, `LogProducer::OnNewLogs`
appends exactly `delta` results, the `i`-th carrying `seqnum = start_seqnum + i`,
`localid = start_localid + i`, `metalog_progress = JoinTwo32(identifier, metalog_seqnum + 1)`
and the caller data pending under that localid; it removes exactly those localids from
`pending_appends`, keeps every other pending append and changes nothing else.  The sums are
`uint64_t` sums; they are the plain sums when the ranges do not wrap around. -/
theorem C14_OnNewLogs_resolves_range (p : LogProducer)
    (metalog_seqnum start_seqnum start_localid delta storage_shard_id : Nat)
    (hdelta : delta < 2 ^ 32)
    (hpend : ∀ i, i < delta → (mapFind p.pending_appends (add64 start_localid i)).isSome) :
    ∃ p' added, p.OnNewLogs metalog_seqnum start_seqnum start_localid delta storage_shard_id =
        some p' ∧
      p'.pending_append_results = p.pending_append_results ++ added ∧
      added.length = delta ∧
      (∀ i, i < delta → ∃ caller_data,
        mapFind p.pending_appends (add64 start_localid i) = some caller_data ∧
        added[i]? = some
          { seqnum := add64 start_seqnum i
            localid := add64 start_localid i
            metalog_progress := JoinTwo32 p.identifier (add32 metalog_seqnum 1)
            caller_data := caller_data }) ∧
      (∀ k, mapFind p'.pending_appends k =
        if k ∈ (List.range delta).map (add64 start_localid) then none
        else mapFind p.pending_appends k) ∧
      p'.next_localid = p.next_localid ∧ p'.seqnum_position = p.seqnum_position ∧
      p'.identifier = p.identifier ∧ p'.metalog_position = p.metalog_position ∧
      (start_seqnum + delta ≤ 2 ^ 64 → start_localid + delta ≤ 2 ^ 64 →
        ∀ i, i < delta → add64 start_seqnum i = start_seqnum + i ∧
          add64 start_localid i = start_localid + i) := by
  have hloop := newLogsLoop_spec metalog_seqnum start_seqnum start_localid delta 0 p
    (by omega) (fun j _ h => hpend j (by omega))
  refine ⟨_, _, hloop, rfl, by simp, ?_, ?_, rfl, rfl, rfl, rfl, ?_⟩
  · intro i hi
    obtain ⟨cd, hcd⟩ := Option.isSome_iff_exists.mp (hpend i hi)
    refine ⟨cd, hcd, ?_⟩
    rw [List.getElem?_map, List.getElem?_range' _ _ hi]
    simp [hcd]
  · intro k
    show mapFind (p.pending_appends.filter (fun kv =>
      decide (kv.1 ∉ (List.range' 0 delta).map (add64 start_localid)))) k = _
    rw [mapFind_filter_key (fun x =>
      decide (x ∉ (List.range' 0 delta).map (add64 start_localid))) k, List.range_eq_range']
    by_cases hk : k ∈ (List.range' 0 delta).map (add64 start_localid) <;> simp [hk]
  · intro h1 h2 i hi
    unfold add64
    constructor <;> apply Nat.mod_eq_of_lt <;> omega

/-- C14, at the example: the metalog covers both pending appends of `examplePending`. -/
theorem C14_OnNewLogs_resolves_range_witness :
    (∀ i, i < 2 → (mapFind examplePending.pending_appends (add64 (JoinTwo32 3 7) i)).isSome) ∧
    examplePending.OnNewLogs 4 (JoinTwo32 1 10) (JoinTwo32 3 7) 2 3 =
      some { examplePending with
        pending_append_results :=
          [{ seqnum := JoinTwo32 1 10, localid := JoinTwo32 3 7,
             metalog_progress := JoinTwo32 1 5, caller_data := 100 },
           { seqnum := JoinTwo32 1 11, localid := JoinTwo32 3 8,
             metalog_progress := JoinTwo32 1 5, caller_data := 101 }]
        pending_appends := [] } ∧
    ∃ p' added, examplePending.OnNewLogs 4 (JoinTwo32 1 10) (JoinTwo32 3 7) 2 3 = some p' ∧
      p'.pending_append_results = examplePending.pending_append_results ++ added ∧
      added.length = 2 :=
  ⟨by decide, rfl,
    (C14_OnNewLogs_resolves_range examplePending 4 (JoinTwo32 1 10) (JoinTwo32 3 7) 2 3
      (by decide) (by decide)).elim (fun p' h => h.elim (fun added h' =>
        ⟨p', added, h'.1, h'.2.1, h'.2.2.1⟩))⟩

/-- C15: for a producer with `N` pending appends, `OnFinalized` appends exactly `N` results
after those already buffered, one for each pending localid in iteration order, each with
`seqnum = kInvalidLogSeqNum`, `metalog_progress = 0` and that append's own caller data, and
leaves `pending_appends` empty; nothing else changes. -/
theorem C15_OnFinalized_fails_pending (p : LogProducer) (metalog_position : Nat) :
    ∃ added, (p.OnFinalized metalog_position).pending_append_results =
        p.pending_append_results ++ added ∧
      added.length = p.pending_appends.length ∧
      (∀ (i : Nat) (kv : Nat × Nat), p.pending_appends[i]? = some kv →
        added[i]? = some
          { seqnum := kInvalidLogSeqNum, localid := kv.1, metalog_progress := 0,
            caller_data := kv.2 }) ∧
      (p.OnFinalized metalog_position).pending_appends = [] ∧
      (p.OnFinalized metalog_position).next_localid = p.next_localid ∧
      (p.OnFinalized metalog_position).seqnum_position = p.seqnum_position := by
  refine ⟨_, rfl, by simp, ?_, rfl, rfl, rfl⟩
  intro i kv hkv
  simp [List.getElem?_map, hkv]

/-- C15, at the example: finalizing `examplePending` fails its two pending appends. -/
theorem C15_OnFinalized_fails_pending_witness :
    (examplePending.OnFinalized 0).pending_append_results =
      [{ seqnum := kInvalidLogSeqNum, localid := JoinTwo32 3 7, metalog_progress := 0,
         caller_data := 100 },
       { seqnum := kInvalidLogSeqNum, localid := JoinTwo32 3 8, metalog_progress := 0,
         caller_data := 101 }] ∧
    (examplePending.OnFinalized 0).pending_appends = [] ∧
    ∃ added, (examplePending.OnFinalized 0).pending_append_results =
      examplePending.pending_append_results ++ added ∧ added.length = 2 :=
  ⟨rfl, rfl, (C15_OnFinalized_fails_pending examplePending 0).elim
    (fun added h => ⟨added, h.1, h.2.1⟩)⟩

/-- C16, as stated, fails: with shard 3 at progress `2 ^ 32 - 1`, `Store` of localid
`3‖(2 ^ 32 - 1)` makes the `uint32_t` scan counter wrap to 0; the progress stays
`2 ^ 32 - 1`, a value whose localid is pending, and the dirty flag is not set.  So it is not
true that after every `Store` the progress of the stored shard is a value `n`, not below the
previous progress, whose localid `JoinTwo32(h, n)` is not pending. -/
theorem C16_progress_stays_when_counter_wraps :
    (∃ s' n, exampleSaturated.Store (exampleMeta (2 ^ 32 - 1)) [42] [120, 121] =
        some (s', true) ∧
      (mapFind exampleSaturated.shard_progresses 3).getD 0 = 2 ^ 32 - 1 ∧
      mapFind s'.shard_progresses 3 = some n ∧ n = 2 ^ 32 - 1 ∧
      mapFind s'.pending_log_entries (JoinTwo32 3 n) ≠ none ∧
      s'.shard_progress_dirty = false) ∧
    ¬ (∀ (s s' : LogStorage) (log_metadata : LogMetaData) (user_tags log_data : List Nat)
        (b : Bool), s.Store log_metadata user_tags log_data = some (s', b) →
        ∃ n, mapFind s'.shard_progresses (HighHalf64 log_metadata.localid % 2 ^ 16) = some n ∧
          (mapFind s.shard_progresses (HighHalf64 log_metadata.localid % 2 ^ 16)).getD 0 ≤ n ∧
          mapFind s'.pending_log_entries
            (JoinTwo32 (HighHalf64 log_metadata.localid % 2 ^ 16) n) = none) := by
  have hrun : ∃ s' n, exampleSaturated.Store (exampleMeta (2 ^ 32 - 1)) [42] [120, 121] =
        some (s', true) ∧
      (mapFind exampleSaturated.shard_progresses 3).getD 0 = 2 ^ 32 - 1 ∧
      mapFind s'.shard_progresses 3 = some n ∧ n = 2 ^ 32 - 1 ∧
      mapFind s'.pending_log_entries (JoinTwo32 3 n) ≠ none ∧
      s'.shard_progress_dirty = false :=
    ⟨_, _, rfl, rfl, rfl, rfl, by decide, rfl⟩
  refine ⟨hrun, ?_⟩
  intro hall
  obtain ⟨s', n0, hstore, _, hprog, _, hpend, _⟩ := hrun
  obtain ⟨n, hn, _, hfree⟩ := hall exampleSaturated s' (exampleMeta (2 ^ 32 - 1)) [42]
    [120, 121] true hstore
  have hshard : HighHalf64 (exampleMeta (2 ^ 32 - 1)).localid % 2 ^ 16 = 3 := by decide
  rw [hshard] at hn hfree
  rw [hprog] at hn
  cases hn
  exact hpend hfree

/-- C16 (amended): let `h` be the shard of the stored localid, `prev` the previous value of
`shard_progresses[h]` (0 when absent) and `pending` the pending entries after the insertion.
(i) A `Store` that returns leaves exactly `pending` pending, returns `true`, never decreases
the progress, sets `shard_progress_dirty` when the progress strictly increased and keeps it
otherwise, and touches no other shard's progress.  (ii) The scan terminates whenever fewer
than `2 ^ 32` entries are pending.  (iii) If some `uint32_t` value `g ≥ prev` has
`JoinTwo32(h, g)` not pending, the new progress is the smallest `n ≥ prev` with
`JoinTwo32(h, n)` not pending: every localid from `prev` up to `n - 1` is pending.
(iv) If there is no such value, every localid of the shard from `prev` up to `2 ^ 32 - 1`
being pending, the scan counter wraps and a `Store` that returns leaves the progress at
`prev` and the dirty flag as it was.  (v) The scan terminates, and `Store` returns, exactly
when some `uint32_t` value `n` has `JoinTwo32(h, n)` not pending. -/
theorem C16_Store_advances_shard_progress (s : LogStorage) (log_metadata : LogMetaData)
    (user_tags log_data : List Nat) (h prev : Nat) (pending : List (Nat × LogEntry))
    (hh : h = HighHalf64 log_metadata.localid % 2 ^ 16)
    (hprev : prev = (mapFind s.shard_progresses h).getD 0)
    (hpending : pending = mapSet s.pending_log_entries log_metadata.localid
      { metadata := log_metadata, user_tags := user_tags, data := log_data }) :
    (∀ s' b, s.Store log_metadata user_tags log_data = some (s', b) →
      b = true ∧ s'.pending_log_entries = pending ∧
      (∃ n, mapFind s'.shard_progresses h = some n ∧ prev ≤ n ∧
        (prev < n → s'.shard_progress_dirty = true) ∧
        (n = prev → s'.shard_progress_dirty = s.shard_progress_dirty)) ∧
      ∀ h', h' ≠ h → mapFind s'.shard_progresses h' = mapFind s.shard_progresses h') ∧
    (prev < 2 ^ 32 → pending.length < 2 ^ 32 →
      ∃ s', s.Store log_metadata user_tags log_data = some (s', true)) ∧
    (∀ g, prev ≤ g → g < 2 ^ 32 → mapFind pending (JoinTwo32 h g) = none →
      ∃ s' n, s.Store log_metadata user_tags log_data = some (s', true) ∧
        mapFind s'.shard_progresses h = some n ∧ prev ≤ n ∧ n ≤ g ∧
        mapFind pending (JoinTwo32 h n) = none ∧
        ∀ k, prev ≤ k → k < n → (mapFind pending (JoinTwo32 h k)).isSome) ∧
    (prev < 2 ^ 32 →
      (∀ g, prev ≤ g → g < 2 ^ 32 → (mapFind pending (JoinTwo32 h g)).isSome) →
      ∀ s' b, s.Store log_metadata user_tags log_data = some (s', b) →
        mapFind s'.shard_progresses h = some prev ∧
        s'.shard_progress_dirty = s.shard_progress_dirty) ∧
    (prev < 2 ^ 32 →
      ((∃ s', s.Store log_metadata user_tags log_data = some (s', true)) ↔
        ∃ n, n < 2 ^ 32 ∧ mapFind pending (JoinTwo32 h n) = none)) := by
  subst hh hprev hpending
  have hstore : ∀ current, advanceScan
      (mapSet s.pending_log_entries log_metadata.localid
        { metadata := log_metadata, user_tags := user_tags, data := log_data })
      (HighHalf64 log_metadata.localid % 2 ^ 16) (2 ^ 32)
      ((mapFind s.shard_progresses (HighHalf64 log_metadata.localid % 2 ^ 16)).getD 0) =
        some current →
      ∃ s', s.Store log_metadata user_tags log_data = some (s', true) := by
    intro current hscan
    have := AdvanceShardProgress_of_scan
      { s with pending_log_entries := (mapSet s.pending_log_entries log_metadata.localid
          { metadata := log_metadata, user_tags := user_tags, data := log_data }) }
      (HighHalf64 log_metadata.localid % 2 ^ 16) current hscan
    unfold LogStorage.Store
    simp only [this]
    exact ⟨_, rfl⟩
  have hgen : ∀ s' b, s.Store log_metadata user_tags log_data = some (s', b) →
      ∃ current, advanceScan
        (mapSet s.pending_log_entries log_metadata.localid
          { metadata := log_metadata, user_tags := user_tags, data := log_data })
        (HighHalf64 log_metadata.localid % 2 ^ 16) (2 ^ 32)
        ((mapFind s.shard_progresses (HighHalf64 log_metadata.localid % 2 ^ 16)).getD 0) =
          some current ∧
      b = true ∧
      s'.pending_log_entries = mapSet s.pending_log_entries log_metadata.localid
        { metadata := log_metadata, user_tags := user_tags, data := log_data } ∧
      (∃ n, mapFind s'.shard_progresses (HighHalf64 log_metadata.localid % 2 ^ 16) = some n ∧
        (mapFind s.shard_progresses (HighHalf64 log_metadata.localid % 2 ^ 16)).getD 0 ≤ n ∧
        ((mapFind s.shard_progresses (HighHalf64 log_metadata.localid % 2 ^ 16)).getD 0 < n →
          n = current ∧ s'.shard_progress_dirty = true) ∧
        (n = (mapFind s.shard_progresses (HighHalf64 log_metadata.localid % 2 ^ 16)).getD 0 →
          current ≤ n ∧ s'.shard_progress_dirty = s.shard_progress_dirty)) ∧
      ∀ h', h' ≠ HighHalf64 log_metadata.localid % 2 ^ 16 →
        mapFind s'.shard_progresses h' = mapFind s.shard_progresses h' := by
    intro s' b hs
    obtain ⟨hb, hadv⟩ := Store_cases s s' log_metadata user_tags log_data b hs
    obtain ⟨current, hscan, hcase⟩ := AdvanceShardProgress_cases _ s' _ hadv
    refine ⟨current, hscan, hb, ?_⟩
    rcases hcase with ⟨hlt, rfl⟩ | ⟨hle, rfl⟩
    · refine ⟨rfl, ⟨current, mapFind_mapSet_self _ _ _, Nat.le_of_lt hlt,
        fun _ => ⟨rfl, rfl⟩, fun e => ?_⟩, ?_⟩
      · have hlt' : (mapFind s.shard_progresses (HighHalf64 log_metadata.localid % 2 ^ 16)).getD 0
            < current := hlt
        omega
      · intro h' hne
        show mapFind (mapSet (mapTouch s.shard_progresses _ 0) _ current) h' = _
        rw [mapFind_mapSet_ne _ _ (fun e => hne e.symm), mapFind_mapTouch,
          if_neg (fun e => hne e.symm)]
    · refine ⟨rfl, ⟨(mapFind s.shard_progresses
          (HighHalf64 log_metadata.localid % 2 ^ 16)).getD 0, ?_, le_refl _,
        fun hlt => absurd hlt (lt_irrefl _), fun _ => ⟨hle, rfl⟩⟩, ?_⟩
      · show mapFind (mapTouch s.shard_progresses _ 0) _ = _
        rw [mapFind_mapTouch]
        simp
      · intro h' hne
        show mapFind (mapTouch s.shard_progresses _ 0) h' = _
        rw [mapFind_mapTouch, if_neg (fun e => hne e.symm)]
  refine ⟨?_, ?_, ?_, ?_, ?_⟩
  · intro s' b hs
    obtain ⟨current, _, hb, hp, ⟨n, hn, hle, hinc, hsame⟩, hframe⟩ := hgen s' b hs
    exact ⟨hb, hp, ⟨n, hn, hle, fun hlt => (hinc hlt).2, fun e => (hsame e).2⟩, hframe⟩
  · intro hp hsize
    obtain ⟨n, hn⟩ := advanceScan_terminates _ (HighHalf64 log_metadata.localid % 2 ^ 16) _
      hp hsize
    exact hstore n hn
  · intro g hg1 hg2 hgap
    obtain ⟨n, hng, ⟨hn1, hn2⟩, hmin⟩ := least_gap
      (fun k => (mapFind s.shard_progresses (HighHalf64 log_metadata.localid % 2 ^ 16)).getD 0
          ≤ k ∧
        mapFind (mapSet s.pending_log_entries log_metadata.localid
          { metadata := log_metadata, user_tags := user_tags, data := log_data })
          (JoinTwo32 (HighHalf64 log_metadata.localid % 2 ^ 16) k) = none) g ⟨hg1, hgap⟩
    have hfull : ∀ k,
        (mapFind s.shard_progresses (HighHalf64 log_metadata.localid % 2 ^ 16)).getD 0 ≤ k →
        k < n → (mapFind (mapSet s.pending_log_entries log_metadata.localid
          { metadata := log_metadata, user_tags := user_tags, data := log_data })
          (JoinTwo32 (HighHalf64 log_metadata.localid % 2 ^ 16) k)).isSome := by
      intro k hk1 hk2
      have := hmin k hk2
      simp only [not_and] at this
      have hne := this hk1
      cases hf : mapFind (mapSet s.pending_log_entries log_metadata.localid
          { metadata := log_metadata, user_tags := user_tags, data := log_data })
          (JoinTwo32 (HighHalf64 log_metadata.localid % 2 ^ 16) k) with
      | none => exact absurd hf hne
      | some x => rfl
    have hscan := advanceScan_found
      (mapSet s.pending_log_entries log_metadata.localid
        { metadata := log_metadata, user_tags := user_tags, data := log_data })
      (HighHalf64 log_metadata.localid % 2 ^ 16) n
      (by omega) (by unfold mapContains; rw [hn2]; rfl)
      (n - (mapFind s.shard_progresses (HighHalf64 log_metadata.localid % 2 ^ 16)).getD 0)
      ((mapFind s.shard_progresses (HighHalf64 log_metadata.localid % 2 ^ 16)).getD 0)
      (2 ^ 32) (by omega) (by omega)
      (fun k hk1 hk2 => by unfold mapContains; exact hfull k hk1 hk2)
    obtain ⟨s', hs'⟩ := hstore n hscan
    obtain ⟨current, hscan', _, _, ⟨m, hm, hle, hinc, hsame⟩, _⟩ := hgen s' true hs'
    rw [hscan] at hscan'
    cases hscan'
    have hmn : m = n := by
      rcases Nat.lt_or_ge ((mapFind s.shard_progresses
        (HighHalf64 log_metadata.localid % 2 ^ 16)).getD 0) m with hlt | hge
      · exact (hinc hlt).1
      · have e : m = (mapFind s.shard_progresses
          (HighHalf64 log_metadata.localid % 2 ^ 16)).getD 0 := by omega
        have := (hsame e).1
        omega
    subst hmn
    exact ⟨s', m, hs', hm, hn1, hng, hn2, hfull⟩
  · intro hp hall s' b hs
    obtain ⟨current, hscan, _, _, ⟨n, hn, hle, hinc, hsame⟩, _⟩ := hgen s' b hs
    obtain ⟨hfree, hbound⟩ := advanceScan_some _ _ _ _ _ hscan
    have hcur : current < 2 ^ 32 := by
      rcases hbound with e | e
      · rw [e]
        exact hp
      · exact e
    by_cases hlt : (mapFind s.shard_progresses (HighHalf64 log_metadata.localid % 2 ^ 16)).getD 0
        < n
    · have hnc := (hinc hlt).1
      have hsome := hall current (by omega) hcur
      rw [hfree] at hsome
      cases hsome
    · have e : n = (mapFind s.shard_progresses
          (HighHalf64 log_metadata.localid % 2 ^ 16)).getD 0 := by omega
      exact ⟨e ▸ hn, (hsame e).2⟩
  · intro hp
    constructor
    · rintro ⟨s', hs⟩
      obtain ⟨current, hscan, _⟩ := hgen s' true hs
      obtain ⟨hfree, hbound⟩ := advanceScan_some _ _ _ _ _ hscan
      refine ⟨current, ?_, hfree⟩
      rcases hbound with e | e
      · rw [e]
        exact hp
      · exact e
    · rintro ⟨n, hn, hfree⟩
      cases hscan : advanceScan
          (mapSet s.pending_log_entries log_metadata.localid
            { metadata := log_metadata, user_tags := user_tags, data := log_data })
          (HighHalf64 log_metadata.localid % 2 ^ 16) (2 ^ 32)
          ((mapFind s.shard_progresses (HighHalf64 log_metadata.localid % 2 ^ 16)).getD 0) with
      | some c => exact hstore c hscan
      | none =>
        have hall := advanceScan_none _ _ _ _ hp hscan
          ((n + 2 ^ 32 - (mapFind s.shard_progresses
            (HighHalf64 log_metadata.localid % 2 ^ 16)).getD 0) % 2 ^ 32)
          (Nat.mod_lt _ (by norm_num))
        have e : ((mapFind s.shard_progresses
            (HighHalf64 log_metadata.localid % 2 ^ 16)).getD 0 +
            (n + 2 ^ 32 - (mapFind s.shard_progresses
              (HighHalf64 log_metadata.localid % 2 ^ 16)).getD 0) % 2 ^ 32) % 2 ^ 32 = n := by
          omega
        rw [e] at hall
        unfold mapContains at hall
        rw [hfree] at hall
        cases hall

/-- C16, at the example: shard 3 of `exampleStorage` is at progress 7; storing localid `3‖7`
moves it to 8 and sets the dirty flag. -/
theorem C16_Store_advances_shard_progress_witness :
    (∃ s', exampleStorage.Store (exampleMeta 7) [42] [120, 121] = some (s', true) ∧
      mapFind s'.shard_progresses 3 = some 8 ∧ s'.shard_progress_dirty = true) ∧
    ∃ s' n, exampleStorage.Store (exampleMeta 7) [42] [120, 121] = some (s', true) ∧
      mapFind s'.shard_progresses 3 = some n ∧ 7 ≤ n ∧ n ≤ 8 ∧
      mapFind (mapSet exampleStorage.pending_log_entries (exampleMeta 7).localid
        { metadata := exampleMeta 7, user_tags := [42], data := [120, 121] })
        (JoinTwo32 3 n) = none ∧
      ∀ k, 7 ≤ k → k < n →
        (mapFind (mapSet exampleStorage.pending_log_entries (exampleMeta 7).localid
          { metadata := exampleMeta 7, user_tags := [42], data := [120, 121] })
          (JoinTwo32 3 k)).isSome :=
  ⟨⟨_, rfl, rfl, rfl⟩,
    (C16_Store_advances_shard_progress exampleStorage (exampleMeta 7) [42] [120, 121] 3 7 _
      rfl rfl rfl).2.2.1 8 (by decide) (by decide) (by decide)⟩

/-- C17: the storage round trip.  An entry stored with `Store(metadata, tags, data)` under
localid `L` is pending under `L`; once `OnNewLogs` is applied to a state in which it is still
pending as stored and its range covers `L` at index `i` (`delta` being a `uint32_t`), `L` is
no longer in `pending_log_entries` and the entry has been given the seqnum
`s = start_seqnum + i`.  In every later state whose live set still holds at `s` what
`OnNewLogs` left there (`s` has not been evicted) and whose `seqnum_position` is above `s`,
`ReadAt(s)` queues nothing and emits exactly one result: status `kOK`, with the stored
metadata stamped with `seqnum = s` and the tags and data as stored. -/
theorem C17_store_read_round_trip (max_size : Nat) (s0 s1 s1' s2 s3 : LogStorage) (b : Bool)
    (metadata : LogMetaData) (tags data : List Nat)
    (metalog_seqnum start_seqnum start_localid delta storage_shard_id i : Nat)
    (request : SharedLogMessage)
    (hstore : s0.Store metadata tags data = some (s1, b))
    (hpending : mapFind s1'.pending_log_entries metadata.localid =
      mapFind s1.pending_log_entries metadata.localid)
    (hnew : LogStorage.OnNewLogs max_size s1' metalog_seqnum start_seqnum start_localid delta
      storage_shard_id = some s2)
    (hdelta : delta < 2 ^ 32) (hi : i < delta)
    (hlocalid : metadata.localid = add64 start_localid i)
    (hlive : mapFind s3.live_log_entries (add64 start_seqnum i) =
      mapFind s2.live_log_entries (add64 start_seqnum i))
    (hkept : (mapFind s3.live_log_entries (add64 start_seqnum i)).isSome)
    (hpos : add64 start_seqnum i < s3.seqnum_position)
    (hreq : JoinTwo32 request.logspace_id request.seqnum_lowhalf = add64 start_seqnum i) :
    mapFind s1.pending_log_entries metadata.localid =
      some { metadata := metadata, user_tags := tags, data := data } ∧
    mapFind s2.pending_log_entries metadata.localid = none ∧
    s3.ReadAt request =
      { s3 with
        pending_read_results := s3.pending_read_results ++
          [{ status := ReadStatus.kOK
             log_entry := some
               { metadata := { metadata with seqnum := add64 start_seqnum i }
                 user_tags := tags, data := data }
             original_request := request }] } := by
  obtain ⟨hp1, -⟩ := Store_frame s0 s1 metadata tags data b hstore
  have hstored : mapFind s1.pending_log_entries metadata.localid =
      some { metadata := metadata, user_tags := tags, data := data } := by
    rw [hp1, mapFind_mapSet_self]
  obtain ⟨s', hloop, hp2, hl2, -⟩ :=
    OnNewLogs_loop max_size s1' s2 metalog_seqnum start_seqnum start_localid delta
      storage_shard_id hnew
  have hpe : mapFind s1'.pending_log_entries (add64 start_localid i) =
      some { metadata := metadata, user_tags := tags, data := data } := by
    rw [← hlocalid, hpending, hstored]
  obtain ⟨hgone, hlv⟩ := storageLoop_assign max_size start_seqnum start_localid delta 0
    { s1' with
      pending_read_requests :=
        (failPastReads start_seqnum s1'.pending_read_requests s1'.pending_read_results).1
      pending_read_results :=
        (failPastReads start_seqnum s1'.pending_read_requests s1'.pending_read_results).2 }
    s' i _ (by omega) (Nat.zero_le _) (by omega) hpe hloop
  refine ⟨hstored, ?_, ?_⟩
  · rw [hp2, hlocalid]
    exact hgone
  · rw [← hl2, ← hlive] at hlv
    rcases hlv with hnone | hsome
    · rw [hnone] at hkept
      cases hkept
    · unfold LogStorage.ReadAt
      simp only [hreq, ge_iff_le, Nat.not_le.mpr hpos, if_false, hsome]

/-- C17, at the example: localid `3‖7` is stored on `exampleStorage`, a cut gives it seqnum
`1‖5`, and reading `1‖5` returns the stored tags `[42]` and bytes `[120, 121]`. -/
theorem C17_store_read_round_trip_witness :
    ∃ s1 s2, exampleStorage.Store (exampleMeta 7) [42] [120, 121] = some (s1, true) ∧
      LogStorage.OnNewLogs 65536 s1 0 (JoinTwo32 1 5) (JoinTwo32 3 7) 1 3 = some s2 ∧
      mapFind s1.pending_log_entries (exampleMeta 7).localid =
        some { metadata := exampleMeta 7, user_tags := [42], data := [120, 121] } ∧
      mapFind s2.pending_log_entries (exampleMeta 7).localid = none ∧
      s2.ReadAt { op_type := 0, logspace_id := 1, seqnum_lowhalf := 5
                  user_metalog_progress := 0, storage_shard_id := 3, origin_node_id := 0
                  hop_times := 0, client_data := 0, payload_size := 0 } =
        { s2 with
          pending_read_results := s2.pending_read_results ++
            [{ status := ReadStatus.kOK
               log_entry := some
                 { metadata := { exampleMeta 7 with seqnum := add64 (JoinTwo32 1 5) 0 }
                   user_tags := [42], data := [120, 121] }
               original_request :=
                 { op_type := 0, logspace_id := 1, seqnum_lowhalf := 5
                   user_metalog_progress := 0, storage_shard_id := 3, origin_node_id := 0
                   hop_times := 0, client_data := 0, payload_size := 0 } }] } :=
  ⟨_, _, rfl, rfl,
    C17_store_read_round_trip 65536 exampleStorage _ _ _ _ true (exampleMeta 7) [42]
      [120, 121] 0 (JoinTwo32 1 5) (JoinTwo32 3 7) 1 3 0 _ rfl rfl rfl (by decide)
      (by decide) rfl rfl rfl (by decide) rfl⟩

/-- C18: `ReadAt` on the request for `seqnum = JoinTwo32(logspace_id, seqnum_lowhalf)` does
exactly one of two things.  If `seqnum >= seqnum_position` the request is queued on
`pending_read_requests` (which gains this one pair) and nothing else changes, so no result
is emitted.  Otherwise nothing is queued and exactly one result for the request is appended
to `pending_read_results`: `kOK` with the live entry if `seqnum` is in `live_log_entries`,
else `kLookupDB` if `seqnum < persisted_seqnum_position`, else `kFailed`, the last two with
no entry. -/
theorem C18_ReadAt_queues_or_answers (s : LogStorage) (request : SharedLogMessage)
    (seqnum : Nat) (hseq : seqnum = JoinTwo32 request.logspace_id request.seqnum_lowhalf) :
    (s.seqnum_position ≤ seqnum →
      s.ReadAt request =
        { s with
          pending_read_requests := multimapInsert s.pending_read_requests seqnum request } ∧
      (multimapInsert s.pending_read_requests seqnum request).Perm
        ((seqnum, request) :: s.pending_read_requests) ∧
      (s.ReadAt request).pending_read_results = s.pending_read_results) ∧
    (seqnum < s.seqnum_position →
      ∃ result : ReadResult,
        s.ReadAt request =
          { s with pending_read_results := s.pending_read_results ++ [result] } ∧
        (s.ReadAt request).pending_read_requests = s.pending_read_requests ∧
        result.original_request = request ∧
        (∀ entry, mapFind s.live_log_entries seqnum = some entry →
          result.status = ReadStatus.kOK ∧ result.log_entry = some entry) ∧
        (mapFind s.live_log_entries seqnum = none → seqnum < s.persisted_seqnum_position →
          result.status = ReadStatus.kLookupDB ∧ result.log_entry = none) ∧
        (mapFind s.live_log_entries seqnum = none → s.persisted_seqnum_position ≤ seqnum →
          result.status = ReadStatus.kFailed ∧ result.log_entry = none)) := by
  subst hseq
  constructor
  · intro hge
    have hread : s.ReadAt request =
        { s with
          pending_read_requests := multimapInsert s.pending_read_requests
            (JoinTwo32 request.logspace_id request.seqnum_lowhalf) request } := by
      unfold LogStorage.ReadAt
      simp only [ge_iff_le, hge, if_true]
    refine ⟨hread, multimapInsert_perm _ _ _, ?_⟩
    rw [hread]
  · intro hlt
    have hnot : ¬ (JoinTwo32 request.logspace_id request.seqnum_lowhalf ≥ s.seqnum_position) :=
      Nat.not_le.mpr hlt
    cases hl : mapFind s.live_log_entries
        (JoinTwo32 request.logspace_id request.seqnum_lowhalf) with
    | some entry =>
      have hread : s.ReadAt request =
          { s with
            pending_read_results := s.pending_read_results ++
              [{ status := ReadStatus.kOK, log_entry := some entry
                 original_request := request }] } := by
        unfold LogStorage.ReadAt
        simp only [hnot, if_false, hl]
      refine ⟨_, hread, by rw [hread], rfl, ?_, ?_, ?_⟩
      · intro e he
        cases he
        exact ⟨rfl, rfl⟩
      · intro h
        cases h
      · intro h
        cases h
    | none =>
      by_cases hp : JoinTwo32 request.logspace_id request.seqnum_lowhalf <
          s.persisted_seqnum_position
      · have hread : s.ReadAt request =
            { s with
              pending_read_results := s.pending_read_results ++
                [{ status := ReadStatus.kLookupDB, log_entry := none
                   original_request := request }] } := by
          unfold LogStorage.ReadAt
          simp only [hnot, if_false, hl, hp, if_true]
        refine ⟨_, hread, by rw [hread], rfl, ?_, ?_, ?_⟩
        · intro e he
          cases he
        · intro _ _
          exact ⟨rfl, rfl⟩
        · intro _ hle
          omega
      · have hread : s.ReadAt request =
            { s with
              pending_read_results := s.pending_read_results ++
                [{ status := ReadStatus.kFailed, log_entry := none
                   original_request := request }] } := by
          unfold LogStorage.ReadAt
          simp only [hnot, if_false, hl, hp]
        refine ⟨_, hread, by rw [hread], rfl, ?_, ?_, ?_⟩
        · intro e he
          cases he
        · intro _ hlt'
          exact absurd hlt' hp
        · intro _ _
          exact ⟨rfl, rfl⟩

/-- C18, at the example: on `exampleStorage` (seqnum position `1‖10`, persisted position
`1‖4`) a read of `1‖12` is queued and a read of `1‖2`, not live, is answered `kLookupDB`. -/
theorem C18_ReadAt_queues_or_answers_witness :
    (exampleStorage.ReadAt
        { op_type := 0, logspace_id := 1, seqnum_lowhalf := 12, user_metalog_progress := 0
          storage_shard_id := 3, origin_node_id := 0, hop_times := 0, client_data := 0
          payload_size := 0 }).pending_read_results = exampleStorage.pending_read_results ∧
    ∃ result : ReadResult,
      exampleStorage.ReadAt
          { op_type := 0, logspace_id := 1, seqnum_lowhalf := 2, user_metalog_progress := 0
            storage_shard_id := 3, origin_node_id := 0, hop_times := 0, client_data := 0
            payload_size := 0 } =
        { exampleStorage with
          pending_read_results := exampleStorage.pending_read_results ++ [result] } ∧
      result.status = ReadStatus.kLookupDB ∧ result.log_entry = none :=
  ⟨((C18_ReadAt_queues_or_answers exampleStorage
      { op_type := 0, logspace_id := 1, seqnum_lowhalf := 12, user_metalog_progress := 0
        storage_shard_id := 3, origin_node_id := 0, hop_times := 0, client_data := 0
        payload_size := 0 } (JoinTwo32 1 12) rfl).1 (by decide)).2.2,
    ⟨_, rfl, rfl, rfl⟩⟩

/-- C19: `OnMetaLogApplied` on a `NEW_LOGS` entry (whose number of shard ids fits the
`uint32_t` field).  If the accumulator `index_data` holds at least one seqnum, exactly one
package is appended to `index_data_packages`: the accumulator with all its entries, stamped
with the current `metalog_position`, with `local_seqnum_position` as end seqnum position and
with `num_productive_storage_shards` the number of shard ids of the applied entry; the
accumulator is cleared and nothing else changes.  If it holds no seqnum the state is
unchanged.  So the number of packages grows, by one, exactly when the accumulator holds a
seqnum. -/
theorem C19_OnMetaLogApplied_emits_index_package (s : LogStorage)
    (meta_log_proto : MetaLogProto)
    (htype : meta_log_proto.type = MetaLogType.NEW_LOGS)
    (hsize : meta_log_proto.new_logs_proto.shard_ids.length < 2 ^ 32) :
    (s.index_data.seqnum_halves ≠ [] →
      s.OnMetaLogApplied meta_log_proto =
        { s with
          index_data_packages :=
            { s.index_data_packages with
              index_data_proto := s.index_data_packages.index_data_proto ++
                [{ s.index_data with
                   metalog_position := s.metalog_position
                   end_seqnum_position := s.local_seqnum_position
                   num_productive_storage_shards :=
                     meta_log_proto.new_logs_proto.shard_ids.length }] }
          index_data := IndexDataProto.empty }) ∧
    (s.index_data.seqnum_halves = [] → s.OnMetaLogApplied meta_log_proto = s) ∧
    ((s.OnMetaLogApplied meta_log_proto).index_data_packages.index_data_proto.length =
        s.index_data_packages.index_data_proto.length + 1 ↔
      s.index_data.seqnum_halves ≠ []) ∧
    ((s.OnMetaLogApplied meta_log_proto).index_data_packages.index_data_proto.length =
        s.index_data_packages.index_data_proto.length ↔
      s.index_data.seqnum_halves = []) := by
  have hne : s.index_data.seqnum_halves ≠ [] →
      s.OnMetaLogApplied meta_log_proto =
        { s with
          index_data_packages :=
            { s.index_data_packages with
              index_data_proto := s.index_data_packages.index_data_proto ++
                [{ s.index_data with
                   metalog_position := s.metalog_position
                   end_seqnum_position := s.local_seqnum_position
                   num_productive_storage_shards :=
                     meta_log_proto.new_logs_proto.shard_ids.length }] }
          index_data := IndexDataProto.empty } := by
    intro h
    have hpos : 0 < s.index_data.seqnum_halves.length := List.length_pos.mpr h
    unfold LogStorage.OnMetaLogApplied
    simp only [htype, hpos, if_true, Nat.mod_eq_of_lt hsize]
  have hemp : s.index_data.seqnum_halves = [] → s.OnMetaLogApplied meta_log_proto = s := by
    intro h
    unfold LogStorage.OnMetaLogApplied
    simp only [htype, h, List.length_nil, Nat.lt_irrefl, if_false]
  refine ⟨hne, hemp, ?_, ?_⟩
  · constructor
    · intro hlen hnil
      rw [hemp hnil] at hlen
      omega
    · intro h
      rw [hne h]
      simp
  · constructor
    · intro hlen
      by_contra h
      rw [hne h] at hlen
      simp at hlen
    · intro h
      rw [hemp h]

/-- C19, at the example: with one seqnum accumulated, applying a `NEW_LOGS` entry of two
shards appends one package with `num_productive_storage_shards = 2` and clears the
accumulator. -/
theorem C19_OnMetaLogApplied_emits_index_package_witness :
    (LogStorage.OnMetaLogApplied
        { exampleStorage with
          index_data := { IndexDataProto.empty with seqnum_halves := [5], engine_ids := [3] } }
        exampleFirstCut).index_data_packages.index_data_proto =
      [{ IndexDataProto.empty with
         metalog_position := 4, end_seqnum_position := 0, num_productive_storage_shards := 2
         seqnum_halves := [5], engine_ids := [3] }] ∧
    (LogStorage.OnMetaLogApplied
        { exampleStorage with
          index_data := { IndexDataProto.empty with seqnum_halves := [5], engine_ids := [3] } }
        exampleFirstCut).index_data = IndexDataProto.empty :=
  have h := (C19_OnMetaLogApplied_emits_index_package
    { exampleStorage with
      index_data := { IndexDataProto.empty with seqnum_halves := [5], engine_ids := [3] } }
    exampleFirstCut rfl (by decide)).1 (by decide)
  ⟨by rw [h]; rfl, by rw [h]⟩

/-- C20 (counterexample): `LogEntriesPersisted` stores its argument whatever the current
value is.  On `exampleStorage`, whose persisted position is `1‖4`, the call with
`new_position = 0` lowers `persisted_seqnum_position` to `0`. -/
theorem C20_LogEntriesPersisted_can_decrease :
    (LogStorage.LogEntriesPersisted 65536 exampleStorage 0).persisted_seqnum_position = 0 ∧
    exampleStorage.persisted_seqnum_position = JoinTwo32 1 4 ∧
    (LogStorage.LogEntriesPersisted 65536 exampleStorage 0).persisted_seqnum_position <
      exampleStorage.persisted_seqnum_position := by
  refine ⟨rfl, rfl, ?_⟩
  decide

/-- C20 (amended): for every state and every argument, after
`LogEntriesPersisted(new_position)` the value of `persisted_seqnum_position` is
`new_position`; so it is greater than or equal to its value before the call exactly when
`new_position` is not below that value, and it is lower than before exactly when
`new_position` is. -/
theorem C20_LogEntriesPersisted_sets_position (max_size : Nat) (s : LogStorage)
    (new_position : Nat) :
    (LogStorage.LogEntriesPersisted max_size s new_position).persisted_seqnum_position =
      new_position ∧
    (s.persisted_seqnum_position ≤
        (LogStorage.LogEntriesPersisted max_size s new_position).persisted_seqnum_position ↔
      s.persisted_seqnum_position ≤ new_position) ∧
    ((LogStorage.LogEntriesPersisted max_size s new_position).persisted_seqnum_position <
        s.persisted_seqnum_position ↔
      new_position < s.persisted_seqnum_position) :=
  ⟨rfl, Iff.rfl, Iff.rfl⟩

/-- C20 (amended), at the example: the persisted position of `exampleStorage`, `1‖4`, becomes
`1‖6` with the argument `1‖6`, which is not below it, and `1‖2` with the argument `1‖2`,
which is. -/
theorem C20_LogEntriesPersisted_sets_position_witness :
    (LogStorage.LogEntriesPersisted 65536 exampleStorage
      (JoinTwo32 1 6)).persisted_seqnum_position = JoinTwo32 1 6 ∧
    exampleStorage.persisted_seqnum_position ≤
      (LogStorage.LogEntriesPersisted 65536 exampleStorage
        (JoinTwo32 1 6)).persisted_seqnum_position ∧
    (LogStorage.LogEntriesPersisted 65536 exampleStorage
        (JoinTwo32 1 2)).persisted_seqnum_position <
      exampleStorage.persisted_seqnum_position :=
  ⟨(C20_LogEntriesPersisted_sets_position 65536 exampleStorage (JoinTwo32 1 6)).1,
    (C20_LogEntriesPersisted_sets_position 65536 exampleStorage (JoinTwo32 1 6)).2.1.mpr
      (by decide),
    (C20_LogEntriesPersisted_sets_position 65536 exampleStorage (JoinTwo32 1 2)).2.2.mpr
      (by decide)⟩

/-- C21: `ShrinkLiveEntriesIfNeeded` (a loop that pops one seqnum per round, so it ends)
changes only `live_seqnums` and `live_log_entries`.  It removes a prefix `evicted` of
`live_seqnums` and erases exactly those seqnums from `live_log_entries`; every evicted seqnum
is strictly below `persisted_seqnum_position`; an eviction happens only with more than
`max_size` live seqnums and leaves at least `max_size` of them, so the live set never shrinks
below `min(previous size, max_size)`; no seqnum at or above `persisted_seqnum_position` loses
its entry; and afterwards the size is at most `max_size` or the front seqnum is at or above
`persisted_seqnum_position`. -/
theorem C21_ShrinkLiveEntriesIfNeeded_evicts_persisted_front (max_size : Nat)
    (s : LogStorage) :
    ∃ evicted : List Nat,
      LogStorage.ShrinkLiveEntriesIfNeeded max_size s =
        { s with
          live_seqnums := (LogStorage.ShrinkLiveEntriesIfNeeded max_size s).live_seqnums
          live_log_entries := evicted.foldl mapErase s.live_log_entries } ∧
      s.live_seqnums =
        evicted ++ (LogStorage.ShrinkLiveEntriesIfNeeded max_size s).live_seqnums ∧
      (∀ x ∈ evicted, x < s.persisted_seqnum_position) ∧
      (evicted ≠ [] → max_size < s.live_seqnums.length) ∧
      min s.live_seqnums.length max_size ≤
        (LogStorage.ShrinkLiveEntriesIfNeeded max_size s).live_seqnums.length ∧
      (∀ k, s.persisted_seqnum_position ≤ k →
        mapFind (LogStorage.ShrinkLiveEntriesIfNeeded max_size s).live_log_entries k =
          mapFind s.live_log_entries k) ∧
      (∀ k, k ∉ evicted →
        mapFind (LogStorage.ShrinkLiveEntriesIfNeeded max_size s).live_log_entries k =
          mapFind s.live_log_entries k) ∧
      ((LogStorage.ShrinkLiveEntriesIfNeeded max_size s).live_seqnums.length ≤ max_size ∨
        ∃ front rest,
          (LogStorage.ShrinkLiveEntriesIfNeeded max_size s).live_seqnums = front :: rest ∧
          s.persisted_seqnum_position ≤ front) := by
  obtain ⟨ev, h1, h2, h3, h4, h5⟩ :=
    shrinkLoop_spec max_size s.persisted_seqnum_position s.live_seqnums s.live_log_entries
  have hlive : (LogStorage.ShrinkLiveEntriesIfNeeded max_size s).live_log_entries =
      ev.foldl mapErase s.live_log_entries := h3
  refine ⟨ev, ?_, h1, h2, fun h => (h4 h).1, ?_, ?_, ?_, h5⟩
  · unfold LogStorage.ShrinkLiveEntriesIfNeeded
    rw [h3]
  · show min s.live_seqnums.length max_size ≤
      (shrinkLoop max_size s.persisted_seqnum_position s.live_seqnums
        s.live_log_entries).1.length
    by_cases hev : ev = []
    · subst hev
      rw [List.nil_append] at h1
      rw [← h1]
      exact Nat.min_le_left _ _
    · exact le_trans (Nat.min_le_right _ _) (h4 hev).2
  · intro k hk
    rw [hlive, mapFind_foldl_mapErase]
    have hnot : k ∉ ev := fun hmem => by
      have := h2 k hmem
      omega
    rw [if_neg hnot]
  · intro k hk
    rw [hlive, mapFind_foldl_mapErase, if_neg hk]

/-- C22: on a state whose `live_seqnums` is sorted ascending, holds an entry for every live
seqnum and no invalid seqnum, `GrabLogEntriesForPersistence` (a `const` method, so the state
is as before) returns.  It returns `false`, with `*log_entries` and `*new_position` as they
were, exactly when `live_seqnums` is empty or its last element is below
`persisted_seqnum_position`.  Otherwise it returns `true`, `*log_entries` holds the live
entries of exactly the live seqnums at or above `persisted_seqnum_position`, in the
(ascending) order of `live_seqnums` and at least one, and `*new_position` is the last live
seqnum plus one, which is above `persisted_seqnum_position`. -/
theorem C22_GrabLogEntriesForPersistence_suffix (s : LogStorage)
    (log_entries : List LogEntry) (new_position : Nat)
    (hsorted : s.live_seqnums.Pairwise (fun a b => a ≤ b))
    (hkeys : ∀ x ∈ s.live_seqnums, (mapFind s.live_log_entries x).isSome)
    (hvalid : ∀ x ∈ s.live_seqnums, x < kInvalidLogSeqNum) :
    ∃ (b : Bool) (out : List LogEntry) (pos : Nat),
      s.GrabLogEntriesForPersistence log_entries new_position = some (b, out, pos) ∧
      (b = false ↔ (s.live_seqnums = [] ∨
        ∃ back, s.live_seqnums.getLast? = some back ∧ back < s.persisted_seqnum_position)) ∧
      (b = false → out = log_entries ∧ pos = new_position) ∧
      (b = true →
        out.map some =
          (s.live_seqnums.filter (fun x => decide (s.persisted_seqnum_position ≤ x))).map
            (mapFind s.live_log_entries) ∧
        (s.live_seqnums.filter
          (fun x => decide (s.persisted_seqnum_position ≤ x))).Pairwise (fun a b => a ≤ b) ∧
        out ≠ [] ∧
        ∃ back, s.live_seqnums.getLast? = some back ∧ pos = back + 1 ∧
          s.persisted_seqnum_position < pos) := by
  cases hlast : s.live_seqnums.getLast? with
  | none =>
    have hnil : s.live_seqnums = [] := List.getLast?_eq_none_iff.mp hlast
    refine ⟨false, log_entries, new_position, ?_, ?_, fun _ => ⟨rfl, rfl⟩, ?_⟩
    · unfold LogStorage.GrabLogEntriesForPersistence
      simp only [hlast]
    · exact ⟨fun _ => Or.inl hnil, fun _ => rfl⟩
    · intro h
      cases h
  | some back =>
    by_cases hb : back < s.persisted_seqnum_position
    · refine ⟨false, log_entries, new_position, ?_, ?_, fun _ => ⟨rfl, rfl⟩, ?_⟩
      · unfold LogStorage.GrabLogEntriesForPersistence
        simp only [hlast, hb, if_true]
      · exact ⟨fun _ => Or.inr ⟨back, rfl, hb⟩, fun _ => rfl⟩
      · intro h
        cases h
    · have hmem : back ∈ s.live_seqnums := List.mem_of_getLast?_eq_some hlast
      have hdrop := dropWhile_lt_eq_filter s.persisted_seqnum_position s.live_seqnums hsorted
      obtain ⟨entries, hgrab, hentries⟩ := grabLoop_spec s.live_log_entries
        (s.live_seqnums.filter (fun x => decide (s.persisted_seqnum_position ≤ x))) []
        (fun x hx => hkeys x (List.mem_of_mem_filter hx))
      rw [List.nil_append] at hgrab
      have hback : back < kInvalidLogSeqNum := hvalid back hmem
      have hadd : add64 back 1 = back + 1 := by
        unfold add64
        unfold kInvalidLogSeqNum at hback
        omega
      refine ⟨true, entries, back + 1, ?_, ?_, ?_, ?_⟩
      · unfold LogStorage.GrabLogEntriesForPersistence
        simp only [hlast, hb, if_false, hdrop, hgrab, hadd]
      · constructor
        · intro h
          cases h
        · rintro (hnil | ⟨back', hb1, hb2⟩)
          · rw [hnil] at hmem
            cases hmem
          · cases hb1
            exact absurd hb2 hb
      · intro h
        cases h
      · intro _
        refine ⟨hentries, List.Pairwise.sublist (List.filter_sublist _) hsorted, ?_,
          back, rfl, rfl, by omega⟩
        intro hnil
        rw [hnil] at hentries
        have hin : back ∈ s.live_seqnums.filter
            (fun x => decide (s.persisted_seqnum_position ≤ x)) :=
          List.mem_filter.mpr ⟨hmem, by simpa using Nat.le_of_not_lt hb⟩
        cases hf : s.live_seqnums.filter
            (fun x => decide (s.persisted_seqnum_position ≤ x)) with
        | nil =>
          rw [hf] at hin
          cases hin
        | cons y ys =>
          rw [hf] at hentries
          cases hentries

/-- C22, at the example: of the live seqnums `1‖5`, `1‖6`, `1‖7` of `exampleLive`, persisted
up to `1‖7`, only the entry of `1‖7` is handed over, and the new position is `1‖8`. -/
theorem C22_GrabLogEntriesForPersistence_suffix_witness :
    exampleLive.GrabLogEntriesForPersistence [] 0 =
      some (true, [exampleEntry 9 7], JoinTwo32 1 8) ∧
    ∃ (b : Bool) (out : List LogEntry) (pos : Nat),
      exampleLive.GrabLogEntriesForPersistence [] 0 = some (b, out, pos) ∧
      (b = false ↔ (exampleLive.live_seqnums = [] ∨
        ∃ back, exampleLive.live_seqnums.getLast? = some back ∧
          back < exampleLive.persisted_seqnum_position)) :=
  ⟨by decide,
    (C22_GrabLogEntriesForPersistence_suffix exampleLive [] 0 (by decide) (by decide)
      (by decide)).imp fun _ hb => hb.imp fun _ ho => ho.imp fun _ h => ⟨h.1, h.2.1⟩⟩

/-- C21, at the example: with `max_size = 1`, `exampleLive` (live `1‖5`, `1‖6`, `1‖7`,
persisted up to `1‖7`) keeps `1‖7` only, and what it drops is a prefix below the persisted
position. -/
theorem C21_ShrinkLiveEntriesIfNeeded_evicts_persisted_front_witness :
    (LogStorage.ShrinkLiveEntriesIfNeeded 1 exampleLive).live_seqnums = [JoinTwo32 1 7] ∧
    ∃ evicted : List Nat,
      exampleLive.live_seqnums =
        evicted ++ (LogStorage.ShrinkLiveEntriesIfNeeded 1 exampleLive).live_seqnums ∧
      ∀ x ∈ evicted, x < exampleLive.persisted_seqnum_position :=
  ⟨by decide,
    (C21_ShrinkLiveEntriesIfNeeded_evicts_persisted_front 1 exampleLive).imp
      fun _ h => ⟨h.2.1, h.2.2.1⟩⟩

/-- C27 (the code at the failing input): with localid `3‖7` pending, the loop of
`RemovePendingEntries(4)` is still looping after any number of rounds, the pending entries
untouched; and on any state and shard the loop is left only when `pending_log_entries` is
empty to begin with, while a matching first entry is erased under an iterator that is used
again. -/
theorem C27_RemovePendingEntries_never_leaves_loop :
    (∀ rounds, LogStorage.RemovePendingEntries rounds exampleStored 4 =
      RemoveOutcome.looping) ∧
    (∀ rounds (s : LogStorage) (shard : Nat) (out : List (Nat × LogEntry)),
      LogStorage.RemovePendingEntries rounds s shard = RemoveOutcome.returned out →
        s.pending_log_entries = [] ∧ out = []) ∧
    (∀ rounds, LogStorage.RemovePendingEntries (rounds + 1) exampleStored 3 =
      RemoveOutcome.invalidIterator []) := by
  refine ⟨?_, ?_, ?_⟩
  · intro rounds
    exact removePendingLoop_stuck 4 (JoinTwo32 3 7) _ [] (by decide) rounds
  · intro rounds s shard out h
    exact removePendingLoop_returned shard s.pending_log_entries out rounds h
  · intro rounds
    rfl

/-- C26: `OnNewLogs` on a state whose read queue is ordered by seqnum (it is a multimap),
with `delta` a `uint32_t`, the seqnum range `[start_seqnum, start_seqnum + delta)` not
wrapping and every covered localid pending.  The call returns; the queue keeps, unchanged
and in order, exactly the requests with seqnum at or above `start_seqnum + delta`; the
results gain, in queue order, one `kFailed` result without entry for each queued request
below `start_seqnum` and then one `kOK` result for each queued request inside the range,
carrying the entry finalized at its seqnum: the pending entry of the corresponding localid
with its `seqnum` set, which is also what `live_log_entries` holds at that seqnum unless it
was evicted at once. -/
theorem C26_OnNewLogs_settles_queued_reads (max_size : Nat) (s : LogStorage)
    (metalog_seqnum start_seqnum start_localid delta storage_shard_id : Nat)
    (hdelta : delta < 2 ^ 32) (hwrap : start_seqnum + delta ≤ 2 ^ 64)
    (hsorted : s.pending_read_requests.Pairwise (fun a b => a.1 ≤ b.1))
    (hpending : ∀ i, i < delta →
      (mapFind s.pending_log_entries (add64 start_localid i)).isSome) :
    ∃ s2, LogStorage.OnNewLogs max_size s metalog_seqnum start_seqnum start_localid delta
        storage_shard_id = some s2 ∧
      s2.pending_read_requests =
        s.pending_read_requests.filter (fun kv => decide (start_seqnum + delta ≤ kv.1)) ∧
      s2.pending_read_results = s.pending_read_results ++
        (s.pending_read_requests.filter (fun kv => decide (kv.1 < start_seqnum))).map
          (fun kv => { status := ReadStatus.kFailed, log_entry := none
                       original_request := kv.2 }) ++
        (s.pending_read_requests.filter
          (fun kv => decide (start_seqnum ≤ kv.1 ∧ kv.1 < start_seqnum + delta))).map
          (fun kv => { status := ReadStatus.kOK
                       log_entry :=
                         finalizedEntry s.pending_log_entries start_seqnum start_localid kv.1
                       original_request := kv.2 }) ∧
      ∀ seqnum, start_seqnum ≤ seqnum → seqnum < start_seqnum + delta →
        ∃ e, mapFind s.pending_log_entries (add64 start_localid (seqnum - start_seqnum)) =
            some e ∧
          finalizedEntry s.pending_log_entries start_seqnum start_localid seqnum =
            some { e with metadata := { e.metadata with seqnum := seqnum } } ∧
          (mapFind s2.live_log_entries seqnum = none ∨
            mapFind s2.live_log_entries seqnum =
              finalizedEntry s.pending_log_entries start_seqnum start_localid seqnum) := by
  have hfail := failPastReads_spec start_seqnum s.pending_read_requests
    s.pending_read_results hsorted
  obtain ⟨s', hloop, hq, hr⟩ := storageLoop_reads max_size start_seqnum start_localid delta 0
    { s with
      pending_read_requests :=
        (failPastReads start_seqnum s.pending_read_requests s.pending_read_results).1
      pending_read_results :=
        (failPastReads start_seqnum s.pending_read_requests s.pending_read_results).2 }
    (by omega) (by omega)
    (by
      show (failPastReads start_seqnum s.pending_read_requests
        s.pending_read_results).1.Pairwise _
      rw [hfail]
      exact List.Pairwise.filter _ hsorted)
    (by
      intro kv hkv
      have hkv' : kv ∈ (failPastReads start_seqnum s.pending_read_requests
        s.pending_read_results).1 := hkv
      rw [hfail] at hkv'
      obtain ⟨_, h⟩ := List.mem_filter.mp hkv'
      simp only [decide_eq_true_eq] at h
      omega)
    (fun k _ hk => hpending k (by omega))
  have hq' : s'.pending_read_requests =
      (failPastReads start_seqnum s.pending_read_requests s.pending_read_results).1.filter
        (fun kv => decide (start_seqnum + 0 + delta ≤ kv.1)) := hq
  have hr' : s'.pending_read_results =
      (failPastReads start_seqnum s.pending_read_requests s.pending_read_results).2 ++
        ((failPastReads start_seqnum s.pending_read_requests
          s.pending_read_results).1.filter
            (fun kv => decide (kv.1 < start_seqnum + 0 + delta))).map
          (fun kv => { status := ReadStatus.kOK
                       log_entry :=
                         finalizedEntry s.pending_log_entries start_seqnum start_localid kv.1
                       original_request := kv.2 }) := hr
  rw [hfail] at hq' hr'
  simp only [Nat.add_zero] at hq' hr'
  refine ⟨{ s' with
      index_data :=
        { s'.index_data with
          my_productive_storage_shards :=
            s'.index_data.my_productive_storage_shards ++ [storage_shard_id] } }, ?_, ?_, ?_, ?_⟩
  · unfold LogStorage.OnNewLogs
    simp only [hloop]
  · show s'.pending_read_requests = _
    rw [hq', List.filter_filter]
    apply List.filter_congr
    intro kv _
    by_cases hk : start_seqnum + delta ≤ kv.1
    · have : start_seqnum ≤ kv.1 := by omega
      simp [hk, this]
    · simp [hk]
  · show s'.pending_read_results = _
    rw [hr', List.filter_filter]
    congr 2
    apply List.filter_congr
    intro kv _
    by_cases h1 : start_seqnum ≤ kv.1 <;> by_cases h2 : kv.1 < start_seqnum + delta <;>
      simp [h1, h2]
  · intro seqnum h1 h2
    obtain ⟨e, he⟩ := Option.isSome_iff_exists.mp
      (hpending (seqnum - start_seqnum) (by omega))
    have hfe : finalizedEntry s.pending_log_entries start_seqnum start_localid seqnum =
        some { e with metadata := { e.metadata with seqnum := seqnum } } := by
      unfold finalizedEntry
      rw [he]
      rfl
    refine ⟨e, he, hfe, ?_⟩
    obtain ⟨-, hlv⟩ := storageLoop_assign max_size start_seqnum start_localid delta 0
      { s with
        pending_read_requests :=
          (failPastReads start_seqnum s.pending_read_requests s.pending_read_results).1
        pending_read_results :=
          (failPastReads start_seqnum s.pending_read_requests s.pending_read_results).2 }
      s' (seqnum - start_seqnum) e (by omega) (Nat.zero_le _) (by omega) he hloop
    have hadd : add64 start_seqnum (seqnum - start_seqnum) = seqnum := by
      unfold add64
      omega
    rw [hadd] at hlv
    rw [hfe]
    exact hlv

/-- C26, at the example: with reads of `1‖3`, `1‖5` and `1‖9` queued and localid `3‖7`
pending, `OnNewLogs` for the range `[1‖5, 1‖6)` fails the first read, answers the second
with the entry now at `1‖5` and leaves the third queued. -/
theorem C26_OnNewLogs_settles_queued_reads_witness :
    ∃ s2, LogStorage.OnNewLogs 65536 exampleQueued 0 (JoinTwo32 1 5) (JoinTwo32 3 7) 1 3 =
        some s2 ∧
      s2.pending_read_requests = exampleQueued.pending_read_requests.drop 2 ∧
      s2.pending_read_results.map
          (fun r => (r.status, r.log_entry, r.original_request.client_data)) =
        [(ReadStatus.kFailed, none, 30), (ReadStatus.kOK, some (exampleEntry 7 5), 50)] :=
  (C26_OnNewLogs_settles_queued_reads 65536 exampleQueued 0 (JoinTwo32 1 5) (JoinTwo32 3 7) 1
    3 (by decide) (by decide) (by decide) (by decide)).imp
    fun _ h => ⟨h.1, by rw [h.2.1]; decide, by rw [h.2.2.1]; decide⟩

/-- C29: let `s` be reached from a constructed `LogStorage` by calls of `Store`, `ReadAt`,
`OnNewLogs`, `OnMetaLogApplied`, `LogEntriesPersisted` and `ShrinkLiveEntriesIfNeeded` in
which every `OnNewLogs` assigns seqnums above all live ones, without wrap-around.  Then
`live_seqnums` is strictly increasing and holds exactly the keys of `live_log_entries`, each
once, so both have the same size.  `ShrinkLiveEntriesIfNeeded`, `LogEntriesPersisted` and
every such `OnNewLogs` that returns keep this, and all their checks (the ordering and size
checks of `OnNewLogs`, the size check of `ShrinkLiveEntriesIfNeeded`) hold at every round;
and `GrabLogEntriesForPersistence` finds an entry for every seqnum it looks up. -/
theorem C29_live_set_invariant (max_size : Nat) (v : View) (storage_id sequencer_id : Nat)
    (s0 s : LogStorage) (ops : List StorageOp)
    (hcreate : LogStorage.create v storage_id sequencer_id = some s0)
    (hasc : ascendingNewLogs max_size s0 ops = true)
    (hrun : storageRun max_size s0 ops = some s) :
    s.live_seqnums.Pairwise (fun a b => a < b) ∧
    (s.live_log_entries.map Prod.fst).Perm s.live_seqnums ∧
    (∀ k, k ∈ s.live_seqnums ↔ (mapFind s.live_log_entries k).isSome) ∧
    s.live_seqnums.length = s.live_log_entries.length ∧
    (LiveInv (LogStorage.ShrinkLiveEntriesIfNeeded max_size s) ∧
      shrinkDchecks max_size s.persisted_seqnum_position s.live_seqnums
        s.live_log_entries = true) ∧
    (∀ new_position,
      LiveInv (LogStorage.LogEntriesPersisted max_size s new_position) ∧
      shrinkDchecks max_size new_position s.live_seqnums s.live_log_entries = true) ∧
    (∀ metalog_seqnum start_seqnum start_localid delta storage_shard_id s',
      start_seqnum + delta ≤ 2 ^ 64 → (∀ x ∈ s.live_seqnums, x < start_seqnum) →
      LogStorage.OnNewLogs max_size s metalog_seqnum start_seqnum start_localid delta
        storage_shard_id = some s' →
      LiveInv s' ∧
      LogStorage.newLogsDchecks max_size start_seqnum start_localid delta 0
        { s with
          pending_read_requests :=
            (failPastReads start_seqnum s.pending_read_requests s.pending_read_results).1
          pending_read_results :=
            (failPastReads start_seqnum s.pending_read_requests
              s.pending_read_results).2 } = true) ∧
    (∀ out pos, (s.GrabLogEntriesForPersistence out pos).isSome) := by
  have hinv : LiveInv s :=
    LiveInv_run max_size ops s0 s (LiveInv_create v storage_id sequencer_id s0 hcreate)
      hasc hrun
  refine ⟨hinv.1, hinv.2, (LiveInv_keys s hinv).1, (LiveInv_keys s hinv).2,
    LiveInv_Shrink max_size s hinv, ?_, ?_, fun out pos => Grab_isSome s hinv out pos⟩
  · intro new_position
    exact LiveInv_Shrink max_size { s with persisted_seqnum_position := new_position } hinv
  · intro ms ss sl delta shard s' hw hlt h
    exact LiveInv_OnNewLogs max_size s s' ms ss sl delta shard hinv hw hlt h

/-- C29, at the example: storage node 10 of `exampleView`, keeping at most one entry live,
stores two entries, sees them cut at `1‖0` and `1‖1` and persisted, then a third one cut at
`1‖2`; only `1‖2` is live at the end, and the live set is consistent. -/
theorem C29_live_set_invariant_witness :
    ∃ s, storageRun 1 exampleStorageInit exampleStorageOps = some s ∧
      s.live_seqnums = [JoinTwo32 1 2] ∧
      s.live_seqnums.Pairwise (fun a b => a < b) ∧
      s.live_seqnums.length = s.live_log_entries.length :=
  ⟨_, rfl, rfl,
    (C29_live_set_invariant 1 exampleView 10 1 exampleStorageInit _ exampleStorageOps rfl rfl
      rfl).1,
    (C29_live_set_invariant 1 exampleView 10 1 exampleStorageInit _ exampleStorageOps rfl rfl
      rfl).2.2.2.1⟩

/-- C28: in every state reached from the constructor (a run in which a replica report above
`metalog_position` is fatal, so none is accepted), `replicated_metalog_position` does not
exceed `metalog_position`, and an `UpdateReplicaProgress` for a replica of the view with a
position not above `metalog_position` returns.  A returning `UpdateReplicaProgress` never
lowers `replicated_metalog_position` and keeps it at or below `metalog_position`; when the
reported position does not raise the replica's recorded progress the state is unchanged;
when it does, the upper median of the updated progresses, which is the value
`UpdateMetaLogReplicatedPosition` computes, is at least the previous
`replicated_metalog_position` and at most `metalog_position` (its two checks hold).  Over
any further run the committed position never decreases. -/
theorem C28_replicated_position_bounded_monotone (v : View) (q : Sequencer)
    (m : MetaLogPrimary) (h : Reachable v q m) :
    m.replicated_metalog_position ≤ m.metalog_position ∧
    (∀ sid pos, sid ∈ q.replica_sequencer_nodes → pos ≤ m.metalog_position →
      ∃ m', UpdateReplicaProgress q m sid pos = some m') ∧
    (∀ sid pos m', UpdateReplicaProgress q m sid pos = some m' →
      pos ≤ m.metalog_position ∧
      m.replicated_metalog_position ≤ m'.replicated_metalog_position ∧
      m'.replicated_metalog_position ≤ m'.metalog_position ∧
      (pos ≤ (mapFind m.metalog_progresses sid).getD 0 → m' = m) ∧
      (∀ progress, (mapFind m.metalog_progresses sid).getD 0 < pos →
        upperMedian ((mapSet m.metalog_progresses sid pos).map Prod.snd) = some progress →
        m.replicated_metalog_position ≤ progress ∧ progress ≤ m.metalog_position)) ∧
    (∀ ops m2 es, run v q m ops = some (m2, es) →
      m.replicated_metalog_position ≤ m2.replicated_metalog_position ∧
      m2.replicated_metalog_position ≤ m2.metalog_position) := by
  have hi := MedInv_of_Reachable v q m h
  have hb := ReplicaBound_of_Reachable v q m h
  refine ⟨hb.2, fun sid pos hsid hpos => UpdateReplicaProgress_total q m sid pos hsid hpos,
    ?_, ?_⟩
  · intro sid pos m' hu
    obtain ⟨hmem, hle, _⟩ := UpdateReplicaProgress_spec q m m' sid pos hu
    obtain ⟨r1, r2, _, r4⟩ := ReplicaBound_UpdateReplicaProgress q m m' sid pos hi hb hu
    refine ⟨hle, r2, r1.2, r4, ?_⟩
    intro progress hlt hmed
    obtain ⟨old, hold⟩ := Option.isSome_iff_exists.mp (hi.keys sid hmem)
    rw [hold] at hlt
    have hne : m.metalog_progresses ≠ [] := by
      intro he
      rw [he] at hold
      simp [mapFind] at hold
    refine ⟨upperMedian_raise m.metalog_progresses sid old pos _ progress hold hlt
      (hi.median hne) hmed, ?_⟩
    rcases mem_values_mapSet m.metalog_progresses sid pos progress
      (upperMedian_mem _ progress hmed) with e | hin
    · omega
    · obtain ⟨kv, hkv, e⟩ := List.mem_map.mp hin
      have := hb.1 kv hkv
      omega
  · intro ops m2 es hr
    obtain ⟨b2, l2⟩ := ReplicaBound_run v q ops m m2 es hi hb hr
    exact ⟨l2, b2.2⟩

/-- C28, at the example: in `exampleCommitted`, where all three backups have acknowledged
position 1, the committed position 1 does not exceed the metalog position 1, and a repeated
acknowledgement of position 1 by backup 2 changes nothing. -/
theorem C28_replicated_position_bounded_monotone_witness :
    Reachable exampleView exampleSequencer exampleCommitted ∧
    exampleCommitted.replicated_metalog_position ≤ exampleCommitted.metalog_position ∧
    UpdateReplicaProgress exampleSequencer exampleCommitted 2 1 = some exampleCommitted :=
  ⟨exampleCommitted_reachable,
    (C28_replicated_position_bounded_monotone exampleView exampleSequencer exampleCommitted
      exampleCommitted_reachable).1,
    by decide⟩

theorem FinishLocalOpWithResponse_cases (e : EngineBase) (op : LocalOp) (p : Nat) :
    (e.FinishLocalOpWithResponse op p = e ∧
      (p = 0 ∨ mapFind e.fn_call_ctx op.func_call_id = none ∨
        ∃ ctx, mapFind e.fn_call_ctx op.func_call_id = some ctx ∧ p ≤ ctx.metalog_progress)) ∨
    (∃ ctx, mapFind e.fn_call_ctx op.func_call_id = some ctx ∧ ctx.metalog_progress < p ∧
      e.FinishLocalOpWithResponse op p =
        { fn_call_ctx := mapSet e.fn_call_ctx op.func_call_id
            { ctx with metalog_progress := p } }) := by
  by_cases hp : p > 0
  · cases hf : mapFind e.fn_call_ctx op.func_call_id with
    | none =>
      refine Or.inl ⟨?_, Or.inr (Or.inl rfl)⟩
      simp only [EngineBase.FinishLocalOpWithResponse, hp, if_true, hf]
    | some ctx =>
      by_cases hgt : p > ctx.metalog_progress
      · refine Or.inr ⟨ctx, rfl, hgt, ?_⟩
        simp only [EngineBase.FinishLocalOpWithResponse, hp, if_true, hf, hgt]
      · refine Or.inl ⟨?_, Or.inr (Or.inr ⟨ctx, rfl, by omega⟩)⟩
        simp only [EngineBase.FinishLocalOpWithResponse, hp, if_true, hf, hgt, if_false]
  · refine Or.inl ⟨?_, Or.inl (by omega)⟩
    simp only [EngineBase.FinishLocalOpWithResponse, hp, if_false]

theorem engineStep_monotone (kInvalidFuncCallId : Nat) (e e' : EngineBase) (eop : EngineOp)
    (id : Nat) (ctx ctx' : FnCallContext) (hs : engineStep kInvalidFuncCallId e eop = some e')
    (h1 : mapFind e.fn_call_ctx id = some ctx) (h2 : mapFind e'.fn_call_ctx id = some ctx') :
    ctx.metalog_progress ≤ ctx'.metalog_progress ∧ ctx.user_logspace = ctx'.user_logspace := by
  cases eop with
  | newExternal call ls =>
    simp only [engineStep, EngineBase.OnNewExternalFuncCall] at hs
    by_cases hc : mapContains e.fn_call_ctx call = true
    · simp [hc] at hs
    · simp only [hc, Bool.false_eq_true, if_false, Option.some.injEq] at hs
      subst hs
      have hne : call ≠ id := by
        intro e1
        subst e1
        simp [mapContains, h1] at hc
      rw [show mapFind (mapSet e.fn_call_ctx call _) id = _ from
        mapFind_mapSet_ne _ _ hne, h1] at h2
      cases h2
      exact ⟨Nat.le_refl _, rfl⟩
  | newInternal call parent =>
    simp only [engineStep, EngineBase.OnNewInternalFuncCall] at hs
    by_cases hc : mapContains e.fn_call_ctx call = true
    · simp [hc] at hs
    · have hne : call ≠ id := by
        intro e1
        subst e1
        simp [mapContains, h1] at hc
      simp only [hc, Bool.false_eq_true, if_false] at hs
      split at hs
      · cases hs
      · split at hs
        · cases hs
        · simp only [Option.some.injEq] at hs
          subst hs
          rw [show mapFind (mapSet e.fn_call_ctx call _) id = _ from
            mapFind_mapSet_ne _ _ hne, h1] at h2
          cases h2
          exact ⟨Nat.le_refl _, rfl⟩
  | completed call =>
    simp only [engineStep, EngineBase.OnFuncCallCompleted] at hs
    split at hs
    · cases hs
    · simp only [Option.some.injEq] at hs
      subst hs
      rw [show mapFind (mapErase e.fn_call_ctx call) id = _ from mapFind_mapErase _ _ _] at h2
      split at h2
      · cases h2
      · rw [h1] at h2
        cases h2
        exact ⟨Nat.le_refl _, rfl⟩
  | finishOp op p =>
    simp only [engineStep, Option.some.injEq] at hs
    subst hs
    rcases FinishLocalOpWithResponse_cases e op p with ⟨he, _⟩ | ⟨c, hc, hlt, he⟩
    · rw [he, h1] at h2
      cases h2
      exact ⟨Nat.le_refl _, rfl⟩
    · rw [he] at h2
      by_cases hid : op.func_call_id = id
      · rw [hid] at hc h2
        rw [show mapFind (mapSet e.fn_call_ctx id _) id = _ from mapFind_mapSet_self _ _ _] at h2
        rw [h1] at hc
        cases hc
        cases h2
        exact ⟨Nat.le_of_lt hlt, rfl⟩
      · rw [show mapFind (mapSet e.fn_call_ctx op.func_call_id _) id = _ from
          mapFind_mapSet_ne _ _ hid, h1] at h2
        cases h2
        exact ⟨Nat.le_refl _, rfl⟩

/-- C25: (i) a returning `OnNewInternalFuncCall` creates a context for a call that had
none, equal to the parent's current context (its `metalog_progress` and `user_logspace`)
with `parent_call_id` set, and leaves every other context as it was.
(ii) `FinishLocalOpWithResponse(op, .., p)` with `p > 0` on an existing call leaves its
context with `metalog_progress = max(previous, p)` and otherwise unchanged; with `p = 0` or
a call without context it changes nothing; contexts of other calls are never modified.
(iii) Over any single call of the four methods that touch the contexts, a call that has a
context before and after never sees its `metalog_progress` decrease. -/
theorem C25_metalog_progress_monotone (kInvalidFuncCallId : Nat) (e : EngineBase) :
    (∀ call parent e', e.OnNewInternalFuncCall call parent = some e' →
      mapFind e.fn_call_ctx call = none ∧
      ∃ pctx, mapFind e.fn_call_ctx parent = some pctx ∧
        mapFind e'.fn_call_ctx call = some { pctx with parent_call_id := parent } ∧
        ∀ other, other ≠ call →
          mapFind e'.fn_call_ctx other = mapFind e.fn_call_ctx other) ∧
    (∀ (op : LocalOp) (p : Nat),
      (∀ ctx, mapFind e.fn_call_ctx op.func_call_id = some ctx → 0 < p →
        mapFind (e.FinishLocalOpWithResponse op p).fn_call_ctx op.func_call_id =
          some { ctx with metalog_progress := max ctx.metalog_progress p }) ∧
      (p = 0 ∨ mapFind e.fn_call_ctx op.func_call_id = none →
        e.FinishLocalOpWithResponse op p = e) ∧
      (∀ other, other ≠ op.func_call_id →
        mapFind (e.FinishLocalOpWithResponse op p).fn_call_ctx other =
          mapFind e.fn_call_ctx other)) ∧
    (∀ (eop : EngineOp) (e' : EngineBase) (id : Nat) (ctx ctx' : FnCallContext),
      engineStep kInvalidFuncCallId e eop = some e' →
      mapFind e.fn_call_ctx id = some ctx → mapFind e'.fn_call_ctx id = some ctx' →
      ctx.metalog_progress ≤ ctx'.metalog_progress) := by
  refine ⟨?_, ?_, ?_⟩
  · intro call parent e' h
    unfold EngineBase.OnNewInternalFuncCall at h
    by_cases hc : mapContains e.fn_call_ctx call = true
    · simp [hc] at h
    · simp only [hc, Bool.false_eq_true, if_false] at h
      have hnone : mapFind e.fn_call_ctx call = none := by
        cases hf : mapFind e.fn_call_ctx call with
        | none => rfl
        | some c => simp [mapContains, hf] at hc
      split at h
      · cases h
      · cases hp : mapFind e.fn_call_ctx parent with
        | none =>
          simp only [hp] at h
          cases h
        | some pctx =>
          simp only [hp, Option.some.injEq] at h
          subst h
          refine ⟨hnone, pctx, rfl, mapFind_mapSet_self _ _ _, ?_⟩
          intro other ho
          exact mapFind_mapSet_ne _ _ (fun e1 => ho e1.symm)
  · intro op p
    rcases FinishLocalOpWithResponse_cases e op p with ⟨he, hwhy⟩ | ⟨c, hc, hlt, he⟩
    · refine ⟨?_, fun _ => he, fun other _ => by rw [he]⟩
      intro ctx hctx hp
      rw [he, hctx]
      rcases hwhy with h0 | hn | ⟨c, hc, hle⟩
      · omega
      · rw [hn] at hctx
        cases hctx
      · rw [hctx] at hc
        cases hc
        rw [Nat.max_eq_left hle]
    · refine ⟨?_, ?_, ?_⟩
      · intro ctx hctx _
        rw [hctx] at hc
        cases hc
        rw [he, Nat.max_eq_right (Nat.le_of_lt hlt)]
        exact mapFind_mapSet_self _ _ _
      · rintro (h0 | hn)
        · omega
        · rw [hn] at hc
          cases hc
      · intro other ho
        rw [he]
        exact mapFind_mapSet_ne _ _ (fun e1 => ho e1.symm)
  · intro eop e' id ctx ctx' hs h1 h2
    exact (engineStep_monotone kInvalidFuncCallId e e' eop id ctx ctx' hs h1 h2).1

/-- C25, at the example: call 100 has progress 40; finishing an operation of it with
progress 70 raises it to 70, with progress 10 leaves it at 40, and an internal call 101 of
it starts with progress 40. -/
theorem C25_metalog_progress_monotone_witness :
    mapFind (exampleEngine.FinishLocalOpWithResponse
      { func_call_id := 100, client_id := 1, client_data := 0 } 70).fn_call_ctx 100 =
      some { user_logspace := 5, metalog_progress := max 40 70, parent_call_id := 0 } ∧
    mapFind (exampleEngine.FinishLocalOpWithResponse
      { func_call_id := 100, client_id := 1, client_data := 0 } 10).fn_call_ctx 100 =
      some { user_logspace := 5, metalog_progress := max 40 10, parent_call_id := 0 } ∧
    (exampleEngine.OnNewInternalFuncCall 101 100).map (fun e => mapFind e.fn_call_ctx 101) =
      some (some { user_logspace := 5, metalog_progress := 40, parent_call_id := 100 }) :=
  ⟨((C25_metalog_progress_monotone 0 exampleEngine).2.1
      { func_call_id := 100, client_id := 1, client_data := 0 } 70).1 _ rfl (by decide),
    ((C25_metalog_progress_monotone 0 exampleEngine).2.1
      { func_call_id := 100, client_id := 1, client_data := 0 } 10).1 _ rfl (by decide),
    by decide⟩

theorem Index_PickStorageNode_spec (r : Nat) (ix ix' : Index) (shard node : Nat)
    (h : Index.PickStorageNode r ix shard = some (ix', node)) :
    ix' = ix ∧ ∃ c nodes, mapFind ix.next_shard_storage_node shard = some c ∧
      mapFind ix.per_shard_storage_nodes shard = some nodes ∧ r ≠ 0 ∧
      nodes[c % r]? = some node := by
  unfold Index.PickStorageNode at h
  cases hc : mapFind ix.next_shard_storage_node shard with
  | none =>
    simp only [hc] at h
    cases h
  | some c =>
    simp only [hc] at h
    by_cases hr : r = 0
    · simp only [hr, if_true] at h
      cases h
    · simp only [hr, if_false] at h
      cases hn : mapFind ix.per_shard_storage_nodes shard with
      | none =>
        simp only [hn] at h
        cases h
      | some nodes =>
        simp only [hn] at h
        cases hg : nodes[c % r]? with
        | none =>
          simp only [hg] at h
          cases h
        | some n =>
          simp only [hg, Option.some.injEq, Prod.mk.injEq] at h
          obtain ⟨rfl, rfl⟩ := h
          exact ⟨rfl, c, nodes, rfl, rfl, hr, hg⟩

theorem Index_pickTimes_const (r shard : Nat) (ix : Index) (node : Nat)
    (h : Index.PickStorageNode r ix shard = some (ix, node)) :
    ∀ k, Index.pickTimes r shard k ix = some (ix, List.replicate k node) := by
  intro k
  induction k with
  | zero => rfl
  | succ k ih => simp only [Index.pickTimes, h, ih, List.replicate_succ]

theorem StorageShard_pickTimes_spec (shard : StorageShard) (hne : shard.storage_nodes ≠ []) :
    ∀ (k c0 : Nat), c0 + k < 2 ^ 64 →
      ∃ picks, StorageShard.pickTimes shard k c0 = some (c0 + k, picks) ∧
        picks.map some = (List.range' c0 k).map
          (fun c => shard.storage_nodes[c % shard.storage_nodes.length]?) := by
  have hlen : shard.storage_nodes.length ≠ 0 := by
    intro h0
    exact hne (List.length_eq_zero.mp h0)
  intro k
  induction k with
  | zero =>
    intro c0 _
    exact ⟨[], rfl, rfl⟩
  | succ k ih =>
    intro c0 hc
    have hlt : c0 % shard.storage_nodes.length < shard.storage_nodes.length :=
      Nat.mod_lt _ (Nat.pos_of_ne_zero hlen)
    obtain ⟨node, hnode⟩ : ∃ node,
        shard.storage_nodes[c0 % shard.storage_nodes.length]? = some node :=
      ⟨_, List.getElem?_eq_getElem hlt⟩
    have hwrap : (c0 + 1) % 2 ^ 64 = c0 + 1 := Nat.mod_eq_of_lt (by omega)
    have hpick : shard.PickStorageNode c0 = some (c0 + 1, node) := by
      unfold StorageShard.PickStorageNode
      simp only [hlen, if_false, hnode, hwrap]
    obtain ⟨picks, hp, hm⟩ := ih (c0 + 1) (by omega)
    refine ⟨node :: picks, ?_, ?_⟩
    · have : c0 + 1 + k = c0 + (k + 1) := by omega
      simp only [StorageShard.pickTimes, hpick, hp, this]
    · rw [List.range'_succ, List.map_cons, List.map_cons, hm, hnode]

/-- C30: `View::Index::PickStorageNode(shard)` never changes the index, in particular not
the counter `next_shard_storage_node_[shard]`: its fetch-and-add works on a local copy.
With the counter at `c` and the shard's `userlog_replicas` storage nodes known, every call
returns the node at position `c mod userlog_replicas`, and so do any number of successive
calls.  `View::StorageShard::PickStorageNode` instead advances its counter: `k` successive
calls from counter `c0` (no wrap of the `size_t` counter) return
`storage_nodes[(c0 + i) mod n]` for `i = 0, .., k - 1` and leave the counter at `c0 + k`. -/
theorem C30_Index_PickStorageNode_never_rotates (userlog_replicas : Nat) (ix : Index)
    (shard c : Nat) (nodes : List Nat)
    (hc : mapFind ix.next_shard_storage_node shard = some c)
    (hn : mapFind ix.per_shard_storage_nodes shard = some nodes)
    (hlen : nodes.length = userlog_replicas) (hpos : 0 < userlog_replicas) :
    (∀ (r s : Nat) (ix' : Index) (node : Nat),
      Index.PickStorageNode r ix s = some (ix', node) → ix' = ix) ∧
    (∃ node, nodes[c % userlog_replicas]? = some node ∧
      Index.PickStorageNode userlog_replicas ix shard = some (ix, node) ∧
      ∀ k, Index.pickTimes userlog_replicas shard k ix =
        some (ix, List.replicate k node)) ∧
    (∀ (st : StorageShard) (c0 k : Nat), st.storage_nodes ≠ [] → c0 + k < 2 ^ 64 →
      ∃ picks, StorageShard.pickTimes st k c0 = some (c0 + k, picks) ∧
        picks.map some = (List.range' c0 k).map
          (fun i => st.storage_nodes[i % st.storage_nodes.length]?)) := by
  refine ⟨fun r s ix' node h => (Index_PickStorageNode_spec r ix ix' s node h).1, ?_,
    fun st c0 k hne hk => StorageShard_pickTimes_spec st hne k c0 hk⟩
  have hlt : c % userlog_replicas < nodes.length := by
    rw [hlen]
    exact Nat.mod_lt _ hpos
  have hget : nodes[c % userlog_replicas]? = some (nodes[c % userlog_replicas]) :=
    List.getElem?_eq_getElem hlt
  have hpick : Index.PickStorageNode userlog_replicas ix shard =
      some (ix, nodes[c % userlog_replicas]) := by
    unfold Index.PickStorageNode
    simp only [hc, Nat.ne_of_gt hpos, if_false, hn, hget]
  exact ⟨_, hget, hpick, Index_pickTimes_const userlog_replicas shard ix _ hpick⟩

/-- C30, at the example: with the counter of shard `1‖0` at 4 and storage nodes 10, 11, 12,
four calls on the index all return node 11 and leave the counter at 4, while five calls on
the storage shard itself return 11, 12, 10, 11, 12. -/
theorem C30_Index_PickStorageNode_never_rotates_witness :
    Index.pickTimes 3 (JoinTwo16 1 0) 4 exampleIndex =
      some (exampleIndex, [11, 11, 11, 11]) ∧
    StorageShard.pickTimes { shard_id := JoinTwo16 1 0, storage_nodes := [10, 11, 12] } 5 4 =
      some (9, [11, 12, 10, 11, 12]) ∧
    ∃ node, [10, 11, 12][4 % 3]? = some node ∧
      Index.PickStorageNode 3 exampleIndex (JoinTwo16 1 0) = some (exampleIndex, node) ∧
      ∀ k, Index.pickTimes 3 (JoinTwo16 1 0) k exampleIndex =
        some (exampleIndex, List.replicate k node) :=
  ⟨by decide, by decide,
    (C30_Index_PickStorageNode_never_rotates 3 exampleIndex (JoinTwo16 1 0) 4 [10, 11, 12]
      rfl rfl rfl (by decide)).2.1⟩

end log

namespace gateway

open log

theorem mapErase_absent {ν : Type} (m : List (Nat × ν)) (k : Nat)
    (h : mapContains m k = false) : mapErase m k = m := by
  unfold mapErase
  apply List.filter_eq_self.mpr
  intro kv hkv
  have hne : kv.1 ≠ k := by
    intro e
    have hs := mem_keys_isSome k m (List.mem_map.mpr ⟨kv, hkv, e⟩)
    unfold mapContains at h
    rw [h] at hs
    cases hs
  simpa using hne

theorem OnNodeOffline_absent (flags : Flags) (m : NodeManager) (node_id : Nat)
    (hc : RoutingConsistent flags m) (h : mapContains m.connected_nodes node_id = false) :
    (NodeManager.OnNodeOffline flags m NodeType.kEngineNode node_id).connected_nodes =
      m.connected_nodes ∧
    (NodeManager.OnNodeOffline flags m NodeType.kEngineNode node_id).connected_node_list.Perm
      m.connected_node_list ∧
    (NodeManager.OnNodeOffline flags m NodeType.kEngineNode node_id).max_running_requests =
      m.max_running_requests ∧
    (NodeManager.OnNodeOffline flags m NodeType.kEngineNode node_id).heap = m.heap := by
  have he := mapErase_absent m.connected_nodes node_id h
  have hf : mapFind m.connected_nodes node_id = none := by
    unfold mapContains at h
    cases hm : mapFind m.connected_nodes node_id with
    | none => rfl
    | some a =>
      rw [hm] at h
      cases h
  simp only [NodeManager.OnNodeOffline, ne_eq, not_true_eq_false, if_false, he, hf, true_and,
    and_true]
  exact ⟨hc.1.symm, hc.2.symm⟩

theorem OnNodeScaled_list (m : NodeManager) (scale_op : ScaleOp) (node_type : NodeType)
    (node_id : Nat) :
    (NodeManager.OnNodeScaled m scale_op node_type node_id).connected_node_list =
      m.connected_node_list ∧
    (NodeManager.OnNodeScaled m scale_op node_type node_id).max_running_requests =
      m.max_running_requests := by
  unfold NodeManager.OnNodeScaled
  split
  · exact ⟨rfl, rfl⟩
  · cases scale_op <;> exact ⟨rfl, rfl⟩

/-- C23 (the code at the failing input): engine nodes 7 and 8 come online and node 7 is
scaled in, which erases it from `connected_nodes_` only.  `OnNodeOffline` for node 7, then
no longer in `connected_nodes_`, leaves `connected_nodes_` as it is but takes the pointer
of node 7 out of `connected_node_list_` and lowers `max_running_requests_` from 8 to 4.
In a state where `connected_node_list_` and `max_running_requests_` agree with
`connected_nodes_`, as they do when no scale-in has happened, the call on an absent node
changes none of the three (the list is rebuilt with the same elements). -/
theorem C23_OnNodeOffline_after_scale_in_changes_routing :
    mapContains exampleScaledIn.connected_nodes 7 = false ∧
    exampleScaledIn.connected_node_list = [0, 1] ∧
    exampleScaledIn.max_running_requests = 8 ∧
    (NodeManager.OnNodeOffline exampleFlags exampleScaledIn NodeType.kEngineNode
      7).connected_nodes = exampleScaledIn.connected_nodes ∧
    (NodeManager.OnNodeOffline exampleFlags exampleScaledIn NodeType.kEngineNode
      7).connected_node_list = [1] ∧
    (NodeManager.OnNodeOffline exampleFlags exampleScaledIn NodeType.kEngineNode
      7).max_running_requests = 4 ∧
    (∀ (flags : Flags) (m : NodeManager) (node_id : Nat), RoutingConsistent flags m →
      mapContains m.connected_nodes node_id = false →
      (NodeManager.OnNodeOffline flags m NodeType.kEngineNode node_id).connected_nodes =
        m.connected_nodes ∧
      (NodeManager.OnNodeOffline flags m NodeType.kEngineNode
        node_id).connected_node_list.Perm m.connected_node_list ∧
      (NodeManager.OnNodeOffline flags m NodeType.kEngineNode node_id).max_running_requests =
        m.max_running_requests) := by
  refine ⟨by decide, by decide, by decide, by decide, by decide, by decide, ?_⟩
  intro flags m node_id hc h
  obtain ⟨h1, h2, h3, _⟩ := OnNodeOffline_absent flags m node_id hc h
  exact ⟨h1, h2, h3⟩

/-- C24 (the code at the failing input): `OnNodeScaled(kScaleIn, ..)` never changes
`connected_node_list_`, from which `PickNodeForNewFuncCall` picks.  After engine node
`node_id` came online and was scaled in, the list still holds the pointer of its `Node`,
which `connected_nodes_.erase` has destroyed, and under each of the three dispatch policies
the next `PickNodeForNewFuncCall` does not return `false` but selects that slot and
dereferences the destroyed `Node`.  With nodes 7 and 8 online and 7 scaled in, a pick that
lands on index 0 does the same, while index 1 yields node 8. -/
theorem C24_scaled_in_node_stays_in_routing_list :
    (∀ (m : NodeManager) (node_id : Nat),
      (NodeManager.OnNodeScaled m ScaleOp.kScaleIn NodeType.kEngineNode
        node_id).connected_node_list = m.connected_node_list) ∧
    (∀ (flags : Flags) (node_id : Nat) (func_call : FuncCall) (draw : Nat),
      (NodeManager.OnNodeScaled
        (NodeManager.OnNodeOnline flags NodeManager.create NodeType.kEngineNode node_id)
        ScaleOp.kScaleIn NodeType.kEngineNode node_id).connected_node_list = [0] ∧
      (NodeManager.OnNodeScaled
        (NodeManager.OnNodeOnline flags NodeManager.create NodeType.kEngineNode node_id)
        ScaleOp.kScaleIn NodeType.kEngineNode node_id).heap = [] ∧
      (NodeManager.PickNodeForNewFuncCall flags
        (NodeManager.OnNodeScaled
          (NodeManager.OnNodeOnline flags NodeManager.create NodeType.kEngineNode node_id)
          ScaleOp.kScaleIn NodeType.kEngineNode node_id)
        func_call draw).2 = PickResult.destroyedNode 0) ∧
    (NodeManager.PickNodeForNewFuncCall exampleFlags exampleScaledIn
      { func_id := 1, full_call_id := 100 } 0).2 = PickResult.destroyedNode 0 ∧
    (NodeManager.PickNodeForNewFuncCall exampleFlags exampleScaledIn
      { func_id := 1, full_call_id := 100 } 1).2 = PickResult.picked 8 := by
  refine ⟨fun m node_id => (OnNodeScaled_list m _ _ node_id).1, ?_, by decide, by decide⟩
  intro flags node_id func_call draw
  have hstate : NodeManager.OnNodeScaled
      (NodeManager.OnNodeOnline flags NodeManager.create NodeType.kEngineNode node_id)
      ScaleOp.kScaleIn NodeType.kEngineNode node_id =
      { heap := [], next_address := 1, connected_nodes := [], connected_node_list := [0]
        running_requests := []
        max_running_requests := (flags.max_running_requests * 1) % 2 ^ 64
        next_dispatch_node_idx := [] } := by
    simp [NodeManager.OnNodeScaled, NodeManager.OnNodeOnline, NodeManager.create, mapFind,
      mapSet, mapErase]
  rw [hstate]
  refine ⟨rfl, rfl, ?_⟩
  obtain ⟨rr, ll, mx⟩ := flags
  cases rr <;> cases ll <;>
    simp [NodeManager.PickNodeForNewFuncCall, dispatchTo, minElementLoop, mapFind]

end gateway

end faas
